import Mathlib

/-!
HaploClique: incremental maximal-clique maintenance (`CliqueFinder`).

A shallow embedding of `src/CliqueFinder.cpp` and of the parts of
`AlignmentRecord.h` it reads, followed by theorems about it.

Modelling conventions.

* `size_t` / `unsigned int` values are natural numbers.  The only arithmetic
  the engine does on them is `next_id++`, `alignment_count++` and
  `new_alignment_count * 2` rounded up to a block; all three are bounded by
  the number of records held in memory, so no wrap-around is modelled.
* `alignment_set_t` is `boost::dynamic_bitset<>`: a list of bits whose length
  is the bitset's size.
* A null pointer is `none`.  The explicit assertion `assert(cliques!=0)`, the
  dereference of `cliques->begin()` (a null list, or an empty one in
  `reorganize_storage`), the write `alignments[index]` past the array and the
  dereference of an array entry that holds no record are the places where the
  model stops with `none`.
* Calls to the external collaborators (clique collector, edge writer,
  coverage monitor) are recorded, in call order, in the `trace` field.
* The edge calculators are pure functions of the two records.
-/

namespace HaploClique

/-! ## Alignment records -/

/-- The part of an `AlignmentRecord` the engine reads: the interval returned
by `getIntervalStart()` / `getIntervalEnd()`, the identifier written by
`setID`, and `record_nr` standing for the remaining content (which only the
external edge calculators look at). -/
structure AlignmentRecord where
  record_nr : Nat
  intervalStart : Nat
  intervalEnd : Nat
  id : Nat
deriving DecidableEq, Repr

/-- The method `AlignmentRecord::setID`. -/
def AlignmentRecord.setID (a : AlignmentRecord) (id : Nat) : AlignmentRecord :=
  { a with id := id }

/-! ## Bit sets (`alignment_set_t`) -/

/-- The type `alignment_set_t`, a `boost::dynamic_bitset<>`. -/
structure alignment_set_t where
  bits : List Bool
deriving DecidableEq, Repr

namespace alignment_set_t

/-- Number of bits the set can hold (`size()`). -/
def size (s : alignment_set_t) : Nat := s.bits.length

/-- The bitset with `n` bits given by `f`. -/
def ofFn (n : Nat) (f : Nat → Bool) : alignment_set_t := ⟨(List.range n).map f⟩

/-- Construction `alignment_set_t(n)`: `n` bits, all clear. -/
def zeros (n : Nat) : alignment_set_t := ⟨List.replicate n false⟩

/-- Bit test (`operator[]`, `test`); positions past the size read as clear. -/
def test (s : alignment_set_t) (i : Nat) : Bool := s.bits.getD i false

/-- The call `set(i, true)`; nothing is written past the size. -/
def set (s : alignment_set_t) (i : Nat) : alignment_set_t := ⟨s.bits.set i true⟩

/-- Population count (`count()`). -/
def count (s : alignment_set_t) : Nat := s.bits.count true

/-- Whether some bit is set (`any()`). -/
def any (s : alignment_set_t) : Bool := s.bits.any id

/-- In-place union `a |= b`; the result has the size of `a`. -/
def union (a b : alignment_set_t) : alignment_set_t :=
  ofFn a.size (fun i => a.test i || b.test i)

/-- Intersection `a & b`; the result has the size of `a`. -/
def inter (a b : alignment_set_t) : alignment_set_t :=
  ofFn a.size (fun i => a.test i && b.test i)

/-- Whether every bit of `a` is a bit of `b` (`a.is_subset_of(b)`). -/
def is_subset_of (a b : alignment_set_t) : Bool :=
  (List.range a.size).all (fun i => !a.test i || b.test i)

/-- The positions of the set bits, ascending (`find_first` / `find_next`). -/
def members (s : alignment_set_t) : List Nat :=
  (List.range s.size).filter (fun i => s.test i)

end alignment_set_t

/-! ## Cliques -/

/-- The alignment array `AlignmentRecord** alignments`; an entry that holds no
record is `none`. -/
abbrev Store := List (Option AlignmentRecord)

/-- Modelled from the spec: the class `Clique` (its source file is not part of
the sources at hand).  A clique is a membership set plus the cached
leftmost start and rightmost end over its members. -/
structure Clique where
  alignment_set : alignment_set_t
  leftmost_segment_start : Nat
  rightmost_segment_end : Nat
deriving DecidableEq, Repr

/-- The records at the set slots of `s`, in slot order; a slot without a
record contributes nothing. -/
def memberRecords (alignments : Store) (s : alignment_set_t) : List AlignmentRecord :=
  s.members.filterMap (fun i => alignments.getD i none)

/-- Modelled from the spec: the leftmost interval start over the members of a
set (`0` for a set without members). -/
def leftmostOf (alignments : Store) (s : alignment_set_t) : Nat :=
  match (memberRecords alignments s).map AlignmentRecord.intervalStart with
  | [] => 0
  | x :: xs => xs.foldl min x

/-- Modelled from the spec: the rightmost interval end over the members of a
set (`0` for a set without members). -/
def rightmostOf (alignments : Store) (s : alignment_set_t) : Nat :=
  match (memberRecords alignments s).map AlignmentRecord.intervalEnd with
  | [] => 0
  | x :: xs => xs.foldl max x

namespace Clique

/-- Modelled from the spec: the constructor `Clique(parent, alignments)` that
`addAlignment` uses for a split-off clique: it takes the given membership set
and computes the cached bounds from its members. -/
def ofSet (alignments : Store) (s : alignment_set_t) : Clique :=
  ⟨s, leftmostOf alignments s, rightmostOf alignments s⟩

/-- Modelled from the spec: the constructor `Clique(parent, index, capacity)`:
the singleton clique of slot `index` in a set of `capacity` bits. -/
def singleton (alignments : Store) (index capacity : Nat) : Clique :=
  ofSet alignments ((alignment_set_t.zeros capacity).set index)

/-- Modelled from the spec: `Clique::add(index)`: the slot becomes a member and
the cached bounds are recomputed from the current members. -/
def add (alignments : Store) (c : Clique) (index : Nat) : Clique :=
  ofSet alignments (c.alignment_set.set index)

/-- Modelled from the spec: `Clique::intersect(set)`: the members of the
clique that are in `set`. -/
def intersect (c : Clique) (s : alignment_set_t) : alignment_set_t :=
  c.alignment_set.inter s

/-- Modelled from the spec: `Clique::size()`, the number of members. -/
def size (c : Clique) : Nat := c.alignment_set.count

/-- Modelled from the spec: `c.contains(d)`: `c` has all of `d`'s members. -/
def contains (c d : Clique) : Bool := d.alignment_set.is_subset_of c.alignment_set

/-- Modelled from the spec: `Clique::translate(table, table_size,
new_capacity)`: bit `j` of the new set is the old bit at `table[j]`, for
`j < table_size`; the cached bounds are kept. -/
def translate (c : Clique) (translation_table : List Nat) (table_size new_capacity : Nat) :
    Clique :=
  { c with alignment_set := alignment_set_t.ofFn new_capacity (fun j =>
      decide (j < table_size) &&
        (match translation_table.get? j with
         | some i => c.alignment_set.test i
         | none => false)) }

end Clique

/-- Lexicographic "less or equal" on bit lists. -/
def bitsLe : List Bool → List Bool → Bool
  | [], _ => true
  | _ :: _, [] => false
  | a :: as, b :: bs => if a = b then bitsLe as bs else !a

/-- Modelled from the spec: the comparator `clique_comp_t`, a total order over
membership content. -/
def clique_comp_t (a b : Clique) : Prop :=
  bitsLe a.alignment_set.bits b.alignment_set.bits = true

instance : DecidableRel clique_comp_t := fun a b =>
  inferInstanceAs (Decidable (bitsLe a.alignment_set.bits b.alignment_set.bits = true))

/-- Modelled from the spec: the predicate `clique_equal_t`, equality of
membership content. -/
def clique_equal_t (a b : Clique) : Bool := decide (a.alignment_set = b.alignment_set)

/-- Loop of `std::unique`: `a` is the last element kept so far. -/
def uniqueFrom (a : Clique) : List Clique → List Clique
  | [] => [a]
  | b :: rest => if clique_equal_t a b then uniqueFrom a rest else a :: uniqueFrom b rest

/-- The call `std::unique(..., clique_equal_t())` followed by `erase`: of every
run of equal neighbours the first is kept. -/
def unique : List Clique → List Clique
  | [] => []
  | a :: rest => uniqueFrom a rest

/-! ## The engine -/

/-- What the engine is built with: the block width
`alignment_set_t::bits_per_block`, the edge calculator, the optional second
edge calculator, whether an edge writer is attached, and the `no_sort`
switch. -/
structure Config where
  bits_per_block : Nat
  edge_calculator : AlignmentRecord → AlignmentRecord → Bool
  second_edge_calculator : Option (AlignmentRecord → AlignmentRecord → Bool)
  edge_writer : Bool
  no_sort : Bool

/-- A call to one of the external collaborators.  A clique handed to the
collector is recorded together with the records of its members as the store
holds them at the moment of the call. -/
inductive Event where
  | coverageAdd (a : AlignmentRecord)
  | coveragePrune (pos : Nat)
  | addEdge (a b : AlignmentRecord)
  | setNodeCompleted (a : AlignmentRecord)
  | writerFinish
  | cliqueAdd (c : Clique) (members : List AlignmentRecord)
deriving DecidableEq, Repr

/-- The object state of `CliqueFinder`, with the calls made so far. -/
structure CliqueFinder where
  cliques : Option (List Clique)
  capacity : Nat
  alignments : Store
  next_id : Nat
  alignment_count : Nat
  alignments_by_length : List (Nat × Nat)
  trace : List Event
deriving DecidableEq, Repr

/-- Insertion into the ordered set `alignments_by_length` (pairs compared
lexicographically, no duplicates). -/
def setInsert (p : Nat × Nat) : List (Nat × Nat) → List (Nat × Nat)
  | [] => [p]
  | q :: qs =>
    if p = q then q :: qs
    else if p.1 < q.1 ∨ (p.1 = q.1 ∧ p.2 < q.2) then p :: q :: qs
    else q :: setInsert p qs

/-- The constructor `CliqueFinder::CliqueFinder`. -/
def CliqueFinder.init (cfg : Config) : CliqueFinder :=
  { cliques := some []
    capacity := cfg.bits_per_block
    alignments := List.replicate cfg.bits_per_block none
    next_id := 0
    alignment_count := 0
    alignments_by_length := []
    trace := [] }

/-- The event of handing clique `c` to the collector. -/
def deliver (alignments : Store) (c : Clique) : Event :=
  Event.cliqueAdd c (memberRecords alignments c.alignment_set)

/-- Lines 59-64: twice the count, rounded up to the next multiple of the
block width. -/
def newCapacity (bits_per_block new_alignment_count : Nat) : Nat :=
  let new_capacity := new_alignment_count * 2
  let k := new_capacity % bits_per_block
  if k > 0 then new_capacity + (bits_per_block - k) else new_capacity

/-- Lines 53-57: the union of the membership sets of all active cliques. -/
def setUnion (capacity : Nat) (cliques : List Clique) : alignment_set_t :=
  cliques.foldl (fun u c => u.union c.alignment_set) (alignment_set_t.zeros capacity)

/-- Lines 72-90, the slots kept: the old slots still in use, ascending. -/
def translationTable (alignment_count : Nat) (set_union : alignment_set_t) : List Nat :=
  (List.range alignment_count).filter (fun i => set_union.test i)

/-- Lines 84-89 with an edge writer attached: `setNodeCompleted` for every
slot no longer in use, ascending; reading a slot without a record fails. -/
def completedEvents (alignments : Store) (set_union : alignment_set_t) :
    List Nat → Option (List Event)
  | [] => some []
  | i :: rest =>
    if set_union.test i then completedEvents alignments set_union rest
    else
      match alignments.getD i none with
      | none => none
      | some r =>
        (completedEvents alignments set_union rest).map (fun es => Event.setNodeCompleted r :: es)

/-- The method `CliqueFinder::reorganize_storage`. -/
def reorganize_storage (cfg : Config) (cf : CliqueFinder) : Option CliqueFinder :=
  match cf.cliques with
  | none => none
  | some [] => none
  | some (c0 :: cs) =>
    let set_union := setUnion cf.capacity (c0 :: cs)
    let new_alignment_count := set_union.count
    let new_capacity := newCapacity cfg.bits_per_block new_alignment_count
    let translation_table := translationTable cf.alignment_count set_union
    let new_alignments : Store :=
      translation_table.map (fun i => cf.alignments.getD i none) ++
        List.replicate (new_capacity - translation_table.length) none
    let completed :=
      if cfg.edge_writer then
        completedEvents cf.alignments set_union (List.range cf.alignment_count)
      else some []
    match completed with
    | none => none
    | some es =>
      let leftmost_pos := (c0 :: cs).foldl (fun m c => min m c.leftmost_segment_start)
        c0.leftmost_segment_start
      some
        { cliques := some ((c0 :: cs).map
            (fun c => c.translate translation_table new_alignment_count new_capacity))
          capacity := new_capacity
          alignments := new_alignments
          next_id := cf.next_id
          alignment_count := new_alignment_count
          alignments_by_length :=
            (List.range translation_table.length).foldl (fun s j => setInsert (0, j) s) []
          trace := cf.trace ++ es ++ [Event.coveragePrune leftmost_pos] }

/-- Lines 137-140: the edge test of the new alignment against `alignment2`. -/
def setEdge (cfg : Config) (alignment alignment2 : AlignmentRecord) : Bool :=
  if cfg.edge_calculator alignment alignment2 then
    match cfg.second_edge_calculator with
    | some second => second alignment alignment2
    | none => true
  else false

/-- Lines 128-149: the adjacency set of the new alignment and the `addEdge`
calls, scanning `alignments_by_length` in order; reading a slot without a
record fails. -/
def scanEdges (cfg : Config) (alignments : Store) (alignment : AlignmentRecord) :
    List (Nat × Nat) → alignment_set_t → Option (alignment_set_t × List Event)
  | [], adjacent => some (adjacent, [])
  | p :: rest, adjacent =>
    match alignments.getD p.2 none with
    | none => none
    | some alignment2 =>
      if setEdge cfg alignment alignment2 then
        (scanEdges cfg alignments alignment rest (adjacent.set p.2)).map (fun r =>
          (r.1, (if cfg.edge_writer then [Event.addEdge alignment alignment2] else []) ++ r.2))
      else scanEdges cfg alignments alignment rest adjacent

/-- Lines 158-186: the pass over the active cliques.  The result is the
cliques that stay in the collection, the staged `new_cliques`, and the
cliques handed to the collector, each in processing order. -/
def scanCliques (alignments : Store) (alignment : AlignmentRecord) (index : Nat)
    (adjacent : alignment_set_t) : List Clique → List Clique × List Clique × List Clique
  | [] => ([], [], [])
  | clique :: rest =>
    let r := scanCliques alignments alignment index adjacent rest
    if clique.rightmost_segment_end < alignment.intervalStart then
      (r.1, r.2.1, clique :: r.2.2)
    else
      let intersection := clique.intersect adjacent
      if intersection.any then
        if intersection.count = clique.size then
          (r.1, clique.add alignments index :: r.2.1, r.2.2)
        else
          (clique :: r.1, (Clique.ofSet alignments intersection).add alignments index :: r.2.1,
            r.2.2)
      else (clique :: r.1, r.2.1, r.2.2)

/-- Lines 202-220: the inner loop for a fixed `clique_i` over the later
entries; returns whether `clique_i` is kept and the later entries with the
deleted ones set to `none`. -/
def innerPass (clique_i : Clique) : List (Option Clique) → Bool × List (Option Clique)
  | [] => (true, [])
  | none :: rest =>
    let r := innerPass clique_i rest
    (r.1, none :: r.2)
  | some clique_j :: rest =>
    if clique_i.size ≤ clique_j.size then
      if clique_j.contains clique_i then (false, some clique_j :: rest)
      else
        let r := innerPass clique_i rest
        (r.1, some clique_j :: r.2)
    else
      if clique_i.contains clique_j then
        let r := innerPass clique_i rest
        (r.1, none :: r.2)
      else
        let r := innerPass clique_i rest
        (r.1, some clique_j :: r.2)

/-- Lines 199-221: the outer loop; `n` bounds the number of entries left. -/
def subsetPassLoop : Nat → List (Option Clique) → List (Option Clique)
  | 0, l => l
  | _ + 1, [] => []
  | n + 1, none :: rest => none :: subsetPassLoop n rest
  | n + 1, some clique_i :: rest =>
    let r := innerPass clique_i rest
    (if r.1 then some clique_i else none) :: subsetPassLoop n r.2

/-- Lines 198-229: the subset pass over `new_cliques` and the entries that
are pushed to the collection afterwards. -/
def subsetPass (new_cliques : List Clique) : List Clique :=
  (subsetPassLoop new_cliques.length (new_cliques.map some)).filterMap id

/-- Lines 194-197: sort and collapse duplicates unless `no_sort` is set. -/
def sortUnique (no_sort : Bool) (new_cliques : List Clique) : List Clique :=
  if no_sort then new_cliques else unique (new_cliques.insertionSort clique_comp_t)

/-- Lines 110-113 of `addAlignment`: the state after the identifier has been
taken and the coverage monitor called; `reorganize_storage` runs on this
state when the array is full. -/
def beforeStore (cf : CliqueFinder) (alignment_in : AlignmentRecord) : CliqueFinder :=
  { cf with
    next_id := cf.next_id + 1
    trace := cf.trace ++ [Event.coverageAdd (alignment_in.setID cf.next_id)] }

/-- Lines 108-126 of `addAlignment`: the assertion, the new identifier, the
coverage call, the compaction when the array is full, and the write of the
record to slot `index = alignment_count++` and to `alignments_by_length`.
Returns the state, the record as stored and its slot. -/
def storeAlignment (cfg : Config) (cf : CliqueFinder) (alignment_in : AlignmentRecord) :
    Option (CliqueFinder × AlignmentRecord × Nat) :=
  match cf.cliques with
  | none => none
  | some _ =>
    let alignment := alignment_in.setID cf.next_id
    let cf1 := beforeStore cf alignment_in
    let stored := if cf1.alignment_count = cf1.capacity then reorganize_storage cfg cf1 else some cf1
    match stored with
    | none => none
    | some cf2 =>
      let index := cf2.alignment_count
      if index < cf2.capacity then
        some
          ({ cf2 with
              alignment_count := index + 1
              alignments := cf2.alignments.set index (some alignment)
              alignments_by_length := setInsert (0, index) cf2.alignments_by_length },
            alignment, index)
      else none

/-- Lines 157-191 of `addAlignment`: the staged `new_cliques`, with the
singleton clique when no clique took the new alignment. -/
def stagedCliques (alignments : Store) (index capacity : Nat) (staged : List Clique) :
    List Clique :=
  if staged.length = 0 then [Clique.singleton alignments index capacity] else staged

/-- Lines 127-229 of `addAlignment`: the adjacency scan and the update of the
active cliques for the record `alignment` stored at slot `index`. -/
def updateCliques (cfg : Config) (cf : CliqueFinder) (alignment : AlignmentRecord)
    (index : Nat) : Option CliqueFinder :=
  match cf.cliques with
  | none => none
  | some cliques =>
    match scanEdges cfg cf.alignments alignment cf.alignments_by_length
        (alignment_set_t.zeros cf.capacity) with
    | none => none
    | some (adjacent, edges) =>
      let r := scanCliques cf.alignments alignment index adjacent cliques
      let new_cliques := stagedCliques cf.alignments index cf.capacity r.2.1
      some
        { cf with
          cliques := some (r.1 ++ subsetPass (sortUnique cfg.no_sort new_cliques))
          trace := cf.trace ++ edges ++ r.2.2.map (deliver cf.alignments) }

/-- The method `CliqueFinder::addAlignment`. -/
def addAlignment (cfg : Config) (cf : CliqueFinder) (alignment_in : AlignmentRecord) :
    Option CliqueFinder :=
  match storeAlignment cfg cf alignment_in with
  | none => none
  | some (cf3, alignment, index) => updateCliques cfg cf3 alignment index

/-- The method `CliqueFinder::finish`. -/
def finish (cfg : Config) (cf : CliqueFinder) : Option CliqueFinder :=
  match cf.cliques with
  | none => none
  | some cliques =>
    some
      { cf with
        cliques := none
        trace := cf.trace ++ (if cfg.edge_writer then [Event.writerFinish] else []) ++
          cliques.map (deliver cf.alignments) }

/-- The destructor `CliqueFinder::~CliqueFinder`: the calls made in total once
the object is gone. -/
def destroy (cfg : Config) (cf : CliqueFinder) : Option (List Event) :=
  match cf.cliques with
  | none => some cf.trace
  | some _ => (finish cfg cf).map (fun s => s.trace)

/-- The method `CliqueFinder::getAlignmentByIndex`. -/
def getAlignmentByIndex (cf : CliqueFinder) (index : Nat) : Option AlignmentRecord :=
  if index < cf.alignment_count then cf.alignments.getD index none else none

/-- A run of `addAlignment` calls, in order. -/
def addAll (cfg : Config) (cf : CliqueFinder) : List AlignmentRecord → Option CliqueFinder
  | [] => some cf
  | a :: rest =>
    match addAlignment cfg cf a with
    | none => none
    | some cf1 => addAll cfg cf1 rest

/-- The cliques handed to the collector so far, in call order, each as the
list of its members' records. -/
def delivered (tr : List Event) : List (List AlignmentRecord) :=
  tr.filterMap (fun e => match e with
    | Event.cliqueAdd _ members => some members
    | _ => none)

/-- The set of positions whose bit is set. -/
def alignment_set_t.toFinset (s : alignment_set_t) : Finset Nat :=
  (Finset.range s.size).filter (fun i => s.test i = true)

/-! ## Invariants of the reachable states -/

/-- Consistency of the storage part of the state: the capacity is a positive
multiple of the block width, the array has `capacity` entries of which the
first `alignment_count` hold records with strictly ascending identifiers
below `next_id`, and `alignments_by_length` lists exactly those slots. -/
structure StoreOK (cfg : Config) (cf : CliqueFinder) : Prop where
  block : cfg.bits_per_block ∣ cf.capacity
  cap_pos : 0 < cf.capacity
  count_le : cf.alignment_count ≤ cf.capacity
  length_eq : cf.alignments.length = cf.capacity
  present : ∀ i, i < cf.alignment_count → ∃ r, cf.alignments.getD i none = some r
  ids_lt : ∀ i r, i < cf.alignment_count → cf.alignments.getD i none = some r →
    r.id < cf.next_id
  ids_mono : ∀ i j ri rj, i < j → j < cf.alignment_count →
    cf.alignments.getD i none = some ri → cf.alignments.getD j none = some rj →
    ri.id < rj.id
  index_eq : cf.alignments_by_length = (List.range cf.alignment_count).map (fun j => (0, j))

/-- Consistency of a clique list with the storage: every membership set has
`capacity` bits, is not empty and has its members below `bound`. -/
structure CliquesOK (capacity bound : Nat) (cl : List Clique) : Prop where
  size_eq : ∀ c ∈ cl, c.alignment_set.size = capacity
  bits_lt : ∀ c ∈ cl, ∀ i, c.alignment_set.test i = true → i < bound
  nonempty : ∀ c ∈ cl, ∃ i, c.alignment_set.test i = true

/-- Consistency of a state between two calls, before `finish`. -/
structure WF (cfg : Config) (cf : CliqueFinder) : Prop where
  store : StoreOK cfg cf
  cliques : ∃ cl, cf.cliques = some cl ∧ CliquesOK cf.capacity cf.alignment_count cl ∧
    (0 < cf.alignment_count → cl ≠ [])

/-! ## The outcome of the pass over the active cliques, clique by clique -/

/-- The test of line 160: the clique lies left of the new alignment. -/
def isFinal (alignment : AlignmentRecord) (c : Clique) : Bool :=
  decide (c.rightmost_segment_end < alignment.intervalStart)

/-- The cliques the pass hands to the collector. -/
def finalCliques (alignment : AlignmentRecord) (cl : List Clique) : List Clique :=
  cl.filter (isFinal alignment)

/-- The cliques the pass leaves in the collection: those not left of the new
alignment that are not extended by it. -/
def keptCliques (alignment : AlignmentRecord) (adjacent : alignment_set_t)
    (cl : List Clique) : List Clique :=
  cl.filter (fun c => !isFinal alignment c &&
    !((c.intersect adjacent).any && decide ((c.intersect adjacent).count = c.size)))

/-- The cliques the pass stages: for every clique not left of the new
alignment that meets its adjacency set, the common members plus the new
slot. -/
def stagedFrom (alignments : Store) (alignment : AlignmentRecord) (index : Nat)
    (adjacent : alignment_set_t) (cl : List Clique) : List Clique :=
  (cl.filter (fun c => !isFinal alignment c && (c.intersect adjacent).any)).map
    (fun c => Clique.ofSet alignments ((c.intersect adjacent).set index))

/-! ## Notions the statements use -/

/-- The slots that are members of at least one of the cliques. -/
def liveSlots (cl : List Clique) : Finset Nat :=
  cl.foldr (fun c s => c.alignment_set.toFinset ∪ s) ∅

/-- The records in the slots in use, in slot order. -/
def storedRecords (cf : CliqueFinder) : List AlignmentRecord :=
  (List.range cf.alignment_count).filterMap (fun i => cf.alignments.getD i none)

/-- Whether record `r` is a member of one of the cliques `cl`, read through
the array `alignments`. -/
def isLive (alignments : Store) (cl : List Clique) (r : AlignmentRecord) : Bool :=
  cl.any (fun c => decide (r ∈ memberRecords alignments c.alignment_set))

/-! ## Example runs -/

/-- A configuration with block width 2 in which no two records are
compatible. -/
def exampleNoEdges : Config :=
  { bits_per_block := 2
    edge_calculator := fun _ _ => false
    second_edge_calculator := none
    edge_writer := true
    no_sort := false }

/-- Two records whose intervals do not overlap. -/
def exampleApart : List AlignmentRecord := [⟨0, 0, 10, 0⟩, ⟨1, 20, 30, 0⟩]

/-- The state after inserting `exampleApart` with `exampleNoEdges`: the array
is full, the clique of the first record has been handed to the collector and
the clique of the second record is active. -/
def exampleFull : CliqueFinder :=
  { cliques := some [⟨⟨[false, true]⟩, 20, 30⟩]
    capacity := 2
    alignments := [some ⟨0, 0, 10, 0⟩, some ⟨1, 20, 30, 1⟩]
    next_id := 2
    alignment_count := 2
    alignments_by_length := [(0, 0), (0, 1)]
    trace := [Event.coverageAdd ⟨0, 0, 10, 0⟩, Event.coverageAdd ⟨1, 20, 30, 1⟩,
      Event.cliqueAdd ⟨⟨[true, false]⟩, 0, 10⟩ [⟨0, 0, 10, 0⟩]] }


/-- Neither clique's membership set contains the other's. -/
def Incomparable (a b : Clique) : Prop := b.contains a = false ∧ a.contains b = false


/-- A configuration with block width 4 in which the records numbered 0 and 1
and the records numbered 1 and 2 are compatible, and no other two distinct
records are. -/
def examplePath : Config :=
  { bits_per_block := 4
    edge_calculator := fun x y =>
      (x.record_nr = 1 && y.record_nr = 0) || (x.record_nr = 2 && y.record_nr = 1) ||
        x.record_nr = y.record_nr
    second_edge_calculator := none
    edge_writer := false
    no_sort := false }

/-- Three records A, B, C with overlapping intervals. -/
def exampleABC : List AlignmentRecord := [⟨0, 0, 10, 0⟩, ⟨1, 2, 12, 0⟩, ⟨2, 4, 14, 0⟩]


/-- The records `m` are pairwise compatible: of any two of them, the one
inserted later (the larger identifier) tested positive against the other one
with the edge calculator and, when one is configured, with the second edge
calculator. -/
def IsCliqueOf (cfg : Config) (m : List AlignmentRecord) : Prop :=
  ∀ x ∈ m, ∀ y ∈ m, y.id < x.id →
    cfg.edge_calculator x y = true ∧
      ∀ second, cfg.second_edge_calculator = some second → second x y = true


/-- The global identifiers of a list of records. -/
def idsOf (m : List AlignmentRecord) : List Nat := m.map AlignmentRecord.id

/-- Neither identifier list is contained in the other, read as sets. -/
def IdsIncomparable (x y : List Nat) : Prop := ¬ x ⊆ y ∧ ¬ y ⊆ x


/-- The invariant behind the maximality of the output: the active cliques are
pairwise incomparable, the cliques handed to the collector are pairwise
incomparable as identifier sets, no delivered clique is comparable with an
active one, and the delivered cliques are non-empty sets of identifiers
already assigned. -/
structure OutputInv (cf : CliqueFinder) : Prop where
  active : ∀ cl, cf.cliques = some cl → cl.Pairwise Incomparable
  sunk : ((delivered cf.trace).map idsOf).Pairwise IdsIncomparable
  cross : ∀ cl, cf.cliques = some cl → ∀ m ∈ delivered cf.trace, ∀ c ∈ cl,
    IdsIncomparable (idsOf m) (idsOf (memberRecords cf.alignments c.alignment_set))
  ids_lt : ∀ m ∈ delivered cf.trace, ∀ r ∈ m, r.id < cf.next_id
  nonempty : ∀ m ∈ delivered cf.trace, m ≠ []


/-- The records of a run as they are stored: the inputs with the identifiers
`next_id`, `next_id + 1`, ... written by `setID`. -/
def assignIds (next_id : Nat) : List AlignmentRecord → List AlignmentRecord
  | [] => []
  | a :: rest => a.setID next_id :: assignIds (next_id + 1) rest


/-- A configuration with block width 2 in which all records are compatible. -/
def exampleAllEdges : Config :=
  { bits_per_block := 2
    edge_calculator := fun _ _ => true
    second_edge_calculator := none
    edge_writer := false
    no_sort := false }


/-- The records `K` form a maximal clique of the graph on the records `V`:
they are records of `V`, pairwise compatible, and every pairwise compatible
set of records of `V` that includes them has no further record. -/
def IsMaximalClique (cfg : Config) (V K : List AlignmentRecord) : Prop :=
  K ⊆ V ∧ IsCliqueOf cfg K ∧
    ∀ K' : List AlignmentRecord, K' ⊆ V → IsCliqueOf cfg K' → K ⊆ K' → K' ⊆ K

/-- The invariant behind the enumeration of the maximal cliques of the
records `V` inserted so far, while nothing is handed to the collector. -/
structure EnumInv (cfg : Config) (V : List AlignmentRecord) (cf : CliqueFinder) : Prop where
  ids_lt : ∀ r ∈ V, r.id < cf.next_id
  nothing_sunk : delivered cf.trace = []
  members_sub : ∀ cl, cf.cliques = some cl → ∀ c ∈ cl,
    memberRecords cf.alignments c.alignment_set ⊆ V
  compatible : ∀ cl, cf.cliques = some cl → ∀ c ∈ cl,
    IsCliqueOf cfg (memberRecords cf.alignments c.alignment_set)
  cover : ∀ cl, cf.cliques = some cl → ∀ K : List AlignmentRecord, K ⊆ V → K ≠ [] →
    IsCliqueOf cfg K → ∃ c ∈ cl, K ⊆ memberRecords cf.alignments c.alignment_set
  incomparable : ∀ cl, cf.cliques = some cl → cl.Pairwise Incomparable
  ends : ∀ cl, cf.cliques = some cl → ∀ c ∈ cl,
    ∀ r ∈ memberRecords cf.alignments c.alignment_set,
      r.intervalEnd ≤ c.rightmost_segment_end


/-- The state after `finish` on `exampleFull`: the edge writer has been told
to finish, the remaining clique has been handed to the collector, and there
is no clique list any more. -/
def exampleDrained : CliqueFinder :=
  { cliques := none
    capacity := 2
    alignments := [some ⟨0, 0, 10, 0⟩, some ⟨1, 20, 30, 1⟩]
    next_id := 2
    alignment_count := 2
    alignments_by_length := [(0, 0), (0, 1)]
    trace := [Event.coverageAdd ⟨0, 0, 10, 0⟩, Event.coverageAdd ⟨1, 20, 30, 1⟩,
      Event.cliqueAdd ⟨⟨[true, false]⟩, 0, 10⟩ [⟨0, 0, 10, 0⟩], Event.writerFinish,
      Event.cliqueAdd ⟨⟨[false, true]⟩, 20, 30⟩ [⟨1, 20, 30, 1⟩]] }


/-- Three staged candidates over three slots: {0,1}, {0} and {0,1} again. -/
def exampleCandidates : List Clique :=
  [⟨⟨[true, true, false]⟩, 0, 12⟩, ⟨⟨[true, false, false]⟩, 0, 10⟩,
    ⟨⟨[true, true, false]⟩, 0, 12⟩]


/-- The records for which the edge writer's `setNodeCompleted` has been
called, in call order. -/
def completedRecords (tr : List Event) : List AlignmentRecord :=
  tr.filterMap (fun e => match e with
    | Event.setNodeCompleted r => some r
    | _ => none)


/-- Three records whose intervals do not overlap. -/
def exampleApart3 : List AlignmentRecord := [⟨0, 0, 10, 0⟩, ⟨1, 20, 30, 0⟩, ⟨2, 40, 50, 0⟩]


/-- A configuration with block width 4 and `no_sort` set in which every later
record is compatible with the record numbered 0 and with no other. -/
def exampleStar : Config :=
  { bits_per_block := 4
    edge_calculator := fun _ y => y.record_nr = 0
    second_edge_calculator := none
    edge_writer := false
    no_sort := true }

/-- Four records with overlapping intervals. -/
def exampleStarInputs : List AlignmentRecord :=
  [⟨0, 0, 10, 0⟩, ⟨1, 2, 12, 0⟩, ⟨2, 4, 14, 0⟩, ⟨3, 6, 16, 0⟩]


/-- The configuration `examplePath` with an edge calculator that differs from
it in one respect only: it rejects a record paired with itself. -/
def examplePathNoSelf : Config :=
  { bits_per_block := 4
    edge_calculator := fun x y =>
      (x.record_nr = 1 && y.record_nr = 0) || (x.record_nr = 2 && y.record_nr = 1) ||
        (decide (x.record_nr = y.record_nr) && decide (x ≠ y))
    second_edge_calculator := none
    edge_writer := false
    no_sort := false }

/-! ## Facts about bit sets -/

namespace alignment_set_t

theorem test_eq (s : alignment_set_t) (i : Nat) : s.test i = (s.bits[i]?).getD false := by
  simp [test, List.getD_eq_getElem?_getD]

@[simp] theorem size_ofFn (n : Nat) (f : Nat → Bool) : (ofFn n f).size = n := by
  simp [ofFn, size]

@[simp] theorem test_ofFn (n : Nat) (f : Nat → Bool) (i : Nat) :
    (ofFn n f).test i = (decide (i < n) && f i) := by
  by_cases h : i < n
  · simp [test_eq, ofFn, List.getElem?_map, List.getElem?_range, h]
  · have hn : (List.range n)[i]? = none :=
      List.getElem?_eq_none (by simpa using Nat.le_of_not_lt h)
    simp [test_eq, ofFn, List.getElem?_map, h, hn]

@[simp] theorem size_zeros (n : Nat) : (zeros n).size = n := by simp [zeros, size]

@[simp] theorem test_zeros (n i : Nat) : (zeros n).test i = false := by
  by_cases h : i < n <;> simp [test_eq, zeros, List.getElem?_replicate, h]

@[simp] theorem size_set (s : alignment_set_t) (i : Nat) : (s.set i).size = s.size := by
  simp [set, size]

theorem test_lt_size {s : alignment_set_t} {i : Nat} (h : s.test i = true) : i < s.size := by
  by_contra hn
  have : s.bits[i]? = none := List.getElem?_eq_none (by simpa [size] using hn)
  simp [test_eq, this] at h

theorem test_set (s : alignment_set_t) (i j : Nat) :
    (s.set i).test j = ((decide (j = i) && decide (i < s.size)) || s.test j) := by
  by_cases hji : j = i
  · subst hji
    by_cases h : j < s.size
    · simp [test_eq, set, List.getElem?_set, h, size] at *
      simp [h]
    · have h1 : s.test j = false := by
        cases hh : s.test j
        · rfl
        · exact absurd (test_lt_size hh) h
      have h2 : (s.set j).test j = false := by
        cases hh : (s.set j).test j
        · rfl
        · exact absurd (by simpa using test_lt_size hh) h
      simp [h1, h2, h]
  · have : ¬ i = j := fun h => hji h.symm
    simp [test_eq, set, List.getElem?_set, hji, this]

@[simp] theorem size_union (a b : alignment_set_t) : (a.union b).size = a.size := by
  simp [union]

@[simp] theorem size_inter (a b : alignment_set_t) : (a.inter b).size = a.size := by
  simp [inter]

theorem test_inter (a b : alignment_set_t) (i : Nat) :
    (a.inter b).test i = (a.test i && b.test i) := by
  simp only [inter, test_ofFn]
  cases h : a.test i
  · simp
  · simp [test_lt_size h]

theorem test_union (a b : alignment_set_t) (i : Nat) :
    (a.union b).test i = (a.test i || (decide (i < a.size) && b.test i)) := by
  simp only [union, test_ofFn]
  cases h : a.test i
  · simp
  · simp [test_lt_size h]

theorem is_subset_of_iff (a b : alignment_set_t) :
    a.is_subset_of b = true ↔ ∀ i, a.test i = true → b.test i = true := by
  simp only [is_subset_of, List.all_eq_true, List.mem_range]
  constructor
  · intro h i hi
    have := h i (test_lt_size hi)
    simpa [hi] using this
  · intro h i _
    cases hi : a.test i
    · simp
    · simp [h i hi]

theorem any_iff (s : alignment_set_t) : s.any = true ↔ ∃ i, s.test i = true := by
  simp only [any, List.any_eq_true, id]
  constructor
  · rintro ⟨b, hb, rfl⟩
    obtain ⟨i, hi, hget⟩ := List.getElem_of_mem hb
    exact ⟨i, by simp [test_eq, List.getElem?_eq_getElem hi, hget]⟩
  · rintro ⟨i, hi⟩
    have hlt := test_lt_size hi
    refine ⟨true, ?_, rfl⟩
    have hlt' : i < s.bits.length := by simpa [size] using hlt
    have : s.bits[i]? = some s.bits[i] := List.getElem?_eq_getElem hlt'
    simp [test_eq, this] at hi
    rw [← hi]
    exact List.getElem_mem _

theorem mem_toFinset {s : alignment_set_t} {i : Nat} : i ∈ s.toFinset ↔ s.test i = true := by
  simp only [toFinset, Finset.mem_filter, Finset.mem_range]
  exact ⟨fun h => h.2, fun h => ⟨test_lt_size h, h⟩⟩

theorem count_eq_card (s : alignment_set_t) : s.count = s.toFinset.card := by
  obtain ⟨l⟩ := s
  induction l using List.reverseRecOn with
  | nil => simp [count, toFinset, size]
  | append_singleton l b ih =>
    simp only [count, toFinset, size, test_eq] at ih ⊢
    rw [List.count_append, ih, List.length_append, List.length_singleton, Finset.range_succ,
      Finset.filter_insert]
    have hfilter : (Finset.range l.length).filter (fun i => ((l ++ [b])[i]?).getD false = true)
        = (Finset.range l.length).filter (fun i => (l[i]?).getD false = true) := by
      apply Finset.filter_congr
      intro i hi
      rw [List.getElem?_append_left (by simpa using hi)]
    rw [hfilter]
    cases b
    · simp
    · simp

end alignment_set_t

/-! ## Facts about lists and slots -/

theorem getD_map_range (n : Nat) (f : Nat → α) (d : α) (i : Nat) (h : i < n) :
    ((List.range n).map f).getD i d = f i := by
  simp [List.getD_eq_getElem?_getD, List.getElem?_map, List.getElem?_range, h]

theorem list_eq_map_range (l : List α) (d : α) :
    l = (List.range l.length).map (fun j => l.getD j d) := by
  apply List.ext_getElem
  · simp
  · intro i h1 h2
    simp [List.getD_eq_getElem?_getD, List.getElem?_eq_getElem h1]

theorem filter_range_length_eq_card (n : Nat) (p : Nat → Bool) :
    ((List.range n).filter p).length = ((Finset.range n).filter (fun i => p i = true)).card := by
  rw [← List.toFinset_card_of_nodup ((List.nodup_range n).filter _)]
  congr 1
  ext i
  simp

theorem newCapacity_dvd (B L : Nat) (hB : 0 < B) : B ∣ newCapacity B L := by
  unfold newCapacity
  simp only
  split
  · have hlt : (L * 2) % B < B := Nat.mod_lt _ hB
    have h := Nat.div_add_mod (L * 2) B
    refine ⟨(L * 2) / B + 1, ?_⟩
    rw [Nat.mul_add, Nat.mul_one]
    omega
  · rename_i h
    have : (L * 2) % B = 0 := by omega
    exact Nat.dvd_of_mod_eq_zero this

theorem newCapacity_ge (B L : Nat) : 2 * L ≤ newCapacity B L := by
  unfold newCapacity
  simp only
  split <;> omega

theorem newCapacity_least (B L m : Nat) (hB : 0 < B) (hm : B ∣ m) (h : 2 * L ≤ m) :
    newCapacity B L ≤ m := by
  unfold newCapacity
  simp only
  obtain ⟨q, rfl⟩ := hm
  have hdm := Nat.div_add_mod (L * 2) B
  have hlt : (L * 2) % B < B := Nat.mod_lt _ hB
  split
  · rename_i hk
    have hq : (L * 2) / B < q := by
      by_contra hcon
      have hle : q ≤ (L * 2) / B := Nat.le_of_not_lt hcon
      have : B * q ≤ B * ((L * 2) / B) := Nat.mul_le_mul_left _ hle
      omega
    have : B * ((L * 2) / B + 1) ≤ B * q := Nat.mul_le_mul_left _ hq
    rw [Nat.mul_add, Nat.mul_one] at this
    omega
  · omega

/-! ## Facts about compaction -/

theorem setUnion_foldl_size (cl : List Clique) (u : alignment_set_t) :
    (cl.foldl (fun u c => u.union c.alignment_set) u).size = u.size := by
  induction cl generalizing u with
  | nil => rfl
  | cons c cl ih => simp [List.foldl_cons, ih]

theorem setUnion_foldl_test (cl : List Clique) (u : alignment_set_t) (i : Nat) :
    (cl.foldl (fun u c => u.union c.alignment_set) u).test i = true ↔
      u.test i = true ∨ (i < u.size ∧ ∃ c ∈ cl, c.alignment_set.test i = true) := by
  induction cl generalizing u with
  | nil => simp
  | cons c cl ih =>
    rw [List.foldl_cons, ih, alignment_set_t.size_union, alignment_set_t.test_union]
    simp only [Bool.or_eq_true, Bool.and_eq_true, decide_eq_true_eq, List.mem_cons,
      exists_eq_or_imp]
    constructor
    · rintro ((h | h) | h)
      · exact Or.inl h
      · exact Or.inr ⟨h.1, Or.inl h.2⟩
      · exact Or.inr ⟨h.1, Or.inr h.2⟩
    · rintro (h | h)
      · exact Or.inl (Or.inl h)
      · rcases h.2 with h2 | h2
        · exact Or.inl (Or.inr ⟨h.1, h2⟩)
        · exact Or.inr ⟨h.1, h2⟩

theorem setUnion_size (capacity : Nat) (cl : List Clique) :
    (setUnion capacity cl).size = capacity := by
  simp [setUnion, setUnion_foldl_size]

theorem setUnion_test (capacity : Nat) (cl : List Clique) (i : Nat) :
    (setUnion capacity cl).test i = true ↔
      i < capacity ∧ ∃ c ∈ cl, c.alignment_set.test i = true := by
  simp [setUnion, setUnion_foldl_test]

theorem mem_translationTable {n : Nat} {u : alignment_set_t} {i : Nat} :
    i ∈ translationTable n u ↔ i < n ∧ u.test i = true := by
  simp [translationTable]

theorem translationTable_sorted (n : Nat) (u : alignment_set_t) :
    (translationTable n u).Sorted (· < ·) := by
  unfold translationTable
  exact (List.pairwise_lt_range n).filter _

theorem translationTable_length (n : Nat) (u : alignment_set_t)
    (h : ∀ i, u.test i = true → i < n) : (translationTable n u).length = u.count := by
  rw [translationTable, filter_range_length_eq_card, alignment_set_t.count_eq_card]
  congr 1
  ext i
  simp only [Finset.mem_filter, Finset.mem_range, alignment_set_t.mem_toFinset]
  exact ⟨fun hh => hh.2, fun hh => ⟨h i hh, hh⟩⟩

theorem setInsert_range (n : Nat) :
    setInsert (0, n) ((List.range n).map (fun j => ((0 : Nat), j))) =
      (List.range (n + 1)).map (fun j => ((0 : Nat), j)) := by
  have key : ∀ (l : List Nat), (∀ x ∈ l, x < n) →
      setInsert (0, n) (l.map (fun j => ((0 : Nat), j))) = (l ++ [n]).map (fun j => ((0 : Nat), j)) := by
    intro l
    induction l with
    | nil => intro _; rfl
    | cons x l ih =>
      intro hx
      have hxn : x < n := hx x (List.mem_cons_self _ _)
      have h1 : ¬ ((0 : Nat), n) = (0, x) := by
        intro h
        have := congrArg Prod.snd h
        simp at this
        omega
      have h2 : ¬ n < x := by omega
      simp only [List.map_cons, setInsert, h1, if_false, List.cons_append]
      simp only [Nat.lt_irrefl, true_and, false_or, h2, if_false]
      rw [ih (fun y hy => hx y (List.mem_cons_of_mem _ hy))]
  rw [key _ (fun x hx => List.mem_range.mp hx), List.range_succ]

theorem foldl_setInsert_range (n : Nat) :
    (List.range n).foldl (fun s j => setInsert (0, j) s) [] =
      (List.range n).map (fun j => ((0 : Nat), j)) := by
  induction n with
  | zero => rfl
  | succ n ih => rw [List.range_succ, List.foldl_append, ih, List.foldl_cons, List.foldl_nil,
      setInsert_range, List.range_succ]

theorem completedEvents_some (alignments : Store) (u : alignment_set_t) (l : List Nat)
    (h : ∀ i ∈ l, ∃ r, alignments.getD i none = some r) :
    ∃ es, completedEvents alignments u l = some es ∧
      ∀ e ∈ es, ∃ r, e = Event.setNodeCompleted r := by
  induction l with
  | nil => exact ⟨[], rfl, by simp⟩
  | cons i l ih =>
    obtain ⟨es, hes, hall⟩ := ih (fun j hj => h j (List.mem_cons_of_mem _ hj))
    obtain ⟨r, hr⟩ := h i (List.mem_cons_self _ _)
    unfold completedEvents
    by_cases hu : u.test i = true
    · simp only [hu, if_true]
      exact ⟨es, hes, hall⟩
    · simp only [hu, hr, hes, Option.map_some']
      refine ⟨Event.setNodeCompleted r :: es, by simp, ?_⟩
      intro e he
      rcases List.mem_cons.mp he with rfl | he
      · exact ⟨r, rfl⟩
      · exact hall e he

/-- What `reorganize_storage` returns on a state with a non-empty clique list
whose first `alignment_count` slots hold records. -/
theorem reorganize_storage_some (cfg : Config) (cf : CliqueFinder) (cl : List Clique)
    (hcl : cf.cliques = some cl) (hne : cl ≠ [])
    (hpres : ∀ i, i < cf.alignment_count → ∃ r, cf.alignments.getD i none = some r) :
    ∃ cf' es, reorganize_storage cfg cf = some cf' ∧
      cf'.cliques = some (cl.map (fun c => c.translate
        (translationTable cf.alignment_count (setUnion cf.capacity cl))
        (setUnion cf.capacity cl).count
        (newCapacity cfg.bits_per_block (setUnion cf.capacity cl).count))) ∧
      cf'.capacity = newCapacity cfg.bits_per_block (setUnion cf.capacity cl).count ∧
      cf'.alignments =
        (translationTable cf.alignment_count (setUnion cf.capacity cl)).map
          (fun i => cf.alignments.getD i none) ++
        List.replicate (newCapacity cfg.bits_per_block (setUnion cf.capacity cl).count -
          (translationTable cf.alignment_count (setUnion cf.capacity cl)).length) none ∧
      cf'.next_id = cf.next_id ∧
      cf'.alignment_count = (setUnion cf.capacity cl).count ∧
      cf'.alignments_by_length =
        (List.range (translationTable cf.alignment_count (setUnion cf.capacity cl)).length).map
          (fun j => ((0 : Nat), j)) ∧
      cf'.trace = cf.trace ++ es ∧
      (∀ e ∈ es, (∃ r, e = Event.setNodeCompleted r) ∨ ∃ p, e = Event.coveragePrune p) := by
  obtain ⟨c0, cs, rfl⟩ := List.exists_cons_of_ne_nil hne
  obtain ⟨es, hes, hall⟩ := completedEvents_some cf.alignments (setUnion cf.capacity (c0 :: cs))
    (List.range cf.alignment_count) (fun i hi => hpres i (List.mem_range.mp hi))
  by_cases hw : cfg.edge_writer = true
  · have hred := (by simp only [reorganize_storage, hcl, hw, if_true, hes]; rfl :
      reorganize_storage cfg cf = some _)
    refine ⟨_, es ++ [Event.coveragePrune ((c0 :: cs).foldl
      (fun m c => min m c.leftmost_segment_start) c0.leftmost_segment_start)], hred, rfl, rfl,
      rfl, rfl, rfl, ?_, ?_, ?_⟩
    · exact foldl_setInsert_range _
    · simp
    · intro e he
      rcases List.mem_append.mp he with he | he
      · exact Or.inl (hall e he)
      · exact Or.inr ⟨_, List.mem_singleton.mp he⟩
  · have hred := (by simp only [reorganize_storage, hcl, hw]; rfl :
      reorganize_storage cfg cf = some _)
    refine ⟨_, [Event.coveragePrune ((c0 :: cs).foldl
      (fun m c => min m c.leftmost_segment_start) c0.leftmost_segment_start)], hred, rfl, rfl,
      rfl, rfl, rfl, ?_, ?_, ?_⟩
    · exact foldl_setInsert_range _
    · simp
    · intro e he
      exact Or.inr ⟨_, List.mem_singleton.mp he⟩

theorem filter_range_of_lt (p : Nat → Bool) (m n : Nat) (hmn : m ≤ n)
    (hp : ∀ j, p j = true → j < m) : (List.range n).filter p = (List.range m).filter p := by
  obtain ⟨k, rfl⟩ := Nat.exists_eq_add_of_le hmn
  rw [List.range_add, List.filter_append]
  have : ((List.range k).map (fun x => m + x)).filter p = [] := by
    rw [List.filter_eq_nil_iff]
    intro a ha
    obtain ⟨x, _, rfl⟩ := List.mem_map.mp ha
    intro hpa
    have := hp _ hpa
    omega
  rw [this, List.append_nil]

theorem test_translate (c : Clique) (T : List Nat) (L cap : Nat) (j : Nat) :
    (c.translate T L cap).alignment_set.test j = true ↔
      j < cap ∧ j < L ∧ ∃ i, T[j]? = some i ∧ c.alignment_set.test i = true := by
  simp only [Clique.translate, alignment_set_t.test_ofFn, Bool.and_eq_true, decide_eq_true_eq,
    List.get?_eq_getElem?]
  constructor
  · rintro ⟨h1, h2, h3⟩
    refine ⟨h1, h2, ?_⟩
    cases hT : T[j]? with
    | none => simp [hT] at h3
    | some i => exact ⟨i, rfl, by simpa [hT] using h3⟩
  · rintro ⟨h1, h2, i, hi, hc⟩
    exact ⟨h1, h2, by simp [hi, hc]⟩

theorem size_translate (c : Clique) (T : List Nat) (L cap : Nat) :
    (c.translate T L cap).alignment_set.size = cap := by
  simp [Clique.translate]

theorem members_eq_filter_table (s u : alignment_set_t) (n : Nat)
    (hlt : ∀ i, s.test i = true → i < n) (hn : n ≤ s.size)
    (hu : ∀ i, s.test i = true → u.test i = true) :
    s.members = (translationTable n u).filter (fun i => s.test i) := by
  unfold alignment_set_t.members translationTable
  rw [filter_range_of_lt _ n s.size hn hlt, List.filter_filter]
  apply List.filter_congr
  intro i _
  cases h : s.test i
  · simp
  · simp [hu i h]

theorem members_translate (c : Clique) (T : List Nat) (cap : Nat) (hT : T.length ≤ cap) :
    (c.translate T T.length cap).alignment_set.members =
      (List.range T.length).filter (fun j => c.alignment_set.test (T.getD j 0)) := by
  unfold alignment_set_t.members
  rw [size_translate, filter_range_of_lt _ T.length cap hT]
  · apply List.filter_congr
    intro j hj
    have hj' : j < T.length := List.mem_range.mp hj
    rw [Bool.eq_iff_iff, test_translate]
    simp only [List.getD_eq_getElem?_getD, List.getElem?_eq_getElem hj',
      Option.getD_some, Option.some.injEq, exists_eq_left']
    exact ⟨fun h => h.2.2, fun h => ⟨by omega, hj', h⟩⟩
  · intro j hj
    exact ((test_translate _ _ _ _ _).mp hj).2.1

/-- Reading the members of a translated clique through the compacted array
gives the same records, in the same order, as reading the clique through the
old array. -/
theorem memberRecords_translate (alignments : Store) (c : Clique) (u : alignment_set_t)
    (n cap : Nat) (hlt : ∀ i, c.alignment_set.test i = true → i < n)
    (hn : n ≤ c.alignment_set.size)
    (hu : ∀ i, c.alignment_set.test i = true → u.test i = true)
    (hcap : (translationTable n u).length ≤ cap) :
    memberRecords
        ((translationTable n u).map (fun i => alignments.getD i none) ++
          List.replicate (cap - (translationTable n u).length) none)
        (c.translate (translationTable n u) (translationTable n u).length cap).alignment_set =
      memberRecords alignments c.alignment_set := by
  unfold memberRecords
  rw [members_translate _ _ _ hcap, members_eq_filter_table _ u n hlt hn hu]
  generalize translationTable n u = T
  conv_rhs => rw [list_eq_map_range T 0, List.filter_map, List.filterMap_map]
  have hfl : (List.range T.length).filter ((fun i => c.alignment_set.test i) ∘ fun j => T.getD j 0)
      = (List.range T.length).filter (fun j => c.alignment_set.test (T.getD j 0)) := rfl
  rw [hfl]
  apply List.filterMap_congr
  intro j hj
  have hj' : j < T.length := List.mem_range.mp (List.mem_filter.mp hj).1
  simp only [Function.comp, List.getD_eq_getElem?_getD]
  rw [List.getElem?_append_left (by simpa using hj')]
  simp [List.getElem?_map, List.getElem?_eq_getElem hj']

theorem getD_compacted (alignments : Store) (T : List Nat) (k j : Nat) (hj : j < T.length) :
    (T.map (fun i => alignments.getD i none) ++ List.replicate k none).getD j none =
      alignments.getD (T.getD j 0) none := by
  simp only [List.getD_eq_getElem?_getD]
  rw [List.getElem?_append_left (by simpa using hj)]
  simp [List.getElem?_map, List.getElem?_eq_getElem hj]

theorem count_pos_of_test {s : alignment_set_t} {i : Nat} (h : s.test i = true) :
    0 < s.count := by
  rw [alignment_set_t.count_eq_card]
  exact Finset.card_pos.mpr ⟨i, alignment_set_t.mem_toFinset.mpr h⟩

/-- Compaction of a consistent state that holds at least one record succeeds
and gives a consistent state with free slots; every clique reads the same
records afterwards. -/
theorem reorganize_storage_wf (cfg : Config) (cf : CliqueFinder)
    (hB : 0 < cfg.bits_per_block) (hwf : WF cfg cf) (hpos : 0 < cf.alignment_count) :
    ∃ cf' cl es T, cf.cliques = some cl ∧ reorganize_storage cfg cf = some cf' ∧
      WF cfg cf' ∧ cf'.alignment_count < cf'.capacity ∧ cf'.next_id = cf.next_id ∧
      cf'.trace = cf.trace ++ es ∧
      (∀ e ∈ es, (∃ r, e = Event.setNodeCompleted r) ∨ ∃ p, e = Event.coveragePrune p) ∧
      cf'.cliques = some (cl.map (fun c => c.translate T T.length cf'.capacity)) ∧
      (∀ c ∈ cl, memberRecords cf'.alignments
          (c.translate T T.length cf'.capacity).alignment_set =
        memberRecords cf.alignments c.alignment_set) ∧
      (∀ j r, j < cf'.alignment_count → cf'.alignments.getD j none = some r →
        ∃ i, i < cf.alignment_count ∧ cf.alignments.getD i none = some r) := by
  obtain ⟨hs, cl, hcl, hok, hne⟩ := hwf
  have hne' := hne hpos
  obtain ⟨cf', es, hre, h1, h2, h3, h4, h5, h6, h7, h8⟩ :=
    reorganize_storage_some cfg cf cl hcl hne' hs.present
  have hutest : ∀ c ∈ cl, ∀ i, c.alignment_set.test i = true →
      (setUnion cf.capacity cl).test i = true := by
    intro c hc i hi
    exact (setUnion_test _ _ _).mpr
      ⟨Nat.lt_of_lt_of_le (hok.bits_lt c hc i hi) hs.count_le, c, hc, hi⟩
  have hubits : ∀ i, (setUnion cf.capacity cl).test i = true → i < cf.alignment_count := by
    intro i hi
    obtain ⟨_, c, hc, hci⟩ := (setUnion_test _ _ _).mp hi
    exact hok.bits_lt c hc i hci
  have hTlen := translationTable_length cf.alignment_count _ hubits
  have hLpos : 0 < (setUnion cf.capacity cl).count := by
    obtain ⟨c0, cs, rfl⟩ := List.exists_cons_of_ne_nil hne'
    obtain ⟨i, hi⟩ := hok.nonempty c0 (List.mem_cons_self _ _)
    exact count_pos_of_test (hutest c0 (List.mem_cons_self _ _) i hi)
  have hge := newCapacity_ge cfg.bits_per_block (setUnion cf.capacity cl).count
  have hTmem : ∀ j, j < (translationTable cf.alignment_count (setUnion cf.capacity cl)).length →
      (translationTable cf.alignment_count (setUnion cf.capacity cl)).getD j 0 <
        cf.alignment_count := by
    intro j hj
    have : (translationTable cf.alignment_count (setUnion cf.capacity cl)).getD j 0 ∈
        translationTable cf.alignment_count (setUnion cf.capacity cl) := by
      rw [List.getD_eq_getElem _ _ hj]
      exact List.getElem_mem _
    exact (mem_translationTable.mp this).1
  have hstore : ∀ j, j < cf'.alignment_count → cf'.alignments.getD j none =
      cf.alignments.getD
        ((translationTable cf.alignment_count (setUnion cf.capacity cl)).getD j 0) none := by
    intro j hj
    rw [h3]
    exact getD_compacted _ _ _ _ (by omega)
  refine ⟨cf', cl, es, translationTable cf.alignment_count (setUnion cf.capacity cl), hcl, hre,
    ⟨⟨?_, ?_, ?_, ?_, ?_, ?_, ?_, ?_⟩, _, h1, ⟨?_, ?_, ?_⟩, ?_⟩, ?_, h4, h7, h8, ?_, ?_, ?_⟩
  · rw [h2]; exact newCapacity_dvd _ _ hB
  · omega
  · omega
  · rw [h3, h2]; simp; omega
  · intro j hj
    rw [hstore j hj]
    exact hs.present _ (hTmem j (by omega))
  · intro j r hj hr
    rw [hstore j hj] at hr
    rw [h4]
    exact hs.ids_lt _ r (hTmem j (by omega)) hr
  · intro i j ri rj hij hj hri hrj
    rw [hstore i (by omega)] at hri
    rw [hstore j hj] at hrj
    refine hs.ids_mono _ _ ri rj ?_ (hTmem j (by omega)) hri hrj
    have hsorted := translationTable_sorted cf.alignment_count (setUnion cf.capacity cl)
    have hi' : i < (translationTable cf.alignment_count (setUnion cf.capacity cl)).length := by
      omega
    have hj' : j < (translationTable cf.alignment_count (setUnion cf.capacity cl)).length := by
      omega
    rw [List.getD_eq_getElem _ _ hi', List.getD_eq_getElem _ _ hj']
    exact List.pairwise_iff_getElem.mp hsorted i j hi' hj' hij
  · rw [h6, h5, hTlen]
  · intro c hc
    obtain ⟨d, _, rfl⟩ := List.mem_map.mp hc
    rw [h2]; exact size_translate _ _ _ _
  · intro c hc j hj
    obtain ⟨d, _, rfl⟩ := List.mem_map.mp hc
    rw [h5]
    exact ((test_translate _ _ _ _ _).mp hj).2.1
  · intro c hc
    obtain ⟨d, hd, rfl⟩ := List.mem_map.mp hc
    obtain ⟨i, hi⟩ := hok.nonempty d hd
    have hiT : i ∈ translationTable cf.alignment_count (setUnion cf.capacity cl) :=
      mem_translationTable.mpr ⟨hok.bits_lt d hd i hi, hutest d hd i hi⟩
    obtain ⟨j, hj, hget⟩ := List.getElem_of_mem hiT
    refine ⟨j, (test_translate _ _ _ _ _).mpr ⟨by omega, by omega, i, ?_, hi⟩⟩
    rw [List.getElem?_eq_getElem hj, hget]
  · intro _
    simpa using hne'
  · omega
  · rw [h1, h2, hTlen]
  · intro c hc
    rw [h3, h2, hTlen.symm]
    have hge' := newCapacity_ge cfg.bits_per_block
      (translationTable cf.alignment_count (setUnion cf.capacity cl)).length
    refine memberRecords_translate cf.alignments c (setUnion cf.capacity cl) cf.alignment_count _
      (hok.bits_lt c hc) ?_ (hutest c hc) (by omega)
    rw [hok.size_eq c hc]
    exact hs.count_le
  · intro j r hj hr
    rw [hstore j hj] at hr
    exact ⟨_, hTmem j (by omega), hr⟩

/-! ## Facts about storing a record -/

theorem getD_set_ne (alignments : Store) (index i : Nat) (x : Option AlignmentRecord)
    (h : i ≠ index) : (alignments.set index x).getD i none = alignments.getD i none := by
  simp [List.getD_eq_getElem?_getD, List.getElem?_set, Ne.symm h]

theorem getD_set_eq (alignments : Store) (index : Nat) (x : Option AlignmentRecord)
    (h : index < alignments.length) : (alignments.set index x).getD index none = x := by
  simp [List.getD_eq_getElem?_getD, List.getElem?_set, h]

theorem memberRecords_set (alignments : Store) (s : alignment_set_t) (index : Nat)
    (x : Option AlignmentRecord) (h : s.test index = false) :
    memberRecords (alignments.set index x) s = memberRecords alignments s := by
  unfold memberRecords
  apply List.filterMap_congr
  intro i hi
  have hi' : s.test i = true := by
    simpa using (List.mem_filter.mp hi).2
  have hne : i ≠ index := by
    rintro rfl
    rw [h] at hi'
    exact Bool.noConfusion hi'
  exact getD_set_ne _ _ _ _ hne

theorem beforeStore_wf (cfg : Config) (cf : CliqueFinder) (a : AlignmentRecord)
    (hwf : WF cfg cf) : WF cfg (beforeStore cf a) := by
  obtain ⟨hs, hc⟩ := hwf
  exact ⟨⟨hs.block, hs.cap_pos, hs.count_le, hs.length_eq, hs.present,
    fun i r hi hr => Nat.lt_succ_of_lt (hs.ids_lt i r hi hr), hs.ids_mono, hs.index_eq⟩, hc⟩

/-- Storing a record in a consistent state succeeds.  The state returned has
the record at slot `index`, the last slot in use; the cliques are those of the
state before, renumbered when a compaction took place, and read the same
records as before. -/
theorem storeAlignment_wf (cfg : Config) (cf : CliqueFinder) (a : AlignmentRecord)
    (hB : 0 < cfg.bits_per_block) (hwf : WF cfg cf) :
    ∃ cf3 index cl f es, storeAlignment cfg cf a = some (cf3, a.setID cf.next_id, index) ∧
      cf.cliques = some cl ∧ cf3.cliques = some (cl.map f) ∧
      StoreOK cfg cf3 ∧ CliquesOK cf3.capacity index (cl.map f) ∧
      (0 < index → cl ≠ []) ∧
      cf3.alignment_count = index + 1 ∧ index < cf3.capacity ∧
      cf3.alignments.getD index none = some (a.setID cf.next_id) ∧
      cf3.next_id = cf.next_id + 1 ∧
      cf3.trace = cf.trace ++ es ∧
      (∀ e ∈ es, ∀ c m, e ≠ Event.cliqueAdd c m) ∧
      (∀ c ∈ cl, memberRecords cf3.alignments (f c).alignment_set =
          memberRecords cf.alignments c.alignment_set ∧
        (f c).leftmost_segment_start = c.leftmost_segment_start ∧
        (f c).rightmost_segment_end = c.rightmost_segment_end) := by
  -- the state after the identifier and the coverage call
  let cf1 : CliqueFinder := beforeStore cf a
  have hwf1 : WF cfg cf1 := beforeStore_wf cfg cf a hwf
  obtain ⟨cl, hcl, hok, hne⟩ := hwf.cliques
  -- the state after the optional compaction
  have hstored : ∃ cf2 f es2, (if cf1.alignment_count = cf1.capacity
        then reorganize_storage cfg cf1 else some cf1) = some cf2 ∧
      WF cfg cf2 ∧ cf2.alignment_count < cf2.capacity ∧ cf2.next_id = cf.next_id + 1 ∧
      cf2.trace = cf.trace ++ es2 ∧ (∀ e ∈ es2, ∀ c m, e ≠ Event.cliqueAdd c m) ∧
      cf2.cliques = some (cl.map f) ∧
      (0 < cf2.alignment_count → cl ≠ []) ∧
      (∀ j r, j < cf2.alignment_count → cf2.alignments.getD j none = some r →
        r.id < cf.next_id) ∧
      (∀ c ∈ cl, memberRecords cf2.alignments (f c).alignment_set =
          memberRecords cf.alignments c.alignment_set ∧
        (f c).leftmost_segment_start = c.leftmost_segment_start ∧
        (f c).rightmost_segment_end = c.rightmost_segment_end) := by
    by_cases hfull : cf1.alignment_count = cf1.capacity
    · have hpos : 0 < cf1.alignment_count := by
        rw [hfull]; exact hwf1.store.cap_pos
      obtain ⟨cf2, cl', es, T, hcl', hre, hwf2, hlt, hid, htr, hes, hcl2, hrec, hold⟩ :=
        reorganize_storage_wf cfg cf1 hB hwf1 hpos
      have hcleq : cl' = cl := by
        have : cf1.cliques = some cl := hcl
        rw [this] at hcl'
        exact (Option.some.inj hcl').symm
      subst hcleq
      refine ⟨cf2, fun c => c.translate T T.length cf2.capacity,
        [Event.coverageAdd (a.setID cf.next_id)] ++ es, ?_, hwf2, hlt, hid, ?_, ?_, hcl2, ?_, ?_,
        ?_⟩
      · rw [if_pos hfull]; exact hre
      · rw [htr]; simp [cf1, beforeStore]
      · intro e he c m heq
        rcases List.mem_append.mp he with he | he
        · rw [List.mem_singleton.mp he] at heq
          exact Event.noConfusion heq
        · rcases hes e he with ⟨r, hr⟩ | ⟨p, hp⟩
          · rw [hr] at heq; exact Event.noConfusion heq
          · rw [hp] at heq; exact Event.noConfusion heq
      · intro _; exact hne hpos
      · intro j r hj hr
        obtain ⟨i, hi, hir⟩ := hold j r hj hr
        exact hwf.store.ids_lt i r hi hir
      · intro c hc
        exact ⟨hrec c hc, rfl, rfl⟩
    · refine ⟨cf1, id, [Event.coverageAdd (a.setID cf.next_id)], ?_, hwf1, ?_, rfl, rfl, ?_,
        ?_, hne, hwf.store.ids_lt, ?_⟩
      · rw [if_neg hfull]
      · exact Nat.lt_of_le_of_ne hwf1.store.count_le hfull
      · intro e he c m heq
        rw [List.mem_singleton.mp he] at heq
        exact Event.noConfusion heq
      · simpa using hcl
      · intro c _
        exact ⟨rfl, rfl, rfl⟩
  obtain ⟨cf2, f, es2, hst, hwf2, hlt2, hid2, htr2, hes2, hcl2, hne2, hidlt, hrec2⟩ := hstored
  obtain ⟨hs2, cl2, hcl2', hok2, _⟩ := hwf2
  have hcl2eq : cl2 = cl.map f := by
    rw [hcl2] at hcl2'
    exact (Option.some.inj hcl2').symm
  subst hcl2eq
  have hlen : cf2.alignment_count < cf2.alignments.length := by
    rw [hs2.length_eq]; exact hlt2
  refine ⟨{ cf2 with
      alignment_count := cf2.alignment_count + 1
      alignments := cf2.alignments.set cf2.alignment_count (some (a.setID cf.next_id))
      alignments_by_length := setInsert (0, cf2.alignment_count) cf2.alignments_by_length },
    cf2.alignment_count, cl, f, es2, ?_, hcl, hcl2, ⟨hs2.block, hs2.cap_pos, hlt2, ?_, ?_, ?_, ?_,
      ?_⟩, hok2, hne2, rfl, hlt2, ?_, hid2, htr2, hes2, ?_⟩
  · have hdef : storeAlignment cfg cf a =
        match (if cf1.alignment_count = cf1.capacity then reorganize_storage cfg cf1
          else some cf1) with
        | none => none
        | some cf2 =>
          if cf2.alignment_count < cf2.capacity then
            some
              ({ cf2 with
                  alignment_count := cf2.alignment_count + 1
                  alignments := cf2.alignments.set cf2.alignment_count (some (a.setID cf.next_id))
                  alignments_by_length :=
                    setInsert (0, cf2.alignment_count) cf2.alignments_by_length },
                a.setID cf.next_id, cf2.alignment_count)
          else none := by
      unfold storeAlignment
      split
      · rename_i h
        rw [hcl] at h
        exact Option.noConfusion h
      · rfl
    rw [hdef, hst]
    simp only [hlt2, if_true]
  · simp only [List.length_set]; exact hs2.length_eq
  · intro i hi
    by_cases hii : i = cf2.alignment_count
    · subst hii
      exact ⟨_, getD_set_eq _ _ _ hlen⟩
    · simp only
      rw [getD_set_ne _ _ _ _ hii]
      exact hs2.present i (by simp only at hi; omega)
  · intro i r hi hr
    simp only at hi hr ⊢
    by_cases hii : i = cf2.alignment_count
    · subst hii
      rw [getD_set_eq _ _ _ hlen] at hr
      rw [← Option.some.inj hr, hid2]
      simp [AlignmentRecord.setID]
    · rw [getD_set_ne _ _ _ _ hii] at hr
      exact hs2.ids_lt i r (by omega) hr
  · intro i j ri rj hij hj hri hrj
    simp only at hj hri hrj
    have hi_ne : i ≠ cf2.alignment_count := by omega
    rw [getD_set_ne _ _ _ _ hi_ne] at hri
    by_cases hjj : j = cf2.alignment_count
    · subst hjj
      rw [getD_set_eq _ _ _ hlen] at hrj
      rw [← Option.some.inj hrj]
      exact hidlt i ri (by omega) hri
    · rw [getD_set_ne _ _ _ _ hjj] at hrj
      exact hs2.ids_mono i j ri rj hij (by omega) hri hrj
  · simp only
    rw [hs2.index_eq]
    exact setInsert_range _
  · exact getD_set_eq _ _ _ hlen
  · intro c hc
    obtain ⟨h1, h2, h3⟩ := hrec2 c hc
    refine ⟨?_, h2, h3⟩
    simp only
    rw [memberRecords_set, h1]
    cases htest : (f c).alignment_set.test cf2.alignment_count
    · rfl
    · exact absurd (hok2.bits_lt (f c) (List.mem_map_of_mem f hc) _ htest) (Nat.lt_irrefl _)

/-! ## More facts about bit sets -/

namespace alignment_set_t

theorem ext_test {a b : alignment_set_t} (hsize : a.size = b.size)
    (h : ∀ i, a.test i = b.test i) : a = b := by
  obtain ⟨la⟩ := a
  obtain ⟨lb⟩ := b
  simp only [size] at hsize
  congr 1
  apply List.ext_getElem hsize
  intro i h1 h2
  have := h i
  simpa [test_eq, List.getElem?_eq_getElem h1, List.getElem?_eq_getElem h2] using this

theorem toFinset_inter (a b : alignment_set_t) :
    (a.inter b).toFinset = a.toFinset ∩ b.toFinset := by
  ext i
  simp [mem_toFinset, test_inter]

theorem count_inter_eq_iff (a b : alignment_set_t) :
    (a.inter b).count = a.count ↔ ∀ i, a.test i = true → b.test i = true := by
  rw [count_eq_card, count_eq_card, toFinset_inter]
  constructor
  · intro h i hi
    have heq : a.toFinset ∩ b.toFinset = a.toFinset :=
      Finset.eq_of_subset_of_card_le Finset.inter_subset_left (le_of_eq h.symm)
    have : i ∈ a.toFinset ∩ b.toFinset := by
      rw [heq]; exact mem_toFinset.mpr hi
    exact mem_toFinset.mp (Finset.mem_inter.mp this).2
  · intro h
    have : a.toFinset ∩ b.toFinset = a.toFinset := by
      apply Finset.inter_eq_left.mpr
      intro i hi
      exact mem_toFinset.mpr (h i (mem_toFinset.mp hi))
    rw [this]

theorem inter_eq_self (a b : alignment_set_t) (h : ∀ i, a.test i = true → b.test i = true) :
    a.inter b = a := by
  apply ext_test (size_inter a b)
  intro i
  rw [test_inter]
  cases hi : a.test i
  · rfl
  · simp [h i hi]

theorem count_le_of_subset {a b : alignment_set_t}
    (h : ∀ i, a.test i = true → b.test i = true) : a.count ≤ b.count := by
  rw [count_eq_card, count_eq_card]
  apply Finset.card_le_card
  intro i hi
  exact mem_toFinset.mpr (h i (mem_toFinset.mp hi))

theorem subset_of_subset_of_count_le {a b : alignment_set_t}
    (h : ∀ i, a.test i = true → b.test i = true) (hc : b.count ≤ a.count) :
    ∀ i, b.test i = true → a.test i = true := by
  rw [count_eq_card, count_eq_card] at hc
  have hsub : a.toFinset ⊆ b.toFinset := fun i hi => mem_toFinset.mpr (h i (mem_toFinset.mp hi))
  have heq := Finset.eq_of_subset_of_card_le hsub hc
  intro i hi
  have : i ∈ a.toFinset := by rw [heq]; exact mem_toFinset.mpr hi
  exact mem_toFinset.mp this

theorem any_inter_iff (a b : alignment_set_t) :
    (a.inter b).any = true ↔ ∃ i, a.test i = true ∧ b.test i = true := by
  rw [any_iff]
  simp [test_inter]

theorem test_set_of_lt (s : alignment_set_t) (i j : Nat) (h : i < s.size) :
    (s.set i).test j = true ↔ j = i ∨ s.test j = true := by
  rw [test_set]
  simp [h]

end alignment_set_t

/-! ## Facts about the pass over the active cliques -/

theorem scanCliques_delivered (alignments : Store) (v : AlignmentRecord) (index : Nat)
    (adjacent : alignment_set_t) (cl : List Clique) :
    (scanCliques alignments v index adjacent cl).2.2 =
      cl.filter (fun c => decide (c.rightmost_segment_end < v.intervalStart)) := by
  induction cl with
  | nil => rfl
  | cons c cl ih =>
    simp only [scanCliques, List.filter_cons]
    by_cases h1 : c.rightmost_segment_end < v.intervalStart
    · simp [h1, ih]
    · simp only [h1, if_false, decide_False]
      split
      · split <;> simpa using ih
      · simpa using ih

theorem scanCliques_kept (alignments : Store) (v : AlignmentRecord) (index : Nat)
    (adjacent : alignment_set_t) (cl : List Clique) :
    (scanCliques alignments v index adjacent cl).1 =
      cl.filter (fun c => !decide (c.rightmost_segment_end < v.intervalStart) &&
        !((c.intersect adjacent).any &&
          decide ((c.intersect adjacent).count = c.size))) := by
  induction cl with
  | nil => rfl
  | cons c cl ih =>
    simp only [scanCliques, List.filter_cons]
    by_cases h1 : c.rightmost_segment_end < v.intervalStart
    · simp [h1, ih]
    · simp only [h1, if_false, decide_False]
      by_cases h2 : (c.intersect adjacent).any = true
      · by_cases h3 : (c.intersect adjacent).count = c.size
        · simp [h2, h3, ih]
        · simp [h2, h3, ih]
      · simp [h2, ih]

theorem scanCliques_staged (alignments : Store) (v : AlignmentRecord) (index : Nat)
    (adjacent : alignment_set_t) (cl : List Clique) :
    (scanCliques alignments v index adjacent cl).2.1 =
      (cl.filter (fun c => !decide (c.rightmost_segment_end < v.intervalStart) &&
        (c.intersect adjacent).any)).map (fun c =>
          if (c.intersect adjacent).count = c.size then c.add alignments index
          else (Clique.ofSet alignments (c.intersect adjacent)).add alignments index) := by
  induction cl with
  | nil => rfl
  | cons c cl ih =>
    simp only [scanCliques, List.filter_cons]
    by_cases h1 : c.rightmost_segment_end < v.intervalStart
    · simp [h1, ih]
    · simp only [h1, if_false, decide_False]
      by_cases h2 : (c.intersect adjacent).any = true
      · by_cases h3 : (c.intersect adjacent).count = c.size
        · simp [h2, h3, ih]
        · simp [h2, h3, ih]
      · simp [h2, ih]

theorem scanCliques_staged_eq (alignments : Store) (v : AlignmentRecord) (index : Nat)
    (adjacent : alignment_set_t) (cl : List Clique) :
    (scanCliques alignments v index adjacent cl).2.1 =
      (cl.filter (fun c => !decide (c.rightmost_segment_end < v.intervalStart) &&
        (c.intersect adjacent).any)).map (fun c =>
          Clique.ofSet alignments ((c.intersect adjacent).set index)) := by
  rw [scanCliques_staged]
  apply List.map_congr_left
  intro c _
  split
  · rename_i h
    have hsub := (alignment_set_t.count_inter_eq_iff c.alignment_set adjacent).mp h
    have : c.intersect adjacent = c.alignment_set :=
      alignment_set_t.inter_eq_self _ _ hsub
    rw [this]
    rfl
  · rfl

/-! ## Facts about the subset pass -/

theorem contains_iff (c d : Clique) :
    c.contains d = true ↔ ∀ i, d.alignment_set.test i = true → c.alignment_set.test i = true :=
  alignment_set_t.is_subset_of_iff _ _

theorem contains_refl (c : Clique) : c.contains c = true :=
  (contains_iff c c).mpr (fun _ h => h)

theorem contains_trans {a b c : Clique} (h1 : a.contains b = true) (h2 : b.contains c = true) :
    a.contains c = true :=
  (contains_iff a c).mpr (fun i hi => (contains_iff a b).mp h1 i ((contains_iff b c).mp h2 i hi))

theorem innerPass_length (ci : Clique) (rest : List (Option Clique)) :
    (innerPass ci rest).2.length = rest.length := by
  induction rest with
  | nil => rfl
  | cons x rest ih =>
    cases x with
    | none => simp [innerPass, ih]
    | some cj =>
      simp only [innerPass]
      split
      · split
        · rfl
        · simp [ih]
      · split <;> simp [ih]

theorem innerPass_sub (ci : Clique) (rest : List (Option Clique)) :
    ∀ y ∈ (innerPass ci rest).2.filterMap id, y ∈ rest.filterMap id := by
  induction rest with
  | nil => simp [innerPass]
  | cons x rest ih =>
    cases x with
    | none => simpa [innerPass] using ih
    | some cj =>
      simp only [innerPass]
      split
      · split
        · intro y hy; exact hy
        · intro y hy
          simp only [List.filterMap_cons, id, List.mem_cons] at hy ⊢
          rcases hy with rfl | hy
          · exact Or.inl rfl
          · exact Or.inr (ih y hy)
      · split
        · intro y hy
          simp only [List.filterMap_cons, id, List.mem_cons] at hy ⊢
          exact Or.inr (ih y hy)
        · intro y hy
          simp only [List.filterMap_cons, id, List.mem_cons] at hy ⊢
          rcases hy with rfl | hy
          · exact Or.inl rfl
          · exact Or.inr (ih y hy)

/-- When the inner loop keeps `clique_i`, no later entry left contains it or is
contained in it. -/
theorem innerPass_keep (ci : Clique) (rest : List (Option Clique))
    (hk : (innerPass ci rest).1 = true) :
    ∀ y ∈ (innerPass ci rest).2.filterMap id, y.contains ci = false ∧ ci.contains y = false := by
  induction rest with
  | nil => simp [innerPass]
  | cons x rest ih =>
    cases x with
    | none => simpa [innerPass] using ih (by simpa [innerPass] using hk)
    | some cj =>
      simp only [innerPass] at hk ⊢
      split at hk
      · rename_i hsz
        split at hk
        · exact Bool.noConfusion hk
        · rename_i hc
          rw [if_pos hsz, if_neg hc]
          intro y hy
          simp only [List.filterMap_cons, id, List.mem_cons] at hy
          rcases hy with rfl | hy
          · refine ⟨by simpa using hc, ?_⟩
            by_contra hcon
            have hyc : ci.contains y = true := by simpa using hcon
            apply hc
            rw [contains_iff]
            exact alignment_set_t.subset_of_subset_of_count_le ((contains_iff _ _).mp hyc) hsz
          · exact ih hk y hy
      · rename_i hsz
        rw [if_neg hsz]
        split at hk
        · rename_i hc
          rw [if_pos hc]
          intro y hy
          simp only [List.filterMap_cons, id] at hy
          exact ih hk y hy
        · rename_i hc
          rw [if_neg hc]
          intro y hy
          simp only [List.filterMap_cons, id, List.mem_cons] at hy
          rcases hy with rfl | hy
          · refine ⟨?_, by simpa using hc⟩
            by_contra hcon
            have hyc : y.contains ci = true := by simpa using hcon
            exact hsz (alignment_set_t.count_le_of_subset ((contains_iff _ _).mp hyc))
          · exact ih hk y hy

/-- After the inner loop, `clique_i` and every later entry is contained in an
entry that is left. -/
theorem innerPass_cover (ci : Clique) (rest : List (Option Clique)) :
    ∀ x ∈ ci :: rest.filterMap id,
      ∃ y ∈ (if (innerPass ci rest).1 then [ci] else []) ++ (innerPass ci rest).2.filterMap id,
        y.contains x = true := by
  induction rest with
  | nil =>
    intro x hx
    simp only [List.filterMap_nil, List.mem_singleton] at hx
    subst hx
    exact ⟨x, by simp [innerPass], contains_refl x⟩
  | cons o rest ih =>
    cases o with
    | none => simpa [innerPass] using ih
    | some cj =>
      have hci := ih ci (List.mem_cons_self _ _)
      have hrest := fun x (hx : x ∈ rest.filterMap id) => ih x (List.mem_cons_of_mem _ hx)
      intro x hx
      simp only [List.filterMap_cons, id, List.mem_cons] at hx
      simp only [innerPass]
      by_cases hsz : ci.size ≤ cj.size
      · rw [if_pos hsz]
        by_cases hc : cj.contains ci = true
        · rw [if_pos hc]
          simp only [Bool.false_eq_true, if_false, List.nil_append, List.filterMap_cons, id]
          rcases hx with rfl | rfl | hx
          · exact ⟨cj, List.mem_cons_self _ _, hc⟩
          · exact ⟨x, List.mem_cons_self _ _, contains_refl x⟩
          · exact ⟨x, List.mem_cons_of_mem _ hx, contains_refl x⟩
        · rw [if_neg hc]
          simp only [List.filterMap_cons, id]
          rcases hx with rfl | rfl | hx
          · obtain ⟨y, hy, hyc⟩ := hci
            refine ⟨y, ?_, hyc⟩
            rcases List.mem_append.mp hy with hy | hy
            · exact List.mem_append_left _ hy
            · exact List.mem_append_right _ (List.mem_cons_of_mem _ hy)
          · exact ⟨x, List.mem_append_right _ (List.mem_cons_self _ _), contains_refl x⟩
          · obtain ⟨y, hy, hyc⟩ := hrest x hx
            refine ⟨y, ?_, hyc⟩
            rcases List.mem_append.mp hy with hy | hy
            · exact List.mem_append_left _ hy
            · exact List.mem_append_right _ (List.mem_cons_of_mem _ hy)
      · rw [if_neg hsz]
        by_cases hc : ci.contains cj = true
        · rw [if_pos hc]
          simp only [List.filterMap_cons, id]
          rcases hx with rfl | rfl | hx
          · exact hci
          · obtain ⟨y, hy, hyc⟩ := hci
            exact ⟨y, hy, contains_trans hyc hc⟩
          · exact hrest x hx
        · rw [if_neg hc]
          simp only [List.filterMap_cons, id]
          rcases hx with rfl | rfl | hx
          · obtain ⟨y, hy, hyc⟩ := hci
            refine ⟨y, ?_, hyc⟩
            rcases List.mem_append.mp hy with hy | hy
            · exact List.mem_append_left _ hy
            · exact List.mem_append_right _ (List.mem_cons_of_mem _ hy)
          · exact ⟨x, List.mem_append_right _ (List.mem_cons_self _ _), contains_refl x⟩
          · obtain ⟨y, hy, hyc⟩ := hrest x hx
            refine ⟨y, ?_, hyc⟩
            rcases List.mem_append.mp hy with hy | hy
            · exact List.mem_append_left _ hy
            · exact List.mem_append_right _ (List.mem_cons_of_mem _ hy)

theorem subsetPassLoop_spec (n : Nat) (l : List (Option Clique)) (hn : l.length ≤ n) :
    (∀ y ∈ (subsetPassLoop n l).filterMap id, y ∈ l.filterMap id) ∧
    (∀ x ∈ l.filterMap id, ∃ y ∈ (subsetPassLoop n l).filterMap id, y.contains x = true) ∧
    ((subsetPassLoop n l).filterMap id).Pairwise
      (fun a b => b.contains a = false ∧ a.contains b = false) := by
  induction n generalizing l with
  | zero =>
    have : l = [] := List.eq_nil_of_length_eq_zero (Nat.le_zero.mp hn)
    subst this
    simp [subsetPassLoop]
  | succ n ih =>
    cases l with
    | nil => simp [subsetPassLoop]
    | cons o rest =>
      have hrest : rest.length ≤ n := by simpa using hn
      cases o with
      | none =>
        have h := ih rest hrest
        simp only [subsetPassLoop, List.filterMap_cons, id]
        exact h
      | some ci =>
        have hlen : (innerPass ci rest).2.length ≤ n := by
          rw [innerPass_length]; exact hrest
        obtain ⟨h1, h2, h3⟩ := ih (innerPass ci rest).2 hlen
        simp only [subsetPassLoop]
        refine ⟨?_, ?_, ?_⟩
        · intro y hy
          simp only [List.filterMap_cons, id] at hy ⊢
          by_cases hk : (innerPass ci rest).1 = true
          · simp only [hk, if_true, List.mem_cons] at hy
            rcases hy with rfl | hy
            · exact List.mem_cons_self _ _
            · exact List.mem_cons_of_mem _ (innerPass_sub ci rest y (h1 y hy))
          · simp only [hk] at hy
            exact List.mem_cons_of_mem _ (innerPass_sub ci rest y (h1 y hy))
        · intro x hx
          simp only [List.filterMap_cons, id] at hx
          obtain ⟨y, hy, hyx⟩ := innerPass_cover ci rest x hx
          by_cases hk : (innerPass ci rest).1 = true
          · simp only [hk, if_true, List.singleton_append, List.mem_cons] at hy
            simp only [hk, if_true, List.filterMap_cons, id, List.mem_cons]
            rcases hy with rfl | hy
            · exact ⟨y, Or.inl rfl, hyx⟩
            · obtain ⟨z, hz, hzy⟩ := h2 y hy
              exact ⟨z, Or.inr hz, contains_trans hzy hyx⟩
          · simp only [hk, List.nil_append] at hy
            simp only [hk, List.filterMap_cons]
            obtain ⟨z, hz, hzy⟩ := h2 y hy
            exact ⟨z, hz, contains_trans hzy hyx⟩
        · by_cases hk : (innerPass ci rest).1 = true
          · simp only [hk, if_true, List.filterMap_cons, id, List.pairwise_cons]
            refine ⟨?_, h3⟩
            intro y hy
            exact innerPass_keep ci rest hk y (h1 y hy)
          · simp only [hk, List.filterMap_cons]
            exact h3

theorem filterMap_id_map_some (l : List Clique) : (l.map some).filterMap id = l := by
  induction l with
  | nil => rfl
  | cons a l ih => simp [ih]

/-- The subset pass keeps entries of `new_cliques` only. -/
theorem subsetPass_sub (l : List Clique) : ∀ y ∈ subsetPass l, y ∈ l := by
  intro y hy
  have := (subsetPassLoop_spec l.length (l.map some) (by simp)).1 y hy
  rwa [filterMap_id_map_some] at this

/-- Every entry of `new_cliques` is contained in an entry the subset pass
keeps. -/
theorem subsetPass_cover (l : List Clique) :
    ∀ x ∈ l, ∃ y ∈ subsetPass l, y.contains x = true := by
  intro x hx
  have := (subsetPassLoop_spec l.length (l.map some) (by simp)).2.1 x
    (by rwa [filterMap_id_map_some])
  exact this

/-- No entry the subset pass keeps contains another one. -/
theorem subsetPass_pairwise (l : List Clique) :
    (subsetPass l).Pairwise (fun a b => b.contains a = false ∧ a.contains b = false) :=
  (subsetPassLoop_spec l.length (l.map some) (by simp)).2.2

theorem subsetPass_ne_nil (l : List Clique) (h : l ≠ []) : subsetPass l ≠ [] := by
  obtain ⟨a, t, rfl⟩ := List.exists_cons_of_ne_nil h
  obtain ⟨y, hy, _⟩ := subsetPass_cover (a :: t) a (List.mem_cons_self _ _)
  exact List.ne_nil_of_mem hy

/-! ## Facts about sorting and collapsing duplicates -/

theorem uniqueFrom_sub (a : Clique) (l : List Clique) : ∀ y ∈ uniqueFrom a l, y ∈ a :: l := by
  induction l generalizing a with
  | nil => simp [uniqueFrom]
  | cons b l ih =>
    intro y hy
    simp only [uniqueFrom] at hy
    split at hy
    · rcases List.mem_cons.mp (ih a y hy) with h | h
      · exact List.mem_cons.mpr (Or.inl h)
      · exact List.mem_cons_of_mem _ (List.mem_cons_of_mem _ h)
    · rcases List.mem_cons.mp hy with h | h
      · exact List.mem_cons.mpr (Or.inl h)
      · exact List.mem_cons_of_mem _ (ih b y h)

theorem uniqueFrom_cover (a : Clique) (l : List Clique) :
    ∀ x ∈ a :: l, ∃ y ∈ uniqueFrom a l, y.alignment_set = x.alignment_set := by
  induction l generalizing a with
  | nil =>
    intro x hx
    simp only [List.mem_singleton] at hx
    subst hx
    exact ⟨x, by simp [uniqueFrom], rfl⟩
  | cons b l ih =>
    intro x hx
    simp only [uniqueFrom]
    by_cases he : clique_equal_t a b = true
    · rw [if_pos he]
      have hab : a.alignment_set = b.alignment_set := by simpa [clique_equal_t] using he
      rcases List.mem_cons.mp hx with rfl | hx
      · exact ih x x (List.mem_cons_self _ _)
      · rcases List.mem_cons.mp hx with rfl | hx
        · obtain ⟨y, hy, hya⟩ := ih a a (List.mem_cons_self _ _)
          exact ⟨y, hy, hya.trans hab⟩
        · exact ih a x (List.mem_cons_of_mem _ hx)
    · rw [if_neg he]
      rcases List.mem_cons.mp hx with rfl | hx
      · exact ⟨x, List.mem_cons_self _ _, rfl⟩
      · obtain ⟨y, hy, hyx⟩ := ih b x hx
        exact ⟨y, List.mem_cons_of_mem _ hy, hyx⟩

theorem sortUnique_sub (no_sort : Bool) (l : List Clique) :
    ∀ y ∈ sortUnique no_sort l, y ∈ l := by
  intro y hy
  unfold sortUnique at hy
  split at hy
  · exact hy
  · have hperm := List.perm_insertionSort clique_comp_t l
    cases hs : l.insertionSort clique_comp_t with
    | nil => rw [hs] at hy; simp [unique] at hy
    | cons a t =>
      rw [hs] at hy hperm
      exact hperm.subset (uniqueFrom_sub a t y hy)

theorem sortUnique_cover (no_sort : Bool) (l : List Clique) :
    ∀ x ∈ l, ∃ y ∈ sortUnique no_sort l, y.alignment_set = x.alignment_set := by
  intro x hx
  unfold sortUnique
  split
  · exact ⟨x, hx, rfl⟩
  · have hperm := List.perm_insertionSort clique_comp_t l
    cases hs : l.insertionSort clique_comp_t with
    | nil =>
      rw [hs] at hperm
      have := hperm.symm.subset hx
      simp at this
    | cons a t =>
      rw [hs] at hperm
      exact uniqueFrom_cover a t x (hperm.symm.subset hx)

theorem sortUnique_ne_nil (no_sort : Bool) (l : List Clique) (h : l ≠ []) :
    sortUnique no_sort l ≠ [] := by
  obtain ⟨a, t, rfl⟩ := List.exists_cons_of_ne_nil h
  obtain ⟨y, hy, _⟩ := sortUnique_cover no_sort (a :: t) a (List.mem_cons_self _ _)
  exact List.ne_nil_of_mem hy

/-! ## Facts about the adjacency scan -/

theorem scanEdges_spec (cfg : Config) (alignments : Store) (v : AlignmentRecord)
    (l : List (Nat × Nat)) (adj0 : alignment_set_t)
    (hpres : ∀ p ∈ l, ∃ r, alignments.getD p.2 none = some r)
    (hlt : ∀ p ∈ l, p.2 < adj0.size) :
    ∃ adj es, scanEdges cfg alignments v l adj0 = some (adj, es) ∧ adj.size = adj0.size ∧
      (∀ i, adj.test i = true ↔ adj0.test i = true ∨
        ∃ p ∈ l, p.2 = i ∧ ∃ r, alignments.getD i none = some r ∧ setEdge cfg v r = true) ∧
      (∀ e ∈ es, ∃ x y, e = Event.addEdge x y) := by
  induction l generalizing adj0 with
  | nil => exact ⟨adj0, [], rfl, rfl, by simp, by simp⟩
  | cons p l ih =>
    obtain ⟨r, hr⟩ := hpres p (List.mem_cons_self _ _)
    have hp := hlt p (List.mem_cons_self _ _)
    by_cases he : setEdge cfg v r = true
    · obtain ⟨adj, es, h1, h2, h3, h4⟩ := ih (adj0.set p.2)
        (fun q hq => hpres q (List.mem_cons_of_mem _ hq))
        (fun q hq => by rw [alignment_set_t.size_set]; exact hlt q (List.mem_cons_of_mem _ hq))
      refine ⟨adj, (if cfg.edge_writer then [Event.addEdge v r] else []) ++ es, ?_, ?_, ?_, ?_⟩
      · simp only [scanEdges, hr, he, if_true, h1, Option.map_some']
      · rw [h2, alignment_set_t.size_set]
      · intro i
        rw [h3, alignment_set_t.test_set_of_lt _ _ _ hp]
        constructor
        · rintro ((rfl | h) | ⟨q, hq, hqi, hrest⟩)
          · exact Or.inr ⟨p, List.mem_cons_self _ _, rfl, r, hr, he⟩
          · exact Or.inl h
          · exact Or.inr ⟨q, List.mem_cons_of_mem _ hq, hqi, hrest⟩
        · rintro (h | ⟨q, hq, hqi, hrest⟩)
          · exact Or.inl (Or.inr h)
          · rcases List.mem_cons.mp hq with rfl | hq
            · exact Or.inl (Or.inl hqi.symm)
            · exact Or.inr ⟨q, hq, hqi, hrest⟩
      · intro e hmem
        rcases List.mem_append.mp hmem with hmem | hmem
        · split at hmem
          · exact ⟨v, r, List.mem_singleton.mp hmem⟩
          · simp at hmem
        · exact h4 e hmem
    · obtain ⟨adj, es, h1, h2, h3, h4⟩ := ih adj0
        (fun q hq => hpres q (List.mem_cons_of_mem _ hq))
        (fun q hq => hlt q (List.mem_cons_of_mem _ hq))
      refine ⟨adj, es, ?_, h2, ?_, h4⟩
      · simp only [scanEdges, hr, he, h1]
        rfl
      · intro i
        rw [h3]
        constructor
        · rintro (h | ⟨q, hq, hqi, hrest⟩)
          · exact Or.inl h
          · exact Or.inr ⟨q, List.mem_cons_of_mem _ hq, hqi, hrest⟩
        · rintro (h | ⟨q, hq, hqi, hrest⟩)
          · exact Or.inl h
          · rcases List.mem_cons.mp hq with rfl | hq
            · obtain ⟨r', hr', he'⟩ := hrest
              rw [← hqi, hr] at hr'
              rw [Option.some.inj hr'] at he
              exact absurd he' he
            · exact Or.inr ⟨q, hq, hqi, hrest⟩

/-- On a consistent store the adjacency scan succeeds, and the bit of a slot
is set exactly when the slot is in use and the edge test against its record
is positive. -/
theorem scanEdges_store (cfg : Config) (cf : CliqueFinder) (v : AlignmentRecord)
    (hs : StoreOK cfg cf) :
    ∃ adj es, scanEdges cfg cf.alignments v cf.alignments_by_length
        (alignment_set_t.zeros cf.capacity) = some (adj, es) ∧
      adj.size = cf.capacity ∧
      (∀ i, adj.test i = true ↔ i < cf.alignment_count ∧
        ∃ r, cf.alignments.getD i none = some r ∧ setEdge cfg v r = true) ∧
      (∀ e ∈ es, ∃ x y, e = Event.addEdge x y) := by
  have hmem : ∀ p ∈ cf.alignments_by_length, p.2 < cf.alignment_count := by
    intro p hp
    rw [hs.index_eq] at hp
    obtain ⟨j, hj, rfl⟩ := List.mem_map.mp hp
    exact List.mem_range.mp hj
  obtain ⟨adj, es, h1, h2, h3, h4⟩ := scanEdges_spec cfg cf.alignments v cf.alignments_by_length
    (alignment_set_t.zeros cf.capacity)
    (fun p hp => hs.present p.2 (hmem p hp))
    (fun p hp => by
      rw [alignment_set_t.size_zeros]
      exact Nat.lt_of_lt_of_le (hmem p hp) hs.count_le)
  refine ⟨adj, es, h1, by rw [h2, alignment_set_t.size_zeros], ?_, h4⟩
  intro i
  rw [h3]
  simp only [alignment_set_t.test_zeros, Bool.false_eq_true, false_or]
  constructor
  · rintro ⟨p, hp, rfl, hrest⟩
    exact ⟨hmem p hp, hrest⟩
  · rintro ⟨hi, hrest⟩
    refine ⟨(0, i), ?_, rfl, hrest⟩
    rw [hs.index_eq]
    exact List.mem_map.mpr ⟨i, List.mem_range.mpr hi, rfl⟩

/-! ## One call of `addAlignment` -/

/-- The result of `addAlignment` in terms of its two halves. -/
theorem addAlignment_eq (cfg : Config) (cf cf3 : CliqueFinder) (a v : AlignmentRecord)
    (index : Nat) (cl3 : List Clique) (adj : alignment_set_t) (es : List Event)
    (hst : storeAlignment cfg cf a = some (cf3, v, index))
    (hcl : cf3.cliques = some cl3)
    (hsc : scanEdges cfg cf3.alignments v cf3.alignments_by_length
      (alignment_set_t.zeros cf3.capacity) = some (adj, es)) :
    addAlignment cfg cf a = some
      { cf3 with
        cliques := some (keptCliques v adj cl3 ++
          subsetPass (sortUnique cfg.no_sort (stagedCliques cf3.alignments index cf3.capacity
            (stagedFrom cf3.alignments v index adj cl3))))
        trace := cf3.trace ++ es ++ (finalCliques v cl3).map (deliver cf3.alignments) } := by
  simp only [addAlignment, hst, updateCliques, hcl, hsc]
  rw [scanCliques_kept, scanCliques_staged_eq, scanCliques_delivered]
  rfl

theorem test_staged {alignments : Store} {v : AlignmentRecord} {index : Nat}
    {adj : alignment_set_t} {cl : List Clique} {capacity : Nat}
    (hsize : ∀ c ∈ cl, c.alignment_set.size = capacity) (hidx : index < capacity)
    {n : Clique} (hn : n ∈ stagedCliques alignments index capacity
      (stagedFrom alignments v index adj cl)) :
    n.alignment_set.size = capacity ∧ n.alignment_set.test index = true ∧
      ((∀ j, n.alignment_set.test j = true ↔ j = index) ∨
        ∃ c ∈ cl, isFinal v c = false ∧
          ∀ j, n.alignment_set.test j = true ↔
            j = index ∨ (c.alignment_set.test j = true ∧ adj.test j = true)) := by
  unfold stagedCliques at hn
  split at hn
  · rw [List.mem_singleton] at hn
    subst hn
    have hsz : ((alignment_set_t.zeros capacity).set index).size = capacity := by simp
    have ht : ∀ j, ((alignment_set_t.zeros capacity).set index).test j = true ↔ j = index := by
      intro j
      rw [alignment_set_t.test_set_of_lt _ _ _ (by simpa using hidx)]
      simp
    exact ⟨hsz, (ht index).mpr rfl, Or.inl ht⟩
  · obtain ⟨c, hc, rfl⟩ := List.mem_map.mp hn
    obtain ⟨hc, hcond⟩ := List.mem_filter.mp hc
    have hsz : (c.intersect adj).size = capacity := by
      rw [Clique.intersect, alignment_set_t.size_inter]; exact hsize c hc
    have ht : ∀ j, ((c.intersect adj).set index).test j = true ↔
        j = index ∨ (c.alignment_set.test j = true ∧ adj.test j = true) := by
      intro j
      rw [alignment_set_t.test_set_of_lt _ _ _ (by rw [hsz]; exact hidx), Clique.intersect,
        alignment_set_t.test_inter]
      simp
    refine ⟨by simp [Clique.ofSet, hsz], (ht index).mpr (Or.inl rfl), Or.inr ⟨c, hc, ?_, ht⟩⟩
    simp only [Bool.and_eq_true, Bool.not_eq_true'] at hcond
    exact hcond.1

theorem stagedCliques_ne_nil (alignments : Store) (index capacity : Nat) (l : List Clique) :
    stagedCliques alignments index capacity l ≠ [] := by
  unfold stagedCliques
  split
  · simp
  · rename_i h
    intro hl
    rw [hl] at h
    exact h rfl

/-- A call of `addAlignment` on a consistent state succeeds and gives a
consistent state. -/
theorem addAlignment_wf (cfg : Config) (cf : CliqueFinder) (a : AlignmentRecord)
    (hB : 0 < cfg.bits_per_block) (hwf : WF cfg cf) :
    ∃ cf', addAlignment cfg cf a = some cf' ∧ WF cfg cf' := by
  obtain ⟨cf3, index, cl, f, es, hst, hcl, hcl3, hs3, hok3, hne, hcnt, hidx, hget, hid, htr, hes,
    hrec⟩ := storeAlignment_wf cfg cf a hB hwf
  obtain ⟨adj, es2, hsc, hadjsz, hadj, hes2⟩ := scanEdges_store cfg cf3 (a.setID cf.next_id) hs3
  refine ⟨_, addAlignment_eq cfg cf cf3 a _ index _ adj es2 hst hcl3 hsc,
    ⟨hs3.block, hs3.cap_pos, hs3.count_le, hs3.length_eq, hs3.present, hs3.ids_lt, hs3.ids_mono,
      hs3.index_eq⟩, _, rfl, ⟨?_, ?_, ?_⟩, ?_⟩
  · intro c hc
    rcases List.mem_append.mp hc with hc | hc
    · exact hok3.size_eq c (List.mem_filter.mp hc).1
    · exact (test_staged hok3.size_eq hidx
        (sortUnique_sub _ _ c (subsetPass_sub _ c hc))).1
  · intro c hc i hi
    show i < cf3.alignment_count
    rw [hcnt]
    rcases List.mem_append.mp hc with hc | hc
    · exact Nat.lt_succ_of_lt (hok3.bits_lt c (List.mem_filter.mp hc).1 i hi)
    · obtain ⟨_, _, h | ⟨d, hd, _, h⟩⟩ := @test_staged cf3.alignments (a.setID cf.next_id)
        index adj (cl.map f) cf3.capacity hok3.size_eq hidx c
        (sortUnique_sub _ _ c (subsetPass_sub _ c hc))
      · rw [(h i).mp hi]; exact Nat.lt_succ_self _
      · rcases (h i).mp hi with rfl | ⟨h1, _⟩
        · exact Nat.lt_succ_self _
        · exact Nat.lt_succ_of_lt (hok3.bits_lt d hd i h1)
  · intro c hc
    rcases List.mem_append.mp hc with hc | hc
    · exact hok3.nonempty c (List.mem_filter.mp hc).1
    · exact ⟨index, (test_staged hok3.size_eq hidx
        (sortUnique_sub _ _ c (subsetPass_sub _ c hc))).2.1⟩
  · intro _ hnil
    have := subsetPass_ne_nil _ (sortUnique_ne_nil cfg.no_sort _
      (stagedCliques_ne_nil cf3.alignments index cf3.capacity
        (stagedFrom cf3.alignments (a.setID cf.next_id) index adj (cl.map f))))
    exact this (List.append_eq_nil.mp hnil).2

theorem init_wf (cfg : Config) (hB : 0 < cfg.bits_per_block) : WF cfg (CliqueFinder.init cfg) := by
  refine ⟨⟨Nat.dvd_refl _, hB, Nat.zero_le _, by simp [CliqueFinder.init], ?_, ?_, ?_, rfl⟩,
    [], rfl, ⟨?_, ?_, ?_⟩, ?_⟩
  · intro i hi; exact absurd hi (Nat.not_lt_zero _)
  · intro i r hi; exact absurd hi (Nat.not_lt_zero _)
  · intro i j ri rj _ hj; exact absurd hj (Nat.not_lt_zero _)
  · intro c hc; simp at hc
  · intro c hc; simp at hc
  · intro c hc; simp at hc
  · intro h; exact absurd h (Nat.lt_irrefl _)

/-- Every run of `addAlignment` calls from a consistent state succeeds and
ends in a consistent state. -/
theorem addAll_wf (cfg : Config) (hB : 0 < cfg.bits_per_block) (l : List AlignmentRecord)
    (cf : CliqueFinder) (hwf : WF cfg cf) :
    ∃ cf', addAll cfg cf l = some cf' ∧ WF cfg cf' := by
  induction l generalizing cf with
  | nil => exact ⟨cf, rfl, hwf⟩
  | cons a l ih =>
    obtain ⟨cf1, h1, hwf1⟩ := addAlignment_wf cfg cf a hB hwf
    obtain ⟨cf', h2, hwf'⟩ := ih cf1 hwf1
    exact ⟨cf', by simp only [addAll, h1, h2], hwf'⟩

theorem getD_append_replicate_none (l : Store) (k j : Nat) (h : l.length ≤ j) :
    (l ++ List.replicate k none).getD j none = none := by
  rw [List.getD_eq_getElem?_getD, List.getElem?_append_right h]
  by_cases hk : j - l.length < k
  · simp [List.getElem?_replicate, hk]
  · simp [List.getElem?_replicate, hk]

/-- The slot renumbering of a compaction: the new count is the length of the
translation table, slot `j` holds the record of old slot `T[j]`, the slots
from the new count on are empty, and the sizes are those computed from the
union of the membership sets. -/
theorem reorganize_storage_slots (cfg : Config) (cf cf' : CliqueFinder) (cl : List Clique)
    (hwf : WF cfg cf) (hpos : 0 < cf.alignment_count) (hcl : cf.cliques = some cl)
    (hre : reorganize_storage cfg cf = some cf') :
    cf'.alignment_count = (setUnion cf.capacity cl).count ∧
    cf'.capacity = newCapacity cfg.bits_per_block (setUnion cf.capacity cl).count ∧
    cf'.alignment_count =
      (translationTable cf.alignment_count (setUnion cf.capacity cl)).length ∧
    cf'.cliques = some (cl.map (fun c => c.translate
      (translationTable cf.alignment_count (setUnion cf.capacity cl))
      cf'.alignment_count cf'.capacity)) ∧
    (∀ j, j < cf'.alignment_count → cf'.alignments.getD j none =
      cf.alignments.getD
        ((translationTable cf.alignment_count (setUnion cf.capacity cl)).getD j 0) none) ∧
    (∀ j, cf'.alignment_count ≤ j → cf'.alignments.getD j none = none) ∧
    (∀ i, (setUnion cf.capacity cl).test i = true ↔
      ∃ c ∈ cl, c.alignment_set.test i = true) := by
  obtain ⟨hs, cl0, hcl0, hok, hne⟩ := hwf
  have : cl0 = cl := by
    rw [hcl] at hcl0; exact (Option.some.inj hcl0).symm
  subst this
  obtain ⟨cf'', es, hre', h1, h2, h3, h4, h5, h6, h7, h8⟩ :=
    reorganize_storage_some cfg cf cl0 hcl (hne hpos) hs.present
  have : cf'' = cf' := by
    rw [hre] at hre'; exact (Option.some.inj hre').symm
  subst this
  have hu : ∀ i, (setUnion cf.capacity cl0).test i = true ↔
      ∃ c ∈ cl0, c.alignment_set.test i = true := by
    intro i
    rw [setUnion_test]
    constructor
    · exact fun h => h.2
    · rintro ⟨c, hc, hi⟩
      exact ⟨Nat.lt_of_lt_of_le (hok.bits_lt c hc i hi) hs.count_le, c, hc, hi⟩
  have hubits : ∀ i, (setUnion cf.capacity cl0).test i = true → i < cf.alignment_count := by
    intro i hi
    obtain ⟨c, hc, hci⟩ := (hu i).mp hi
    exact hok.bits_lt c hc i hci
  have hTlen := translationTable_length cf.alignment_count _ hubits
  refine ⟨h5, h2, by rw [h5, hTlen], ?_, ?_, ?_, hu⟩
  · rw [h1, h5, h2]
  · intro j hj
    rw [h3]
    exact getD_compacted _ _ _ _ (by omega)
  · intro j hj
    rw [h3]
    exact getD_append_replicate_none _ _ _ (by simp; omega)

theorem mem_memberRecords {alignments : Store} {s : alignment_set_t} {r : AlignmentRecord} :
    r ∈ memberRecords alignments s ↔
      ∃ i, s.test i = true ∧ alignments.getD i none = some r := by
  simp only [memberRecords, alignment_set_t.members, List.mem_filterMap, List.mem_filter,
    List.mem_range]
  constructor
  · rintro ⟨i, ⟨_, hi⟩, hr⟩
    exact ⟨i, hi, hr⟩
  · rintro ⟨i, hi, hr⟩
    exact ⟨i, ⟨alignment_set_t.test_lt_size hi, hi⟩, hr⟩

/-! ## Reachable states -/

/-- Every state reached from the constructor by `addAlignment` calls is
consistent. -/
theorem reachable_wf (cfg : Config) (hB : 0 < cfg.bits_per_block) (inputs : List AlignmentRecord)
    (cf : CliqueFinder) (hreach : addAll cfg (CliqueFinder.init cfg) inputs = some cf) :
    WF cfg cf := by
  obtain ⟨cf', h, hwf⟩ := addAll_wf cfg hB inputs _ (init_wf cfg hB)
  rw [hreach] at h
  rw [Option.some.inj h]
  exact hwf

theorem mem_liveSlots {cl : List Clique} {i : Nat} :
    i ∈ liveSlots cl ↔ ∃ c ∈ cl, c.alignment_set.test i = true := by
  induction cl with
  | nil => simp [liveSlots]
  | cons c cl ih =>
    simp only [liveSlots, List.foldr_cons, Finset.mem_union, alignment_set_t.mem_toFinset,
      List.mem_cons, exists_eq_or_imp] at ih ⊢
    rw [ih]

/-! ## Compaction -/

/-- Claim C6.  In every reachable state whose array is full, so that the next
`addAlignment` runs `reorganize_storage`, the compaction returns a state whose
`alignment_count` is the number `L` of slots that are members of some active
clique, and whose `capacity` is the smallest multiple of the block width that
is at least `2 * L`. -/
theorem compaction_sizing (cfg : Config) (inputs : List AlignmentRecord) (cf : CliqueFinder)
    (a : AlignmentRecord) (hB : 0 < cfg.bits_per_block)
    (hreach : addAll cfg (CliqueFinder.init cfg) inputs = some cf)
    (hfull : cf.alignment_count = cf.capacity) :
    ∃ cl cf', cf.cliques = some cl ∧ reorganize_storage cfg (beforeStore cf a) = some cf' ∧
      cf'.alignment_count = (liveSlots cl).card ∧
      cfg.bits_per_block ∣ cf'.capacity ∧
      2 * (liveSlots cl).card ≤ cf'.capacity ∧
      ∀ m, cfg.bits_per_block ∣ m → 2 * (liveSlots cl).card ≤ m → cf'.capacity ≤ m := by
  have hwf := beforeStore_wf cfg cf a (reachable_wf cfg hB inputs cf hreach)
  have hpos : 0 < (beforeStore cf a).alignment_count := by
    show 0 < cf.alignment_count
    rw [hfull]; exact hwf.store.cap_pos
  obtain ⟨cf', cl, es, T, hcl, hre, -⟩ := reorganize_storage_wf cfg _ hB hwf hpos
  obtain ⟨h1, h2, -, -, -, -, hu⟩ := reorganize_storage_slots cfg _ cf' cl hwf hpos hcl hre
  have hL : (setUnion cf.capacity cl).count = (liveSlots cl).card := by
    rw [alignment_set_t.count_eq_card]
    congr 1
    ext i
    rw [alignment_set_t.mem_toFinset, mem_liveSlots]
    exact hu i
  have h1' : cf'.alignment_count = (liveSlots cl).card := by rw [h1]; exact hL
  have h2' : cf'.capacity = newCapacity cfg.bits_per_block (liveSlots cl).card := by
    rw [h2]; exact congrArg _ hL
  refine ⟨cl, cf', hcl, hre, h1', ?_, ?_, ?_⟩
  · rw [h2']; exact newCapacity_dvd _ _ hB
  · rw [h2']; exact newCapacity_ge _ _
  · intro m hm hle
    rw [h2']; exact newCapacity_least _ _ m hB hm hle

/-- Claim C6 on the run `exampleApart`: one slot is live, the new count is 1 and
the new capacity 2. -/
theorem compaction_sizing_witness :
    ∃ cl cf', exampleFull.cliques = some cl ∧
      reorganize_storage exampleNoEdges (beforeStore exampleFull ⟨2, 40, 50, 0⟩) = some cf' ∧
      cf'.alignment_count = (liveSlots cl).card ∧
      exampleNoEdges.bits_per_block ∣ cf'.capacity ∧
      2 * (liveSlots cl).card ≤ cf'.capacity ∧
      ∀ m, exampleNoEdges.bits_per_block ∣ m → 2 * (liveSlots cl).card ≤ m → cf'.capacity ≤ m :=
  compaction_sizing exampleNoEdges exampleApart exampleFull ⟨2, 40, 50, 0⟩ (by decide) (by decide)
    (by decide)

theorem store_slot_inj {cfg : Config} {cf : CliqueFinder} (hs : StoreOK cfg cf) {i j : Nat}
    {r : AlignmentRecord} (hi : i < cf.alignment_count) (hj : j < cf.alignment_count)
    (hri : cf.alignments.getD i none = some r) (hrj : cf.alignments.getD j none = some r) :
    i = j := by
  rcases Nat.lt_trichotomy i j with h | h | h
  · exact absurd (hs.ids_mono i j r r h hj hri hrj) (Nat.lt_irrefl _)
  · exact h
  · exact absurd (hs.ids_mono j i r r h hi hrj hri) (Nat.lt_irrefl _)

/-- Claim C5.  In every reachable state whose array is full, the compaction
run by the next `addAlignment` returns a state in which the active cliques are
the old ones translated through the translation table `T`, each of them reads
exactly the same records (hence the same identifiers), in the same order, as
before; slot `j` of the new array holds the record of old slot `T[j]`, and bit
`j` of a translated clique is the old bit `T[j]`. -/
theorem compaction_transparency (cfg : Config) (inputs : List AlignmentRecord)
    (cf : CliqueFinder) (a : AlignmentRecord) (hB : 0 < cfg.bits_per_block)
    (hreach : addAll cfg (CliqueFinder.init cfg) inputs = some cf)
    (hfull : cf.alignment_count = cf.capacity) :
    ∃ cl cf', cf.cliques = some cl ∧ reorganize_storage cfg (beforeStore cf a) = some cf' ∧
      cf'.cliques = some (cl.map (fun c => c.translate
        (translationTable cf.alignment_count (setUnion cf.capacity cl))
        cf'.alignment_count cf'.capacity)) ∧
      (∀ c ∈ cl,
        memberRecords cf'.alignments
            (c.translate (translationTable cf.alignment_count (setUnion cf.capacity cl))
              cf'.alignment_count cf'.capacity).alignment_set =
          memberRecords cf.alignments c.alignment_set) ∧
      (∀ j, j < cf'.alignment_count →
        cf'.alignments.getD j none = cf.alignments.getD
          ((translationTable cf.alignment_count (setUnion cf.capacity cl)).getD j 0) none ∧
        ∀ c ∈ cl,
          (c.translate (translationTable cf.alignment_count (setUnion cf.capacity cl))
            cf'.alignment_count cf'.capacity).alignment_set.test j =
          c.alignment_set.test
            ((translationTable cf.alignment_count (setUnion cf.capacity cl)).getD j 0)) := by
  have hwf := beforeStore_wf cfg cf a (reachable_wf cfg hB inputs cf hreach)
  have hpos : 0 < (beforeStore cf a).alignment_count := by
    show 0 < cf.alignment_count
    rw [hfull]; exact hwf.store.cap_pos
  obtain ⟨cf', cl, es, T, hcl, hre, hwf', hlt, -, -, -, hclT, hrec, -⟩ :=
    reorganize_storage_wf cfg _ hB hwf hpos
  obtain ⟨h1, h2, h3, h4, h5, h6, hu⟩ := reorganize_storage_slots cfg _ cf' cl hwf hpos hcl hre
  have hmap := hclT.symm.trans h4
  have hpt := List.map_inj_left.mp (Option.some.inj hmap)
  refine ⟨cl, cf', hcl, hre, h4, ?_, ?_⟩
  · intro c hc
    have := hrec c hc
    rw [hpt c hc] at this
    exact this
  · intro j hj
    refine ⟨h5 j hj, ?_⟩
    intro c _
    have hjT : j < (translationTable cf.alignment_count (setUnion cf.capacity cl)).length := by
      have : (beforeStore cf a).alignment_count = cf.alignment_count := rfl
      have hcap : (beforeStore cf a).capacity = cf.capacity := rfl
      rw [this, hcap] at h3
      omega
    rw [Bool.eq_iff_iff, test_translate]
    simp only [List.getD_eq_getElem?_getD, List.getElem?_eq_getElem hjT, Option.getD_some,
      Option.some.injEq, exists_eq_left']
    exact ⟨fun h => h.2.2, fun h => ⟨by omega, hj, h⟩⟩

/-- Claim C5 on the run `exampleApart`: the only active clique, slot 1 before
the compaction, becomes slot 0 and still reads the second record. -/
theorem compaction_transparency_witness :
    ∃ cl cf', exampleFull.cliques = some cl ∧
      reorganize_storage exampleNoEdges (beforeStore exampleFull ⟨2, 40, 50, 0⟩) = some cf' ∧
      cf'.cliques = some (cl.map (fun c => c.translate
        (translationTable exampleFull.alignment_count (setUnion exampleFull.capacity cl))
        cf'.alignment_count cf'.capacity)) ∧
      (∀ c ∈ cl,
        memberRecords cf'.alignments
            (c.translate
              (translationTable exampleFull.alignment_count (setUnion exampleFull.capacity cl))
              cf'.alignment_count cf'.capacity).alignment_set =
          memberRecords exampleFull.alignments c.alignment_set) ∧
      (∀ j, j < cf'.alignment_count →
        cf'.alignments.getD j none = exampleFull.alignments.getD
          ((translationTable exampleFull.alignment_count
            (setUnion exampleFull.capacity cl)).getD j 0) none ∧
        ∀ c ∈ cl,
          (c.translate
            (translationTable exampleFull.alignment_count (setUnion exampleFull.capacity cl))
            cf'.alignment_count cf'.capacity).alignment_set.test j =
          c.alignment_set.test
            ((translationTable exampleFull.alignment_count
              (setUnion exampleFull.capacity cl)).getD j 0)) :=
  compaction_transparency exampleNoEdges exampleApart exampleFull ⟨2, 40, 50, 0⟩ (by decide)
    (by decide) (by decide)

theorem isLive_iff {alignments : Store} {cl : List Clique} {r : AlignmentRecord} :
    isLive alignments cl r = true ↔
      ∃ c ∈ cl, r ∈ memberRecords alignments c.alignment_set := by
  simp [isLive]

theorem mem_storedRecords {cf : CliqueFinder} {r : AlignmentRecord} :
    r ∈ storedRecords cf ↔
      ∃ i, i < cf.alignment_count ∧ cf.alignments.getD i none = some r := by
  simp [storedRecords]

/-- Claim C7.  In every reachable state whose array is full, the compaction
run by the next `addAlignment` leaves in the array exactly the records that
are members of at least one active clique: the records in use afterwards are
the records in use before with the non-members removed, in the same order and
each once (their identifiers are strictly ascending), and the slots past the
new count hold no record. -/
theorem compaction_store (cfg : Config) (inputs : List AlignmentRecord)
    (cf : CliqueFinder) (a : AlignmentRecord) (hB : 0 < cfg.bits_per_block)
    (hreach : addAll cfg (CliqueFinder.init cfg) inputs = some cf)
    (hfull : cf.alignment_count = cf.capacity) :
    ∃ cl cf', cf.cliques = some cl ∧ reorganize_storage cfg (beforeStore cf a) = some cf' ∧
      storedRecords cf' = (storedRecords cf).filter (isLive cf.alignments cl) ∧
      (∀ r, r ∈ storedRecords cf' ↔ ∃ c ∈ cl, r ∈ memberRecords cf.alignments c.alignment_set) ∧
      ((storedRecords cf').map AlignmentRecord.id).Sorted (· < ·) ∧
      (storedRecords cf').Nodup ∧
      (∀ j, cf'.alignment_count ≤ j → cf'.alignments.getD j none = none) := by
  have hwf0 := reachable_wf cfg hB inputs cf hreach
  have hwf := beforeStore_wf cfg cf a hwf0
  have hpos : 0 < (beforeStore cf a).alignment_count := by
    show 0 < cf.alignment_count
    rw [hfull]; exact hwf.store.cap_pos
  obtain ⟨cf', cl, es, T, hcl, hre, hwf', -⟩ := reorganize_storage_wf cfg _ hB hwf hpos
  obtain ⟨h1, h2, h3, h4, h5, h6, hu⟩ := reorganize_storage_slots cfg _ cf' cl hwf hpos hcl hre
  have hcl0 : cf.cliques = some cl := hcl
  obtain ⟨cl0, hcl0', hok, -⟩ := hwf0.cliques
  have hcleq : cl0 = cl := by
    rw [hcl0] at hcl0'; exact (Option.some.inj hcl0').symm
  subst hcleq
  have hs := hwf0.store
  -- the main equation
  have hmain : storedRecords cf' = (storedRecords cf).filter (isLive cf.alignments cl0) := by
    have hL : storedRecords cf' =
        (translationTable cf.alignment_count (setUnion cf.capacity cl0)).filterMap
          (fun i => cf.alignments.getD i none) := by
      unfold storedRecords
      rw [h3]
      conv_rhs => rw [list_eq_map_range
        (translationTable cf.alignment_count (setUnion cf.capacity cl0)) 0, List.filterMap_map]
      apply List.filterMap_congr
      intro j hj
      have hj' := List.mem_range.mp hj
      exact h5 j (by rw [h3]; exact hj')
    rw [hL]
    unfold storedRecords translationTable
    rw [List.filterMap_filter, List.filter_filterMap]
    apply List.filterMap_congr
    intro i hi
    have hi' := List.mem_range.mp hi
    obtain ⟨r, hr⟩ := hs.present i hi'
    rw [hr]
    have hiff : (setUnion cf.capacity cl0).test i = true ↔ isLive cf.alignments cl0 r = true := by
      rw [isLive_iff]
      have hu' := hu i
      show (setUnion cf.capacity cl0).test i = true ↔ _
      constructor
      · intro h
        obtain ⟨c, hc, hci⟩ := hu'.mp h
        exact ⟨c, hc, mem_memberRecords.mpr ⟨i, hci, hr⟩⟩
      · rintro ⟨c, hc, hmem⟩
        obtain ⟨i', hci', hr'⟩ := mem_memberRecords.mp hmem
        have : i' = i := store_slot_inj hs (hok.bits_lt c hc i' hci') hi' hr' hr
        subst this
        exact hu'.mpr ⟨c, hc, hci'⟩
    by_cases hlive : isLive cf.alignments cl0 r = true
    · simp [Option.filter, hlive, hiff.mpr hlive]
    · have : (setUnion cf.capacity cl0).test i = false := by
        cases h : (setUnion cf.capacity cl0).test i
        · rfl
        · exact absurd (hiff.mp h) hlive
      simp [Option.filter, hlive, this]
  have hsorted : ((storedRecords cf').map AlignmentRecord.id).Sorted (· < ·) := by
    unfold storedRecords
    rw [List.map_filterMap]
    apply List.Pairwise.filterMap _ _ (List.pairwise_lt_range cf'.alignment_count)
    intro i j hij x hx y hy
    -- the two slots hold records
    have hjlt : j < cf'.alignment_count := by
      by_contra hcon
      rw [h6 j (Nat.le_of_not_lt hcon)] at hy
      simp at hy
    cases hri : cf'.alignments.getD i none with
    | none => rw [hri] at hx; simp at hx
    | some ri =>
      cases hrj : cf'.alignments.getD j none with
      | none => rw [hrj] at hy; simp at hy
      | some rj =>
        rw [hri] at hx
        rw [hrj] at hy
        simp only [Option.map_some', Option.mem_def, Option.some.injEq] at hx hy
        rw [← hx, ← hy]
        exact hwf'.store.ids_mono i j ri rj hij hjlt hri hrj
  refine ⟨cl0, cf', hcl0, hre, hmain, ?_, hsorted, ?_, h6⟩
  · intro r
    rw [hmain, List.mem_filter, isLive_iff]
    constructor
    · exact fun h => h.2
    · rintro ⟨c, hc, hmem⟩
      refine ⟨?_, c, hc, hmem⟩
      obtain ⟨i, hci, hr⟩ := mem_memberRecords.mp hmem
      exact mem_storedRecords.mpr ⟨i, hok.bits_lt c hc i hci, hr⟩
  · have hnd : ((storedRecords cf').map AlignmentRecord.id).Nodup :=
      hsorted.imp (fun h => Nat.ne_of_lt h)
    exact List.Nodup.of_map _ hnd

/-- Claim C7 on the run `exampleApart`: the first record, whose clique has
been handed to the collector, is dropped and the second one kept. -/
theorem compaction_store_witness :
    ∃ cl cf', exampleFull.cliques = some cl ∧
      reorganize_storage exampleNoEdges (beforeStore exampleFull ⟨2, 40, 50, 0⟩) = some cf' ∧
      storedRecords cf' = (storedRecords exampleFull).filter (isLive exampleFull.alignments cl) ∧
      (∀ r, r ∈ storedRecords cf' ↔
        ∃ c ∈ cl, r ∈ memberRecords exampleFull.alignments c.alignment_set) ∧
      ((storedRecords cf').map AlignmentRecord.id).Sorted (· < ·) ∧
      (storedRecords cf').Nodup ∧
      (∀ j, cf'.alignment_count ≤ j → cf'.alignments.getD j none = none) :=
  compaction_store exampleNoEdges exampleApart exampleFull ⟨2, 40, 50, 0⟩ (by decide)
    (by decide) (by decide)

/-! ## The calls to the collector -/

theorem delivered_append (t1 t2 : List Event) :
    delivered (t1 ++ t2) = delivered t1 ++ delivered t2 := by
  simp [delivered, List.filterMap_append]

theorem delivered_eq_nil (es : List Event) (h : ∀ e ∈ es, ∀ c m, e ≠ Event.cliqueAdd c m) :
    delivered es = [] := by
  unfold delivered
  rw [List.filterMap_eq_nil_iff]
  intro e he
  cases e with
  | cliqueAdd c m => exact absurd rfl (h _ he c m)
  | _ => rfl

theorem delivered_map_deliver (alignments : Store) (l : List Clique) :
    delivered (l.map (deliver alignments)) =
      l.map (fun c => memberRecords alignments c.alignment_set) := by
  induction l with
  | nil => rfl
  | cons c l ih =>
    simp only [List.map_cons, delivered, List.filterMap_cons, deliver] at ih ⊢
    rw [ih]

theorem delivered_addEdges (es : List Event) (h : ∀ e ∈ es, ∃ x y, e = Event.addEdge x y) :
    delivered es = [] := by
  apply delivered_eq_nil
  intro e he c m heq
  obtain ⟨x, y, hxy⟩ := h e he
  rw [hxy] at heq
  exact Event.noConfusion heq

/-- Everything a call of `addAlignment` on a consistent state does, in terms
of the state `cf3` in which the record is stored, the adjacency set, and the
outcome of the pass over the cliques. -/
theorem addAlignment_step (cfg : Config) (cf : CliqueFinder) (a : AlignmentRecord)
    (hB : 0 < cfg.bits_per_block) (hwf : WF cfg cf) :
    ∃ cf' cf3 index cl f adj,
      addAlignment cfg cf a = some cf' ∧ WF cfg cf' ∧
      cf.cliques = some cl ∧
      StoreOK cfg cf3 ∧ CliquesOK cf3.capacity index (cl.map f) ∧
      cf3.alignment_count = index + 1 ∧ index < cf3.capacity ∧
      cf3.alignments.getD index none = some (a.setID cf.next_id) ∧
      cf3.next_id = cf.next_id + 1 ∧
      (∀ c ∈ cl, memberRecords cf3.alignments (f c).alignment_set =
          memberRecords cf.alignments c.alignment_set ∧
        (f c).leftmost_segment_start = c.leftmost_segment_start ∧
        (f c).rightmost_segment_end = c.rightmost_segment_end) ∧
      adj.size = cf3.capacity ∧
      (∀ i, adj.test i = true ↔ i < cf3.alignment_count ∧
        ∃ r, cf3.alignments.getD i none = some r ∧ setEdge cfg (a.setID cf.next_id) r = true) ∧
      cf'.cliques = some (keptCliques (a.setID cf.next_id) adj (cl.map f) ++
        subsetPass (sortUnique cfg.no_sort (stagedCliques cf3.alignments index cf3.capacity
          (stagedFrom cf3.alignments (a.setID cf.next_id) index adj (cl.map f))))) ∧
      cf'.alignments = cf3.alignments ∧ cf'.alignment_count = cf3.alignment_count ∧
      cf'.capacity = cf3.capacity ∧ cf'.next_id = cf3.next_id ∧
      delivered cf'.trace = delivered cf.trace ++
        (finalCliques (a.setID cf.next_id) (cl.map f)).map
          (fun c => memberRecords cf3.alignments c.alignment_set) := by
  obtain ⟨cf3, index, cl, f, es, hst, hcl, hcl3, hs3, hok3, hne, hcnt, hidx, hget, hid, htr, hes,
    hrec⟩ := storeAlignment_wf cfg cf a hB hwf
  obtain ⟨adj, es2, hsc, hadjsz, hadj, hes2⟩ := scanEdges_store cfg cf3 (a.setID cf.next_id) hs3
  have heq := addAlignment_eq cfg cf cf3 a _ index _ adj es2 hst hcl3 hsc
  obtain ⟨cf', heq', hwf'⟩ := addAlignment_wf cfg cf a hB hwf
  have hcf' := Option.some.inj (heq'.symm.trans heq)
  refine ⟨cf', cf3, index, cl, f, adj, heq', hwf', hcl, hs3, hok3, hcnt, hidx, hget, hid, hrec,
    hadjsz, hadj, ?_, ?_, ?_, ?_, ?_, ?_⟩
  · rw [hcf']
  · rw [hcf']
  · rw [hcf']
  · rw [hcf']
  · rw [hcf']
  · rw [hcf']
    simp only [delivered_append, htr, delivered_eq_nil es hes, delivered_addEdges es2 hes2,
      delivered_map_deliver, List.append_nil]

theorem isFinal_setID (a : AlignmentRecord) (n : Nat) (c : Clique) :
    isFinal (a.setID n) c = decide (c.rightmost_segment_end < a.intervalStart) := rfl

theorem finalCliques_map (v : AlignmentRecord) (cl : List Clique) (f : Clique → Clique)
    (h : ∀ c ∈ cl, (f c).rightmost_segment_end = c.rightmost_segment_end) :
    finalCliques v (cl.map f) = (finalCliques v cl).map f := by
  unfold finalCliques
  rw [List.filter_map]
  congr 1
  apply List.filter_congr
  intro c hc
  simp only [Function.comp, isFinal, h c hc]

/-- Claim C4.  A call `addAlignment(v)` in a reachable state hands to the
collector exactly the cliques of the active collection whose
`rightmostSegmentEnd` is below `v`'s interval start, in collection order and
each with the member records it had before the call; every clique that is
active after the call either has the new record as a member or is one of the
cliques active before that are not below `v`'s interval start, with the same
member records. -/
theorem finalize_left (cfg : Config) (inputs : List AlignmentRecord) (cf : CliqueFinder)
    (v : AlignmentRecord) (hB : 0 < cfg.bits_per_block)
    (hreach : addAll cfg (CliqueFinder.init cfg) inputs = some cf) :
    ∃ cl cf' cl', cf.cliques = some cl ∧ addAlignment cfg cf v = some cf' ∧
      cf'.cliques = some cl' ∧
      delivered cf'.trace = delivered cf.trace ++
        (cl.filter (fun c => decide (c.rightmost_segment_end < v.intervalStart))).map
          (fun c => memberRecords cf.alignments c.alignment_set) ∧
      ∀ c' ∈ cl',
        v.setID cf.next_id ∈ memberRecords cf'.alignments c'.alignment_set ∨
        ∃ c ∈ cl, ¬ c.rightmost_segment_end < v.intervalStart ∧
          c'.rightmost_segment_end = c.rightmost_segment_end ∧
          memberRecords cf'.alignments c'.alignment_set =
            memberRecords cf.alignments c.alignment_set := by
  have hwf := reachable_wf cfg hB inputs cf hreach
  obtain ⟨cf', cf3, index, cl, f, adj, hadd, hwf', hcl, hs3, hok3, hcnt, hidx, hget, hid, hrec,
    hadjsz, hadj, hcl', hal, -, -, -, hdel⟩ := addAlignment_step cfg cf v hB hwf
  refine ⟨cl, cf', _, hcl, hadd, hcl', ?_, ?_⟩
  · rw [hdel, finalCliques_map _ _ _ (fun c hc => (hrec c hc).2.2), List.map_map]
    congr 1
    apply List.map_congr_left
    intro c hc
    exact (hrec c (List.mem_filter.mp hc).1).1
  · intro c' hc'
    rw [hal]
    rcases List.mem_append.mp hc' with hk | hn
    · right
      obtain ⟨hk1, hk2⟩ := List.mem_filter.mp hk
      obtain ⟨c, hc, rfl⟩ := List.mem_map.mp hk1
      obtain ⟨h1, -, h3⟩ := hrec c hc
      refine ⟨c, hc, ?_, h3, h1⟩
      simp only [Bool.and_eq_true, Bool.not_eq_true', isFinal_setID, h3,
        decide_eq_false_iff_not] at hk2
      exact hk2.1
    · left
      have ht := (test_staged hok3.size_eq hidx
        (sortUnique_sub _ _ c' (subsetPass_sub _ c' hn))).2.1
      exact mem_memberRecords.mpr ⟨index, ht, hget⟩

/-- Claim C4 on the run `exampleApart`: inserting a third record right of the
second one hands the clique of the second record to the collector. -/
theorem finalize_left_witness :
    ∃ cl cf' cl', exampleFull.cliques = some cl ∧
      addAlignment exampleNoEdges exampleFull ⟨2, 40, 50, 0⟩ = some cf' ∧
      cf'.cliques = some cl' ∧
      delivered cf'.trace = delivered exampleFull.trace ++
        (cl.filter (fun c => decide
            (c.rightmost_segment_end < (⟨2, 40, 50, 0⟩ : AlignmentRecord).intervalStart))).map
          (fun c => memberRecords exampleFull.alignments c.alignment_set) ∧
      ∀ c' ∈ cl',
        (⟨2, 40, 50, 0⟩ : AlignmentRecord).setID exampleFull.next_id ∈
            memberRecords cf'.alignments c'.alignment_set ∨
        ∃ c ∈ cl, ¬ c.rightmost_segment_end < (⟨2, 40, 50, 0⟩ : AlignmentRecord).intervalStart ∧
          c'.rightmost_segment_end = c.rightmost_segment_end ∧
          memberRecords cf'.alignments c'.alignment_set =
            memberRecords exampleFull.alignments c.alignment_set :=
  finalize_left exampleNoEdges exampleApart exampleFull ⟨2, 40, 50, 0⟩ (by decide) (by decide)

/-! ## Invariants along a run -/

/-- A property of consistent states that every `addAlignment` call preserves
holds after every run. -/
theorem addAll_invariant (cfg : Config) (hB : 0 < cfg.bits_per_block)
    (P : CliqueFinder → Prop)
    (hstep : ∀ cf a cf', WF cfg cf → P cf → addAlignment cfg cf a = some cf' → P cf')
    (l : List AlignmentRecord) (cf : CliqueFinder) (hwf : WF cfg cf) (hP : P cf) :
    ∃ cf', addAll cfg cf l = some cf' ∧ WF cfg cf' ∧ P cf' := by
  induction l generalizing cf with
  | nil => exact ⟨cf, rfl, hwf, hP⟩
  | cons a l ih =>
    obtain ⟨cf1, h1, hwf1⟩ := addAlignment_wf cfg cf a hB hwf
    obtain ⟨cf', h2, hwf', hP'⟩ := ih cf1 hwf1 (hstep cf a cf1 hwf hP h1)
    exact ⟨cf', by simp only [addAll, h1, h2], hwf', hP'⟩

/-- With a consistent store, containment of membership sets is containment of
the member records. -/
theorem contains_iff_records {cfg : Config} {cf : CliqueFinder} (hs : StoreOK cfg cf)
    {c d : Clique} (hc : ∀ i, c.alignment_set.test i = true → i < cf.alignment_count)
    (hd : ∀ i, d.alignment_set.test i = true → i < cf.alignment_count) :
    d.contains c = true ↔
      ∀ r, r ∈ memberRecords cf.alignments c.alignment_set →
        r ∈ memberRecords cf.alignments d.alignment_set := by
  rw [contains_iff]
  constructor
  · intro h r hr
    obtain ⟨i, hi, hri⟩ := mem_memberRecords.mp hr
    exact mem_memberRecords.mpr ⟨i, h i hi, hri⟩
  · intro h i hi
    obtain ⟨r, hr⟩ := hs.present i (hc i hi)
    obtain ⟨j, hj, hrj⟩ := mem_memberRecords.mp (h r (mem_memberRecords.mpr ⟨i, hi, hr⟩))
    have : j = i := store_slot_inj hs (hd j hj) (hc i hi) hrj hr
    rw [← this]
    exact hj

theorem incomparable_symm {a b : Clique} (h : Incomparable a b) : Incomparable b a :=
  ⟨h.2, h.1⟩

/-- A clique that the pass leaves in the collection is incomparable with every
staged clique. -/
theorem kept_incomparable_staged {alignments : Store} {v : AlignmentRecord} {index : Nat}
    {adj : alignment_set_t} {cl : List Clique} {capacity : Nat}
    (hok : CliquesOK capacity index cl) (hidx : index < capacity)
    {k n : Clique} (hk : k ∈ keptCliques v adj cl)
    (hn : n ∈ stagedCliques alignments index capacity (stagedFrom alignments v index adj cl)) :
    Incomparable k n := by
  obtain ⟨hk1, hk2⟩ := List.mem_filter.mp hk
  obtain ⟨-, hnidx, hn'⟩ := test_staged hok.size_eq hidx hn
  obtain ⟨i0, hi0⟩ := hok.nonempty k hk1
  constructor
  · -- `n` does not contain `k`
    by_contra hcon
    have hcon' : n.contains k = true := by simpa using hcon
    rw [contains_iff] at hcon'
    rcases hn' with h | ⟨c, -, -, h⟩
    · have := (h i0).mp (hcon' i0 hi0)
      have hlt := hok.bits_lt k hk1 i0 hi0
      omega
    · have hsub : ∀ i, k.alignment_set.test i = true → adj.test i = true := by
        intro i hi
        rcases (h i).mp (hcon' i hi) with rfl | ⟨_, h2⟩
        · exact absurd (hok.bits_lt k hk1 i hi) (Nat.lt_irrefl _)
        · exact h2
      have hcount := (alignment_set_t.count_inter_eq_iff k.alignment_set adj).mpr hsub
      have hany := (alignment_set_t.any_inter_iff k.alignment_set adj).mpr
        ⟨i0, hi0, hsub i0 hi0⟩
      simp only [Clique.intersect, Clique.size, hany, hcount, decide_True, Bool.and_self,
        Bool.not_true, Bool.and_false, Bool.false_eq_true] at hk2
  · -- `k` does not contain `n`
    by_contra hcon
    have hcon' : k.contains n = true := by simpa using hcon
    rw [contains_iff] at hcon'
    exact absurd (hok.bits_lt k hk1 index (hcon' index hnidx)) (Nat.lt_irrefl _)

/-- A call of `addAlignment` keeps the active collection free of containments. -/
theorem addAlignment_antichain (cfg : Config) (hB : 0 < cfg.bits_per_block)
    (cf : CliqueFinder) (a : AlignmentRecord) (cf' : CliqueFinder) (hwf : WF cfg cf)
    (hP : ∀ cl, cf.cliques = some cl → cl.Pairwise Incomparable)
    (hadd : addAlignment cfg cf a = some cf') :
    ∀ cl, cf'.cliques = some cl → cl.Pairwise Incomparable := by
  obtain ⟨cf'', cf3, index, cl, f, adj, hadd', hwf', hcl, hs3, hok3, hcnt, hidx, hget, hid, hrec,
    hadjsz, hadj, hcl', -⟩ := addAlignment_step cfg cf a hB hwf
  have : cf'' = cf' := Option.some.inj (hadd'.symm.trans hadd)
  subst this
  intro cl' hcl''
  rw [hcl'] at hcl''
  rw [← Option.some.inj hcl'']
  obtain ⟨cl0, hcl0, hok, -⟩ := hwf.cliques
  have : cl0 = cl := by rw [hcl] at hcl0; exact (Option.some.inj hcl0).symm
  subst this
  have hpw := hP cl0 hcl
  have hbits3 : ∀ c ∈ cl0.map f, ∀ i, c.alignment_set.test i = true → i < cf3.alignment_count := by
    intro c hc i hi
    have := hok3.bits_lt c hc i hi
    omega
  -- the renumbered cliques are pairwise incomparable
  have hpw3 : (cl0.map f).Pairwise Incomparable := by
    rw [List.pairwise_map]
    refine List.Pairwise.imp_of_mem ?_ hpw
    intro c d hc hd hcd
    have key : ∀ x ∈ cl0, ∀ y ∈ cl0, (f y).contains (f x) = y.contains x := by
      intro x hx y hy
      rw [Bool.eq_iff_iff,
        contains_iff_records hs3 (hbits3 _ (List.mem_map_of_mem f hx))
          (hbits3 _ (List.mem_map_of_mem f hy)),
        contains_iff_records hwf.store (hok.bits_lt x hx) (hok.bits_lt y hy),
        (hrec x hx).1, (hrec y hy).1]
    exact ⟨by rw [key c hc d hd]; exact hcd.1, by rw [key d hd c hc]; exact hcd.2⟩
  rw [List.pairwise_append]
  refine ⟨hpw3.filter _, subsetPass_pairwise _, ?_⟩
  intro k hk n hn
  exact kept_incomparable_staged hok3 hidx hk (sortUnique_sub _ _ n (subsetPass_sub _ n hn))

/-- Claim C2.  After every run of `addAlignment` calls from the constructor,
with any edge calculators and either setting of `no_sort`, the run succeeds
and no membership set of the active collection is a strict subset of another
one; in fact no clique of the collection contains another entry of it at
all. -/
theorem active_maximality (cfg : Config) (inputs : List AlignmentRecord)
    (hB : 0 < cfg.bits_per_block) :
    ∃ cf cl, addAll cfg (CliqueFinder.init cfg) inputs = some cf ∧ cf.cliques = some cl ∧
      cl.Pairwise Incomparable ∧
      ∀ c ∈ cl, ∀ d ∈ cl, ¬ (d.contains c = true ∧ c.contains d = false) := by
  obtain ⟨cf, hrun, hwf, hP⟩ := addAll_invariant cfg hB
    (fun s => ∀ cl, s.cliques = some cl → cl.Pairwise Incomparable)
    (fun s a s' hwf hP hadd => addAlignment_antichain cfg hB s a s' hwf hP hadd)
    inputs (CliqueFinder.init cfg) (init_wf cfg hB)
    (by
      intro cl hcl
      have : cl = [] := (Option.some.inj hcl).symm
      rw [this]
      exact List.Pairwise.nil)
  obtain ⟨cl, hcl, -⟩ := hwf.cliques
  refine ⟨cf, cl, hrun, hcl, hP cl hcl, ?_⟩
  rintro c hc d hd ⟨h1, h2⟩
  have hne : c ≠ d := by
    rintro rfl
    rw [contains_refl] at h2
    exact Bool.noConfusion h2
  have := (hP cl hcl).forall (fun _ _ h => incomparable_symm h) hc hd hne
  rw [this.1] at h1
  exact Bool.noConfusion h1

/-- Claim C2 on the run `exampleABC` with the edges A-B and B-C. -/
theorem active_maximality_witness :
    ∃ cf cl, addAll examplePath (CliqueFinder.init examplePath) exampleABC = some cf ∧
      cf.cliques = some cl ∧ cl.Pairwise Incomparable ∧
      ∀ c ∈ cl, ∀ d ∈ cl, ¬ (d.contains c = true ∧ c.contains d = false) :=
  active_maximality examplePath exampleABC (by decide)

theorem setEdge_iff (cfg : Config) (x y : AlignmentRecord) :
    setEdge cfg x y = true ↔ cfg.edge_calculator x y = true ∧
      ∀ second, cfg.second_edge_calculator = some second → second x y = true := by
  unfold setEdge
  cases h1 : cfg.edge_calculator x y
  · simp
  · cases h2 : cfg.second_edge_calculator with
    | none => simp
    | some s => simp

/-- The result of `finish` on a state that has a clique list. -/
theorem finish_some (cfg : Config) (cf : CliqueFinder) (cl : List Clique)
    (hcl : cf.cliques = some cl) :
    ∃ cf', finish cfg cf = some cf' ∧ cf'.cliques = none ∧
      cf'.alignments = cf.alignments ∧
      delivered cf'.trace = delivered cf.trace ++
        cl.map (fun c => memberRecords cf.alignments c.alignment_set) := by
  have hfin := (by simp only [finish, hcl]; rfl : finish cfg cf = some _)
  refine ⟨_, hfin, rfl, rfl, ?_⟩
  simp only [delivered_append, delivered_map_deliver]
  have : delivered (if cfg.edge_writer then [Event.writerFinish] else []) = [] := by
    split <;> rfl
  rw [this, List.append_nil]

/-- The members of a staged clique, read through the array, are pairwise
compatible when those of the active cliques are. -/
theorem staged_isCliqueOf {cfg : Config} {cf3 : CliqueFinder} {v : AlignmentRecord}
    {index : Nat} {adj : alignment_set_t} {cl : List Clique}
    (hs3 : StoreOK cfg cf3) (hok : CliquesOK cf3.capacity index cl)
    (hcnt : cf3.alignment_count = index + 1) (hidx : index < cf3.capacity)
    (hget : cf3.alignments.getD index none = some v)
    (hadj : ∀ i, adj.test i = true ↔ i < cf3.alignment_count ∧
      ∃ r, cf3.alignments.getD i none = some r ∧ setEdge cfg v r = true)
    (hinv : ∀ c ∈ cl, IsCliqueOf cfg (memberRecords cf3.alignments c.alignment_set))
    {n : Clique}
    (hn : n ∈ stagedCliques cf3.alignments index cf3.capacity
      (stagedFrom cf3.alignments v index adj cl)) :
    IsCliqueOf cfg (memberRecords cf3.alignments n.alignment_set) := by
  obtain ⟨-, -, hn'⟩ := test_staged hok.size_eq hidx hn
  intro x hx y hy hlt
  obtain ⟨ix, hix, hrx⟩ := mem_memberRecords.mp hx
  obtain ⟨iy, hiy, hry⟩ := mem_memberRecords.mp hy
  rcases hn' with h | ⟨c, hc, -, h⟩
  · have h1 := (h ix).mp hix
    have h2 := (h iy).mp hiy
    subst h1
    subst h2
    rw [hrx] at hry
    rw [Option.some.inj hry] at hlt
    exact absurd hlt (Nat.lt_irrefl _)
  · rcases (h ix).mp hix with hxi | ⟨hcx, -⟩
    · subst hxi
      rw [hget] at hrx
      have hxv : v = x := Option.some.inj hrx
      subst hxv
      rcases (h iy).mp hiy with hyi | ⟨-, hay⟩
      · subst hyi
        rw [hget] at hry
        rw [Option.some.inj hry] at hlt
        exact absurd hlt (Nat.lt_irrefl _)
      · obtain ⟨-, r, hr, he⟩ := (hadj iy).mp hay
        rw [hry] at hr
        rw [← Option.some.inj hr] at he
        exact (setEdge_iff cfg v y).mp he
    · rcases (h iy).mp hiy with hyi | ⟨hcy, -⟩
      · subst hyi
        have hixlt := hok.bits_lt c hc ix hcx
        have := hs3.ids_mono ix iy x y hixlt (by omega) hrx hry
        omega
      · exact hinv c hc x (mem_memberRecords.mpr ⟨ix, hcx, hrx⟩) y
          (mem_memberRecords.mpr ⟨iy, hcy, hry⟩) hlt

/-- A call of `addAlignment` keeps all cliques, active or handed to the
collector, pairwise compatible. -/
theorem addAlignment_isCliqueOf (cfg : Config) (hB : 0 < cfg.bits_per_block)
    (cf : CliqueFinder) (a : AlignmentRecord) (cf' : CliqueFinder) (hwf : WF cfg cf)
    (hP : (∀ cl, cf.cliques = some cl →
        ∀ c ∈ cl, IsCliqueOf cfg (memberRecords cf.alignments c.alignment_set)) ∧
      ∀ m ∈ delivered cf.trace, IsCliqueOf cfg m)
    (hadd : addAlignment cfg cf a = some cf') :
    (∀ cl, cf'.cliques = some cl →
        ∀ c ∈ cl, IsCliqueOf cfg (memberRecords cf'.alignments c.alignment_set)) ∧
      ∀ m ∈ delivered cf'.trace, IsCliqueOf cfg m := by
  obtain ⟨cf'', cf3, index, cl, f, adj, hadd', hwf', hcl, hs3, hok3, hcnt, hidx, hget, hid, hrec,
    hadjsz, hadj, hcl', hal, -, -, -, hdel⟩ := addAlignment_step cfg cf a hB hwf
  have : cf'' = cf' := Option.some.inj (hadd'.symm.trans hadd)
  subst this
  have hinv3 : ∀ c ∈ cl.map f, IsCliqueOf cfg (memberRecords cf3.alignments c.alignment_set) := by
    intro c hc
    obtain ⟨c0, hc0, rfl⟩ := List.mem_map.mp hc
    rw [(hrec c0 hc0).1]
    exact hP.1 cl hcl c0 hc0
  constructor
  · intro cl' hcl'' c hc
    rw [hcl'] at hcl''
    rw [← Option.some.inj hcl''] at hc
    rw [hal]
    rcases List.mem_append.mp hc with hk | hn
    · exact hinv3 c (List.mem_filter.mp hk).1
    · exact staged_isCliqueOf hs3 hok3 hcnt hidx hget hadj hinv3
        (sortUnique_sub _ _ c (subsetPass_sub _ c hn))
  · intro m hm
    rw [hdel] at hm
    rcases List.mem_append.mp hm with hm | hm
    · exact hP.2 m hm
    · obtain ⟨c, hc, rfl⟩ := List.mem_map.mp hm
      exact hinv3 c (List.mem_filter.mp hc).1

/-- Claim C3.  After every run of `addAlignment` calls from the constructor,
every active clique and every clique handed to the collector, also by a
following `finish`, is pairwise compatible: of any two members the later
inserted one tested positive against the earlier one with the edge calculator
and, when configured, with the second edge calculator. -/
theorem cliques_are_compatible (cfg : Config) (inputs : List AlignmentRecord)
    (hB : 0 < cfg.bits_per_block) :
    ∃ cf cl cf', addAll cfg (CliqueFinder.init cfg) inputs = some cf ∧ cf.cliques = some cl ∧
      (∀ c ∈ cl, IsCliqueOf cfg (memberRecords cf.alignments c.alignment_set)) ∧
      (∀ m ∈ delivered cf.trace, IsCliqueOf cfg m) ∧
      finish cfg cf = some cf' ∧ ∀ m ∈ delivered cf'.trace, IsCliqueOf cfg m := by
  obtain ⟨cf, hrun, hwf, hP⟩ := addAll_invariant cfg hB
    (fun s => (∀ cl, s.cliques = some cl →
        ∀ c ∈ cl, IsCliqueOf cfg (memberRecords s.alignments c.alignment_set)) ∧
      ∀ m ∈ delivered s.trace, IsCliqueOf cfg m)
    (fun s a s' hwf hP hadd => addAlignment_isCliqueOf cfg hB s a s' hwf hP hadd)
    inputs (CliqueFinder.init cfg) (init_wf cfg hB)
    (by
      constructor
      · intro cl hcl c hc
        have : cl = [] := (Option.some.inj hcl).symm
        rw [this] at hc
        simp at hc
      · intro m hm
        simp [CliqueFinder.init, delivered] at hm)
  obtain ⟨cl, hcl, -⟩ := hwf.cliques
  obtain ⟨cf', hfin, -, -, hdel⟩ := finish_some cfg cf cl hcl
  refine ⟨cf, cl, cf', hrun, hcl, hP.1 cl hcl, hP.2, hfin, ?_⟩
  intro m hm
  rw [hdel] at hm
  rcases List.mem_append.mp hm with hm | hm
  · exact hP.2 m hm
  · obtain ⟨c, hc, rfl⟩ := List.mem_map.mp hm
    exact hP.1 cl hcl c hc

/-- Claim C3 on the run `exampleABC` with the edges A-B and B-C. -/
theorem cliques_are_compatible_witness :
    ∃ cf cl cf', addAll examplePath (CliqueFinder.init examplePath) exampleABC = some cf ∧
      cf.cliques = some cl ∧
      (∀ c ∈ cl, IsCliqueOf examplePath (memberRecords cf.alignments c.alignment_set)) ∧
      (∀ m ∈ delivered cf.trace, IsCliqueOf examplePath m) ∧
      finish examplePath cf = some cf' ∧ ∀ m ∈ delivered cf'.trace, IsCliqueOf examplePath m :=
  cliques_are_compatible examplePath exampleABC (by decide)

/-! ## Members of the staged cliques, as records -/

/-- The member records of a staged clique: the new record, and the members of
the clique it comes from that are adjacent to the new record. -/
theorem staged_members {cfg : Config} {cf3 : CliqueFinder} {v : AlignmentRecord}
    {index : Nat} {adj : alignment_set_t} {cl : List Clique}
    (hok : CliquesOK cf3.capacity index cl)
    (hcnt : cf3.alignment_count = index + 1) (hidx : index < cf3.capacity)
    (hget : cf3.alignments.getD index none = some v)
    (hadj : ∀ i, adj.test i = true ↔ i < cf3.alignment_count ∧
      ∃ r, cf3.alignments.getD i none = some r ∧ setEdge cfg v r = true)
    {n : Clique}
    (hn : n ∈ stagedCliques cf3.alignments index cf3.capacity
      (stagedFrom cf3.alignments v index adj cl)) :
    v ∈ memberRecords cf3.alignments n.alignment_set ∧
    ((∀ r, r ∈ memberRecords cf3.alignments n.alignment_set → r = v) ∨
      ∃ c ∈ cl, isFinal v c = false ∧
        ∀ r, r ∈ memberRecords cf3.alignments n.alignment_set ↔
          r = v ∨ (r ∈ memberRecords cf3.alignments c.alignment_set ∧
            setEdge cfg v r = true)) := by
  obtain ⟨-, hnidx, hn'⟩ := test_staged hok.size_eq hidx hn
  refine ⟨mem_memberRecords.mpr ⟨index, hnidx, hget⟩, ?_⟩
  rcases hn' with h | ⟨c, hc, hfin, h⟩
  · left
    intro r hr
    obtain ⟨i, hi, hri⟩ := mem_memberRecords.mp hr
    have := (h i).mp hi
    subst this
    rw [hget] at hri
    exact (Option.some.inj hri).symm
  · right
    refine ⟨c, hc, hfin, ?_⟩
    intro r
    constructor
    · intro hr
      obtain ⟨i, hi, hri⟩ := mem_memberRecords.mp hr
      rcases (h i).mp hi with hii | ⟨hci, hai⟩
      · subst hii
        rw [hget] at hri
        exact Or.inl (Option.some.inj hri).symm
      · right
        obtain ⟨-, r', hr', he⟩ := (hadj i).mp hai
        rw [hri] at hr'
        rw [← Option.some.inj hr'] at he
        exact ⟨mem_memberRecords.mpr ⟨i, hci, hri⟩, he⟩
    · rintro (rfl | ⟨hr, he⟩)
      · exact mem_memberRecords.mpr ⟨index, hnidx, hget⟩
      · obtain ⟨i, hi, hri⟩ := mem_memberRecords.mp hr
        have hilt := hok.bits_lt c hc i hi
        refine mem_memberRecords.mpr ⟨i, (h i).mpr (Or.inr ⟨hi, ?_⟩), hri⟩
        exact (hadj i).mpr ⟨by omega, r, hri, he⟩

/-- With a consistent store, containment of membership sets is containment of
the members' identifiers. -/
theorem contains_iff_ids {cfg : Config} {cf : CliqueFinder} (hs : StoreOK cfg cf)
    {c d : Clique} (hc : ∀ i, c.alignment_set.test i = true → i < cf.alignment_count)
    (hd : ∀ i, d.alignment_set.test i = true → i < cf.alignment_count) :
    d.contains c = true ↔
      idsOf (memberRecords cf.alignments c.alignment_set) ⊆
        idsOf (memberRecords cf.alignments d.alignment_set) := by
  rw [contains_iff]
  constructor
  · intro h x hx
    obtain ⟨r, hr, rfl⟩ := List.mem_map.mp hx
    obtain ⟨i, hi, hri⟩ := mem_memberRecords.mp hr
    exact List.mem_map.mpr ⟨r, mem_memberRecords.mpr ⟨i, h i hi, hri⟩, rfl⟩
  · intro h i hi
    obtain ⟨r, hr⟩ := hs.present i (hc i hi)
    have hmem : r.id ∈ idsOf (memberRecords cf.alignments c.alignment_set) :=
      List.mem_map.mpr ⟨r, mem_memberRecords.mpr ⟨i, hi, hr⟩, rfl⟩
    obtain ⟨r', hr', hid⟩ := List.mem_map.mp (h hmem)
    obtain ⟨j, hj, hrj⟩ := mem_memberRecords.mp hr'
    have hij : j = i := by
      rcases Nat.lt_trichotomy j i with hlt | heq | hgt
      · have := hs.ids_mono j i r' r hlt (hc i hi) hrj hr
        omega
      · exact heq
      · have := hs.ids_mono i j r r' hgt (hd j hj) hr hrj
        omega
    rw [← hij]
    exact hj

/-- In a consistent state, cliques with incomparable membership sets have
incomparable identifier sets. -/
theorem idsIncomparable_of_incomparable {cfg : Config} {cf : CliqueFinder} (hs : StoreOK cfg cf)
    {c d : Clique} (hc : ∀ i, c.alignment_set.test i = true → i < cf.alignment_count)
    (hd : ∀ i, d.alignment_set.test i = true → i < cf.alignment_count)
    (h : Incomparable c d) :
    IdsIncomparable (idsOf (memberRecords cf.alignments c.alignment_set))
      (idsOf (memberRecords cf.alignments d.alignment_set)) := by
  constructor
  · intro hsub
    have := (contains_iff_ids hs hc hd).mpr hsub
    rw [h.1] at this
    exact Bool.noConfusion this
  · intro hsub
    have := (contains_iff_ids hs hd hc).mpr hsub
    rw [h.2] at this
    exact Bool.noConfusion this

theorem idsIncomparable_symm {x y : List Nat} (h : IdsIncomparable x y) :
    IdsIncomparable y x := ⟨h.2, h.1⟩

/-! ## Maximality of the output -/

theorem addAlignment_outputInv (cfg : Config) (hB : 0 < cfg.bits_per_block)
    (cf : CliqueFinder) (a : AlignmentRecord) (cf' : CliqueFinder) (hwf : WF cfg cf)
    (hP : OutputInv cf) (hadd : addAlignment cfg cf a = some cf') : OutputInv cf' := by
  have hanti := addAlignment_antichain cfg hB cf a cf' hwf hP.active hadd
  obtain ⟨cf'', cf3, index, cl, f, adj, hadd', hwf', hcl, hs3, hok3, hcnt, hidx, hget, hid, hrec,
    hadjsz, hadj, hcl', hal, -, -, hnid, hdel⟩ := addAlignment_step cfg cf a hB hwf
  have hcf : cf' = cf'' := Option.some.inj (hadd.symm.trans hadd')
  subst hcf
  obtain ⟨cl0, hcl0, hok, -⟩ := hwf.cliques
  have : cl0 = cl := by rw [hcl] at hcl0; exact (Option.some.inj hcl0).symm
  subst this
  have hbits3 : ∀ c ∈ cl0.map f, ∀ i, c.alignment_set.test i = true → i < cf3.alignment_count := by
    intro c hc i hi
    have := hok3.bits_lt c hc i hi
    omega
  have hvid : (a.setID cf.next_id).id = cf.next_id := rfl
  -- facts about the renumbered cliques
  have hpw3 : (cl0.map f).Pairwise (fun c1 c2 =>
      IdsIncomparable (idsOf (memberRecords cf3.alignments c1.alignment_set))
        (idsOf (memberRecords cf3.alignments c2.alignment_set))) := by
    rw [List.pairwise_map]
    refine List.Pairwise.imp_of_mem ?_ (hP.active cl0 hcl)
    intro c d hc hd hcd
    rw [(hrec c hc).1, (hrec d hd).1]
    exact idsIncomparable_of_incomparable hwf.store (hok.bits_lt c hc) (hok.bits_lt d hd) hcd
  have hall3 : ∀ c1 ∈ cl0.map f, ∀ c2 ∈ cl0.map f, c1 ≠ c2 →
      IdsIncomparable (idsOf (memberRecords cf3.alignments c1.alignment_set))
        (idsOf (memberRecords cf3.alignments c2.alignment_set)) :=
    fun c1 h1 c2 h2 hne => hpw3.forall (fun _ _ h => idsIncomparable_symm h) h1 h2 hne
  have hcross3 : ∀ m ∈ delivered cf.trace, ∀ c ∈ cl0.map f,
      IdsIncomparable (idsOf m) (idsOf (memberRecords cf3.alignments c.alignment_set)) := by
    intro m hm c hc
    obtain ⟨c0, hc0, rfl⟩ := List.mem_map.mp hc
    rw [(hrec c0 hc0).1]
    exact hP.cross cl0 hcl m hm c0 hc0
  have hlt3 : ∀ c ∈ cl0.map f, ∀ r ∈ memberRecords cf3.alignments c.alignment_set,
      r.id < cf.next_id := by
    intro c hc r hr
    obtain ⟨c0, hc0, rfl⟩ := List.mem_map.mp hc
    rw [(hrec c0 hc0).1] at hr
    obtain ⟨i, hi, hri⟩ := mem_memberRecords.mp hr
    exact hwf.store.ids_lt i r (hok.bits_lt c0 hc0 i hi) hri
  have hne3 : ∀ c ∈ cl0.map f, memberRecords cf3.alignments c.alignment_set ≠ [] := by
    intro c hc
    obtain ⟨i, hi⟩ := hok3.nonempty c hc
    obtain ⟨r, hr⟩ := hs3.present i (hbits3 c hc i hi)
    exact List.ne_nil_of_mem (mem_memberRecords.mpr ⟨i, hi, hr⟩)
  have hfinal : ∀ m ∈ (finalCliques (a.setID cf.next_id) (cl0.map f)).map
      (fun c => memberRecords cf3.alignments c.alignment_set),
      ∃ c ∈ cl0.map f, isFinal (a.setID cf.next_id) c = true ∧
        m = memberRecords cf3.alignments c.alignment_set := by
    intro m hm
    obtain ⟨c, hc, rfl⟩ := List.mem_map.mp hm
    obtain ⟨hc1, hc2⟩ := List.mem_filter.mp hc
    exact ⟨c, hc1, hc2, rfl⟩
  -- all delivered cliques, old and new, have identifiers below the new one
  have hlt_all : ∀ m ∈ delivered cf'.trace, ∀ r ∈ m, r.id < cf.next_id := by
    intro m hm r hr
    rw [hdel] at hm
    rcases List.mem_append.mp hm with hm | hm
    · exact hP.ids_lt m hm r hr
    · obtain ⟨c, hc, -, rfl⟩ := hfinal m hm
      exact hlt3 c hc r hr
  have hne_all : ∀ m ∈ delivered cf'.trace, m ≠ [] := by
    intro m hm
    rw [hdel] at hm
    rcases List.mem_append.mp hm with hm | hm
    · exact hP.nonempty m hm
    · obtain ⟨c, hc, -, rfl⟩ := hfinal m hm
      exact hne3 c hc
  refine ⟨hanti, ?_, ?_, ?_, hne_all⟩
  · rw [hdel, List.map_append, List.pairwise_append]
    refine ⟨hP.sunk, ?_, ?_⟩
    · rw [List.map_map, List.pairwise_map]
      exact hpw3.sublist (List.filter_sublist _)
    · intro x hx y hy
      obtain ⟨m, hm, rfl⟩ := List.mem_map.mp hx
      obtain ⟨m', hm', rfl⟩ := List.mem_map.mp hy
      obtain ⟨c, hc, -, rfl⟩ := hfinal m' hm'
      exact hcross3 m hm c hc
  · intro cl'' hcl'' m hm c' hc'
    rw [hcl'] at hcl''
    rw [← Option.some.inj hcl''] at hc'
    rw [hal]
    rcases List.mem_append.mp hc' with hk | hn
    · obtain ⟨hk1, hk2⟩ := List.mem_filter.mp hk
      have hnf : isFinal (a.setID cf.next_id) c' = false := by
        simp only [Bool.and_eq_true, Bool.not_eq_true'] at hk2
        exact hk2.1
      rw [hdel] at hm
      rcases List.mem_append.mp hm with hm | hm
      · exact hcross3 m hm c' hk1
      · obtain ⟨c, hc, hcf, rfl⟩ := hfinal m hm
        have hne : c ≠ c' := by
          rintro rfl
          rw [hnf] at hcf
          exact Bool.noConfusion hcf
        exact hall3 c hc c' hk1 hne
    · have hst := sortUnique_sub _ _ c' (subsetPass_sub _ c' hn)
      obtain ⟨hv, hmem⟩ := staged_members hok3 hcnt hidx hget hadj hst
      have hlt_m := hlt_all m hm
      obtain ⟨r0, t, hmrt⟩ := List.exists_cons_of_ne_nil (hne_all m hm)
      have hr0 : r0 ∈ m := by rw [hmrt]; exact List.mem_cons_self _ _
      constructor
      · intro hsub
        have hr0n : r0.id ∈ idsOf (memberRecords cf3.alignments c'.alignment_set) :=
          hsub (List.mem_map.mpr ⟨r0, hr0, rfl⟩)
        rcases hmem with hall | ⟨c, hc, hcf, hiff⟩
        · obtain ⟨r, hr, hrid⟩ := List.mem_map.mp hr0n
          rw [hall r hr] at hrid
          have := hlt_m r0 hr0
          rw [← hrid, hvid] at this
          exact Nat.lt_irrefl _ this
        · have hsubc : idsOf m ⊆ idsOf (memberRecords cf3.alignments c.alignment_set) := by
            intro x hx
            obtain ⟨r, hr, hrid⟩ := List.mem_map.mp (hsub hx)
            rcases (hiff r).mp hr with hrv | ⟨hrc, -⟩
            · obtain ⟨rx, hrx, hrxid⟩ := List.mem_map.mp hx
              have := hlt_m rx hrx
              rw [hrxid, ← hrid, hrv, hvid] at this
              exact absurd this (Nat.lt_irrefl _)
            · exact List.mem_map.mpr ⟨r, hrc, hrid⟩
          rw [hdel] at hm
          rcases List.mem_append.mp hm with hm | hm
          · exact (hcross3 m hm c hc).1 hsubc
          · obtain ⟨c1, hc1, hc1f, rfl⟩ := hfinal m hm
            have hne : c1 ≠ c := by
              rintro rfl
              rw [hcf] at hc1f
              exact Bool.noConfusion hc1f
            exact (hall3 c1 hc1 c hc hne).1 hsubc
      · intro hsub
        have : (a.setID cf.next_id).id ∈ idsOf m :=
          hsub (List.mem_map.mpr ⟨_, hv, rfl⟩)
        obtain ⟨r, hr, hrid⟩ := List.mem_map.mp this
        have := hlt_m r hr
        rw [hrid, hvid] at this
        exact Nat.lt_irrefl _ this
  · intro m hm r hr
    rw [hnid, hid]
    exact Nat.lt_succ_of_lt (hlt_all m hm r hr)

theorem init_outputInv (cfg : Config) : OutputInv (CliqueFinder.init cfg) := by
  refine ⟨?_, ?_, ?_, ?_, ?_⟩
  · intro cl hcl
    have : cl = [] := (Option.some.inj hcl).symm
    rw [this]
    exact List.Pairwise.nil
  · simp [CliqueFinder.init, delivered]
  · intro cl _ m hm
    simp [CliqueFinder.init, delivered] at hm
  · intro m hm
    simp [CliqueFinder.init, delivered] at hm
  · intro m hm
    simp [CliqueFinder.init, delivered] at hm

/-- Claim C10.  For every run of `addAlignment` calls from the constructor
followed by `finish`, the run succeeds and the cliques handed to the collector
are pairwise incomparable as sets of global identifiers: for no two of them is
the identifier set of one a strict subset of that of the other. -/
theorem output_maximality (cfg : Config) (inputs : List AlignmentRecord)
    (hB : 0 < cfg.bits_per_block) :
    ∃ cf cf', addAll cfg (CliqueFinder.init cfg) inputs = some cf ∧
      finish cfg cf = some cf' ∧
      ((delivered cf'.trace).map idsOf).Pairwise IdsIncomparable ∧
      ∀ m1 ∈ delivered cf'.trace, ∀ m2 ∈ delivered cf'.trace,
        ¬ (idsOf m1 ⊆ idsOf m2 ∧ ¬ idsOf m2 ⊆ idsOf m1) := by
  obtain ⟨cf, hrun, hwf, hP⟩ := addAll_invariant cfg hB OutputInv
    (fun s a s' hwf hP hadd => addAlignment_outputInv cfg hB s a s' hwf hP hadd)
    inputs (CliqueFinder.init cfg) (init_wf cfg hB) (init_outputInv cfg)
  obtain ⟨cl, hcl, hok, -⟩ := hwf.cliques
  obtain ⟨cf', hfin, -, -, hdel⟩ := finish_some cfg cf cl hcl
  have hpw : ((delivered cf'.trace).map idsOf).Pairwise IdsIncomparable := by
    rw [hdel, List.map_append, List.pairwise_append]
    refine ⟨hP.sunk, ?_, ?_⟩
    · rw [List.map_map, List.pairwise_map]
      refine List.Pairwise.imp_of_mem ?_ (hP.active cl hcl)
      intro c d hc hd hcd
      exact idsIncomparable_of_incomparable hwf.store (hok.bits_lt c hc) (hok.bits_lt d hd) hcd
    · intro x hx y hy
      obtain ⟨m, hm, rfl⟩ := List.mem_map.mp hx
      obtain ⟨m', hm', rfl⟩ := List.mem_map.mp hy
      obtain ⟨c, hc, rfl⟩ := List.mem_map.mp hm'
      exact hP.cross cl hcl m hm c hc
  refine ⟨cf, cf', hrun, hfin, hpw, ?_⟩
  rintro m1 hm1 m2 hm2 ⟨h1, h2⟩
  by_cases heq : idsOf m1 = idsOf m2
  · rw [heq] at h2
    exact h2 (fun _ h => h)
  · have := hpw.forall (fun _ _ h => idsIncomparable_symm h)
      (List.mem_map_of_mem idsOf hm1) (List.mem_map_of_mem idsOf hm2) heq
    exact this.1 h1

/-- Claim C10 on the run `exampleABC` with the edges A-B and B-C. -/
theorem output_maximality_witness :
    ∃ cf cf', addAll examplePath (CliqueFinder.init examplePath) exampleABC = some cf ∧
      finish examplePath cf = some cf' ∧
      ((delivered cf'.trace).map idsOf).Pairwise IdsIncomparable ∧
      ∀ m1 ∈ delivered cf'.trace, ∀ m2 ∈ delivered cf'.trace,
        ¬ (idsOf m1 ⊆ idsOf m2 ∧ ¬ idsOf m2 ⊆ idsOf m1) :=
  output_maximality examplePath exampleABC (by decide)

/-! ## Runs with a property of the inputs -/

theorem assignIds_append (n : Nat) (l : List AlignmentRecord) (a : AlignmentRecord) :
    assignIds n (l ++ [a]) = assignIds n l ++ [a.setID (n + l.length)] := by
  induction l generalizing n with
  | nil => rfl
  | cons b l ih =>
    have h := ih (n + 1)
    rw [show n + 1 + l.length = n + (l.length + 1) by omega] at h
    show b.setID n :: assignIds (n + 1) (l ++ [a]) = _
    rw [h]
    rfl

/-- A relation between the inputs processed so far and the state that every
`addAlignment` call preserves holds after every run. -/
theorem addAll_invariant_rel (cfg : Config) (hB : 0 < cfg.bits_per_block)
    (R : List AlignmentRecord → CliqueFinder → Prop)
    (hstep : ∀ done cf a cf', WF cfg cf → R done cf → addAlignment cfg cf a = some cf' →
      R (done ++ [a]) cf')
    (l : List AlignmentRecord) (done : List AlignmentRecord) (cf : CliqueFinder)
    (hwf : WF cfg cf) (hR : R done cf) :
    ∃ cf', addAll cfg cf l = some cf' ∧ WF cfg cf' ∧ R (done ++ l) cf' := by
  induction l generalizing cf done with
  | nil => exact ⟨cf, rfl, hwf, by simpa using hR⟩
  | cons a l ih =>
    obtain ⟨cf1, h1, hwf1⟩ := addAlignment_wf cfg cf a hB hwf
    obtain ⟨cf', h2, hwf', hR'⟩ := ih (done ++ [a]) cf1 hwf1 (hstep done cf a cf1 hwf hR h1)
    refine ⟨cf', by simp only [addAll, h1, h2], hwf', ?_⟩
    simpa using hR'

theorem members_set_new (s : alignment_set_t) (index : Nat)
    (hlt : ∀ j, s.test j = true → j < index) (hidx : index < s.size) :
    (s.set index).members = s.members ++ [index] := by
  unfold alignment_set_t.members
  rw [alignment_set_t.size_set]
  obtain ⟨k, hk⟩ := Nat.exists_eq_add_of_lt hidx
  have hsize : s.size = (index + 1) + k := by omega
  rw [filter_range_of_lt (fun i => s.test i) index s.size (Nat.le_of_lt hidx) hlt, hsize,
    List.range_add, List.range_succ, List.filter_append, List.filter_append]
  have h1 : (List.range index).filter (fun i => (s.set index).test i) =
      (List.range index).filter (fun i => s.test i) := by
    apply List.filter_congr
    intro j hj
    have hj' := List.mem_range.mp hj
    rw [alignment_set_t.test_set]
    have : ¬ j = index := by omega
    simp [this]
  have h2 : [index].filter (fun i => (s.set index).test i) = [index] := by
    have : (s.set index).test index = true :=
      (alignment_set_t.test_set_of_lt s index index hidx).mpr (Or.inl rfl)
    simp [this]
  have h3 : ((List.range k).map (fun x => index + 1 + x)).filter
      (fun i => (s.set index).test i) = [] := by
    rw [List.filter_eq_nil_iff]
    intro j hj
    obtain ⟨x, -, rfl⟩ := List.mem_map.mp hj
    intro hcon
    rcases (alignment_set_t.test_set_of_lt s index _ hidx).mp hcon with h | h
    · omega
    · have := hlt _ h
      omega
  rw [h1, h2, h3, List.append_nil]

/-- Adding a fresh slot to a membership set appends its record to the member
records. -/
theorem memberRecords_set_new (alignments : Store) (s : alignment_set_t) (index : Nat)
    (v : AlignmentRecord) (hlt : ∀ j, s.test j = true → j < index) (hidx : index < s.size)
    (hget : alignments.getD index none = some v) :
    memberRecords alignments (s.set index) = memberRecords alignments s ++ [v] := by
  unfold memberRecords
  rw [members_set_new s index hlt hidx, List.filterMap_append]
  congr 1
  simp only [List.filterMap_cons, hget, List.filterMap_nil]

theorem memberRecords_zeros (alignments : Store) (n : Nat) :
    memberRecords alignments (alignment_set_t.zeros n) = [] := by
  unfold memberRecords alignment_set_t.members
  rw [List.filterMap_eq_nil_iff]
  intro i hi
  have := (List.mem_filter.mp hi).2
  simp at this

theorem sortUnique_singleton (no_sort : Bool) (c : Clique) : sortUnique no_sort [c] = [c] := by
  cases no_sort <;> rfl

theorem subsetPass_singleton (c : Clique) : subsetPass [c] = [c] := rfl

/-! ## Runs without edges -/

theorem length_assignIds (n : Nat) (l : List AlignmentRecord) :
    (assignIds n l).length = l.length := by
  induction l generalizing n with
  | nil => rfl
  | cons a l ih => simp [assignIds, ih]

/-- What one call does when no two distinct records are compatible: the
cliques left of the new record go to the collector, the others stay, and the
new record forms a clique of its own. -/
theorem addAlignment_noEdges (cfg : Config) (hB : 0 < cfg.bits_per_block)
    (hfalse : ∀ x y : AlignmentRecord, x.id ≠ y.id → cfg.edge_calculator x y = false)
    (cf : CliqueFinder) (a : AlignmentRecord) (cf' : CliqueFinder) (hwf : WF cfg cf)
    (hadd : addAlignment cfg cf a = some cf') :
    ∃ cl cl', cf.cliques = some cl ∧ cf'.cliques = some cl' ∧
      cf'.next_id = cf.next_id + 1 ∧
      (delivered cf'.trace ++
          cl'.map (fun c => memberRecords cf'.alignments c.alignment_set)).Perm
        ((delivered cf.trace ++
          cl.map (fun c => memberRecords cf.alignments c.alignment_set)) ++
          [[a.setID cf.next_id]]) := by
  obtain ⟨cf'', cf3, index, cl, f, adj, hadd', hwf', hcl, hs3, hok3, hcnt, hidx, hget, hid, hrec,
    hadjsz, hadj, hcl', hal, -, -, hnid, hdel⟩ := addAlignment_step cfg cf a hB hwf
  have hcf : cf' = cf'' := Option.some.inj (hadd.symm.trans hadd')
  subst hcf
  -- no active clique meets the adjacency set
  have hany : ∀ c ∈ cl.map f, (c.intersect adj).any = false := by
    intro c hc
    cases h : (c.intersect adj).any
    · rfl
    · obtain ⟨i, hci, hai⟩ := (alignment_set_t.any_inter_iff _ _).mp h
      obtain ⟨-, r, hr, he⟩ := (hadj i).mp hai
      have hilt := hok3.bits_lt c hc i hci
      have hmono := hs3.ids_mono i index r _ hilt (by omega) hr hget
      have hedge := ((setEdge_iff cfg _ r).mp he).1
      have hne : (a.setID cf.next_id).id ≠ r.id := by omega
      rw [hfalse _ _ hne] at hedge
      exact Bool.noConfusion hedge
  have hstaged : stagedFrom cf3.alignments (a.setID cf.next_id) index adj (cl.map f) = [] := by
    unfold stagedFrom
    rw [List.map_eq_nil_iff, List.filter_eq_nil_iff]
    intro c hc
    simp [hany c hc]
  have hkept : keptCliques (a.setID cf.next_id) adj (cl.map f) =
      (cl.map f).filter (fun c => !isFinal (a.setID cf.next_id) c) := by
    unfold keptCliques
    apply List.filter_congr
    intro c hc
    simp [hany c hc]
  have hsing : memberRecords cf3.alignments
      (Clique.singleton cf3.alignments index cf3.capacity).alignment_set =
      [a.setID cf.next_id] := by
    show memberRecords cf3.alignments ((alignment_set_t.zeros cf3.capacity).set index) = _
    rw [memberRecords_set_new _ _ index _ (by simp) (by simpa using hidx) hget,
      memberRecords_zeros]
    rfl
  have hcl'' : cf'.cliques = some ((cl.map f).filter (fun c => !isFinal (a.setID cf.next_id) c) ++
      [Clique.singleton cf3.alignments index cf3.capacity]) := by
    rw [hcl', hstaged, hkept]
    simp only [stagedCliques, List.length_nil, if_true, sortUnique_singleton,
      subsetPass_singleton]
  refine ⟨cl, _, hcl, hcl'', by rw [hnid, hid], ?_⟩
  rw [hdel, hal, List.map_append, List.map_singleton, hsing]
  have hL : (cl.map f).map (fun c => memberRecords cf3.alignments c.alignment_set) =
      cl.map (fun c => memberRecords cf.alignments c.alignment_set) := by
    rw [List.map_map]
    apply List.map_congr_left
    intro c hc
    exact (hrec c hc).1
  have hperm : ((finalCliques (a.setID cf.next_id) (cl.map f)).map
        (fun c => memberRecords cf3.alignments c.alignment_set) ++
      ((cl.map f).filter (fun c => !isFinal (a.setID cf.next_id) c)).map
        (fun c => memberRecords cf3.alignments c.alignment_set)).Perm
      (cl.map (fun c => memberRecords cf.alignments c.alignment_set)) := by
    rw [← hL, ← List.map_append]
    exact (List.filter_append_perm (isFinal (a.setID cf.next_id)) (cl.map f)).map _
  rw [List.append_assoc, List.append_assoc, ← List.append_assoc
    ((finalCliques (a.setID cf.next_id) (cl.map f)).map _)]
  exact (hperm.append_right _).append_left _

/-- Claim C9.  When the edge calculator is false on every pair of distinct
records, every run of `addAlignment` calls from the constructor followed by
`finish` succeeds and hands to the collector, up to order, exactly one
singleton clique for each inserted record, so `N` cliques for `N` records;
before `finish` every active clique and every clique already handed over has
exactly one member. -/
theorem disjointness (cfg : Config) (inputs : List AlignmentRecord)
    (hB : 0 < cfg.bits_per_block)
    (hfalse : ∀ x y : AlignmentRecord, x.id ≠ y.id → cfg.edge_calculator x y = false) :
    ∃ cf cl cf', addAll cfg (CliqueFinder.init cfg) inputs = some cf ∧ cf.cliques = some cl ∧
      finish cfg cf = some cf' ∧
      (delivered cf'.trace).Perm ((assignIds 0 inputs).map (fun r => [r])) ∧
      (delivered cf'.trace).length = inputs.length ∧
      (∀ c ∈ cl, (memberRecords cf.alignments c.alignment_set).length = 1) ∧
      (∀ m ∈ delivered cf.trace, m.length = 1) := by
  obtain ⟨cf, hrun, hwf, hR⟩ := addAll_invariant_rel cfg hB
    (fun done s => s.next_id = done.length ∧ ∃ cl, s.cliques = some cl ∧
      (delivered s.trace ++ cl.map (fun c => memberRecords s.alignments c.alignment_set)).Perm
        ((assignIds 0 done).map (fun r => [r])))
    (by
      intro done s a s' hwf hR hadd
      obtain ⟨hid, cl, hcl, hperm⟩ := hR
      obtain ⟨cl0, cl', hcl0, hcl', hid', hperm'⟩ :=
        addAlignment_noEdges cfg hB hfalse s a s' hwf hadd
      have : cl0 = cl := by rw [hcl] at hcl0; exact (Option.some.inj hcl0).symm
      subst this
      refine ⟨by rw [hid', hid]; simp, cl', hcl', ?_⟩
      rw [assignIds_append, List.map_append, List.map_singleton, Nat.zero_add, ← hid]
      exact hperm'.trans (hperm.append_right _))
    inputs [] (CliqueFinder.init cfg) (init_wf cfg hB)
    ⟨rfl, [], rfl, by simp [CliqueFinder.init, delivered, assignIds]⟩
  rw [List.nil_append] at hR
  obtain ⟨-, cl, hcl, hperm⟩ := hR
  obtain ⟨cf', hfin, -, -, hdel⟩ := finish_some cfg cf cl hcl
  have hsingle : ∀ m ∈ delivered cf.trace ++
      cl.map (fun c => memberRecords cf.alignments c.alignment_set), m.length = 1 := by
    intro m hm
    obtain ⟨r, -, rfl⟩ := List.mem_map.mp (hperm.subset hm)
    rfl
  refine ⟨cf, cl, cf', hrun, hcl, hfin, by rw [hdel]; exact hperm, ?_, ?_, ?_⟩
  · rw [hdel, hperm.length_eq, List.length_map, length_assignIds]
  · intro c hc
    exact hsingle _ (List.mem_append_right _ (List.mem_map_of_mem _ hc))
  · intro m hm
    exact hsingle m (List.mem_append_left _ hm)

/-- Claim C9 on the run `exampleApart`: two records, two singleton cliques. -/
theorem disjointness_witness :
    ∃ cf cl cf', addAll exampleNoEdges (CliqueFinder.init exampleNoEdges) exampleApart = some cf ∧
      cf.cliques = some cl ∧ finish exampleNoEdges cf = some cf' ∧
      (delivered cf'.trace).Perm ((assignIds 0 exampleApart).map (fun r => [r])) ∧
      (delivered cf'.trace).length = exampleApart.length ∧
      (∀ c ∈ cl, (memberRecords cf.alignments c.alignment_set).length = 1) ∧
      (∀ m ∈ delivered cf.trace, m.length = 1) :=
  disjointness exampleNoEdges exampleApart (by decide) (fun _ _ _ => rfl)

/-! ## Runs in which all records are compatible -/

theorem foldl_max_ge (xs : List Nat) (x y : Nat) (hy : y ∈ x :: xs) : y ≤ xs.foldl max x := by
  induction xs generalizing x y with
  | nil =>
    rw [List.mem_singleton] at hy
    simp [hy]
  | cons z xs ih =>
    rw [List.foldl_cons]
    rcases List.mem_cons.mp hy with rfl | hy
    · exact Nat.le_trans (Nat.le_max_left _ _) (ih (max y z) (max y z) (List.mem_cons_self _ _))
    · rcases List.mem_cons.mp hy with rfl | hy
      · exact Nat.le_trans (Nat.le_max_right _ _) (ih (max x y) (max x y) (List.mem_cons_self _ _))
      · exact ih (max x z) y (List.mem_cons_of_mem _ hy)

/-- The cached rightmost end computed from the members is at least the
interval end of every member. -/
theorem rightmostOf_ge (alignments : Store) (s : alignment_set_t) (r : AlignmentRecord)
    (hr : r ∈ memberRecords alignments s) : r.intervalEnd ≤ rightmostOf alignments s := by
  unfold rightmostOf
  have hmem : r.intervalEnd ∈ (memberRecords alignments s).map AlignmentRecord.intervalEnd :=
    List.mem_map_of_mem _ hr
  cases h : (memberRecords alignments s).map AlignmentRecord.intervalEnd with
  | nil => rw [h] at hmem; simp at hmem
  | cons x xs =>
    rw [h] at hmem
    exact foldl_max_ge xs x _ hmem

theorem mem_assignIds {n : Nat} {l : List AlignmentRecord} {r : AlignmentRecord}
    (h : r ∈ assignIds n l) : ∃ x ∈ l, ∃ k, r = x.setID k := by
  induction l generalizing n with
  | nil => simp [assignIds] at h
  | cons a l ih =>
    simp only [assignIds, List.mem_cons] at h
    rcases h with rfl | h
    · exact ⟨a, List.mem_cons_self _ _, n, rfl⟩
    · obtain ⟨x, hx, k, hk⟩ := ih h
      exact ⟨x, List.mem_cons_of_mem _ hx, k, hk⟩

/-- What one call does to a collection of one clique that holds all records,
when the new record is compatible with all of them and the clique is not left
of it: the clique is extended by the new record and nothing is handed to the
collector. -/
theorem addAlignment_allEdges (cfg : Config) (hB : 0 < cfg.bits_per_block)
    (htrue : ∀ x y : AlignmentRecord, setEdge cfg x y = true)
    (cf : CliqueFinder) (a : AlignmentRecord) (cf' : CliqueFinder) (hwf : WF cfg cf)
    (hadd : addAlignment cfg cf a = some cf')
    (hcl : cf.cliques = some [] ∨ ∃ c, cf.cliques = some [c] ∧
      ¬ c.rightmost_segment_end < a.intervalStart) :
    ∃ c', cf'.cliques = some [c'] ∧ cf'.next_id = cf.next_id + 1 ∧
      delivered cf'.trace = delivered cf.trace ∧
      (∀ r ∈ memberRecords cf'.alignments c'.alignment_set,
        r.intervalEnd ≤ c'.rightmost_segment_end) ∧
      ((cf.cliques = some [] ∧
          memberRecords cf'.alignments c'.alignment_set = [a.setID cf.next_id]) ∨
        ∃ c, cf.cliques = some [c] ∧
          memberRecords cf'.alignments c'.alignment_set =
            memberRecords cf.alignments c.alignment_set ++ [a.setID cf.next_id]) := by
  obtain ⟨cf'', cf3, index, cl, f, adj, hadd', hwf', hcl0, hs3, hok3, hcnt, hidx, hget, hid, hrec,
    hadjsz, hadj, hcl', hal, -, -, hnid, hdel⟩ := addAlignment_step cfg cf a hB hwf
  have hcf : cf' = cf'' := Option.some.inj (hadd.symm.trans hadd')
  subst hcf
  rcases hcl with hnil | ⟨c, hc, hnf⟩
  · -- first record: the singleton clique
    have : cl = [] := by rw [hnil] at hcl0; exact (Option.some.inj hcl0).symm
    subst this
    have hsing : memberRecords cf3.alignments
        (Clique.singleton cf3.alignments index cf3.capacity).alignment_set =
        [a.setID cf.next_id] := by
      show memberRecords cf3.alignments ((alignment_set_t.zeros cf3.capacity).set index) = _
      rw [memberRecords_set_new _ _ index _ (by simp) (by simpa using hidx) hget,
        memberRecords_zeros]
      rfl
    refine ⟨Clique.singleton cf3.alignments index cf3.capacity, ?_, by rw [hnid, hid], ?_, ?_,
      Or.inl ⟨hnil, by rw [hal]; exact hsing⟩⟩
    · rw [hcl']
      simp [keptCliques, stagedFrom, stagedCliques, sortUnique_singleton, subsetPass_singleton]
    · rw [hdel]
      simp [finalCliques]
    · intro r hr
      rw [hal] at hr
      exact rightmostOf_ge _ _ r hr
  · -- a later record: the clique is extended
    have : cl = [c] := by rw [hc] at hcl0; exact (Option.some.inj hcl0).symm
    subst this
    have hc3 : f c ∈ [c].map f := by simp
    have hfin : isFinal (a.setID cf.next_id) (f c) = false := by
      rw [isFinal_setID, (hrec c (List.mem_singleton.mpr rfl)).2.2]
      exact decide_eq_false hnf
    have hsub : ∀ i, (f c).alignment_set.test i = true → adj.test i = true := by
      intro i hi
      have hilt := hok3.bits_lt (f c) hc3 i hi
      obtain ⟨r, hr⟩ := hs3.present i (by omega)
      exact (hadj i).mpr ⟨by omega, r, hr, htrue _ _⟩
    obtain ⟨i0, hi0⟩ := hok3.nonempty (f c) hc3
    have hany : ((f c).intersect adj).any = true :=
      (alignment_set_t.any_inter_iff _ _).mpr ⟨i0, hi0, hsub i0 hi0⟩
    have hcount : ((f c).intersect adj).count = (f c).size :=
      (alignment_set_t.count_inter_eq_iff _ _).mpr hsub
    have hinter : (f c).intersect adj = (f c).alignment_set :=
      alignment_set_t.inter_eq_self _ _ hsub
    have hkept : keptCliques (a.setID cf.next_id) adj ([c].map f) = [] := by
      simp [keptCliques, hfin, hany, hcount]
    have hstaged : stagedFrom cf3.alignments (a.setID cf.next_id) index adj ([c].map f) =
        [Clique.ofSet cf3.alignments ((f c).alignment_set.set index)] := by
      unfold stagedFrom
      rw [show [c].map f = [f c] from rfl]
      simp only [List.filter_cons, List.filter_nil, hfin, hany, Bool.not_false, Bool.and_self,
        if_true, List.map_cons, List.map_nil]
      rw [hinter]
    have hfinal : finalCliques (a.setID cf.next_id) ([c].map f) = [] := by
      simp [finalCliques, hfin]
    have hmem : memberRecords cf3.alignments
        (Clique.ofSet cf3.alignments ((f c).alignment_set.set index)).alignment_set =
        memberRecords cf.alignments c.alignment_set ++ [a.setID cf.next_id] := by
      show memberRecords cf3.alignments ((f c).alignment_set.set index) = _
      rw [memberRecords_set_new _ _ index _ (hok3.bits_lt (f c) hc3)
        (by rw [hok3.size_eq (f c) hc3]; exact hidx) hget,
        (hrec c (List.mem_singleton.mpr rfl)).1]
    refine ⟨Clique.ofSet cf3.alignments ((f c).alignment_set.set index), ?_, by rw [hnid, hid],
      ?_, ?_, Or.inr ⟨c, hc, by rw [hal]; exact hmem⟩⟩
    · rw [hcl', hkept, hstaged]
      simp [stagedCliques, sortUnique_singleton, subsetPass_singleton]
    · rw [hdel, hfinal]
      simp
    · intro r hr
      rw [hal] at hr
      exact rightmostOf_ge _ _ r hr

/-- Claim C8.  When the edge calculators are true on every pair and every
earlier input ends at or after the start of every later input, a run of
`N >= 1` `addAlignment` calls from the constructor, however many compactions
it takes, succeeds and leaves an active collection of exactly one clique whose
members are the `N` records, in insertion order, with nothing handed to the
collector. -/
theorem clique_completeness (cfg : Config) (inputs : List AlignmentRecord)
    (hB : 0 < cfg.bits_per_block)
    (htrue : ∀ x y : AlignmentRecord, cfg.edge_calculator x y = true)
    (htrue2 : ∀ second, cfg.second_edge_calculator = some second →
      ∀ x y : AlignmentRecord, second x y = true)
    (hne : inputs ≠ [])
    (hov : inputs.Pairwise (fun x y => y.intervalStart ≤ x.intervalEnd)) :
    ∃ cf c, addAll cfg (CliqueFinder.init cfg) inputs = some cf ∧ cf.cliques = some [c] ∧
      memberRecords cf.alignments c.alignment_set = assignIds 0 inputs ∧
      (memberRecords cf.alignments c.alignment_set).length = inputs.length ∧
      delivered cf.trace = [] := by
  have hedge : ∀ x y : AlignmentRecord, setEdge cfg x y = true :=
    fun x y => (setEdge_iff cfg x y).mpr ⟨htrue x y, fun s hs => htrue2 s hs x y⟩
  obtain ⟨cf, hrun, hwf, hR⟩ := addAll_invariant_rel cfg hB
    (fun done s => done.Pairwise (fun x y => y.intervalStart ≤ x.intervalEnd) →
      s.next_id = done.length ∧ delivered s.trace = [] ∧
      ((done = [] ∧ s.cliques = some []) ∨
        ∃ c, s.cliques = some [c] ∧ done ≠ [] ∧
          memberRecords s.alignments c.alignment_set = assignIds 0 done ∧
          ∀ r ∈ memberRecords s.alignments c.alignment_set,
            r.intervalEnd ≤ c.rightmost_segment_end))
    (by
      intro done s a s' hwf hR hadd hpw
      rw [List.pairwise_append] at hpw
      obtain ⟨hpw1, -, hpw3⟩ := hpw
      obtain ⟨hid, hdel, hcases⟩ := hR hpw1
      have hcond : s.cliques = some [] ∨ ∃ c, s.cliques = some [c] ∧
          ¬ c.rightmost_segment_end < a.intervalStart := by
        rcases hcases with ⟨-, h⟩ | ⟨c, hc, hdne, hmem, hright⟩
        · exact Or.inl h
        · right
          refine ⟨c, hc, ?_⟩
          obtain ⟨x, t, hxt⟩ := List.exists_cons_of_ne_nil hdne
          have hr : x.setID 0 ∈ memberRecords s.alignments c.alignment_set := by
            rw [hmem, hxt]
            exact List.mem_cons_self _ _
          have h1 := hright _ hr
          have h2 := hpw3 x (by rw [hxt]; exact List.mem_cons_self _ _) a
            (List.mem_singleton.mpr rfl)
          have h3 : (x.setID 0).intervalEnd = x.intervalEnd := rfl
          omega
      obtain ⟨c', hc', hid', hdel', hright', hmem'⟩ :=
        addAlignment_allEdges cfg hB hedge s a s' hwf hadd hcond
      refine ⟨by rw [hid', hid]; simp, by rw [hdel', hdel], Or.inr ⟨c', hc', by simp, ?_,
        hright'⟩⟩
      rw [assignIds_append, Nat.zero_add, ← hid]
      rcases hmem' with ⟨hnil, hm⟩ | ⟨c, hc, hm⟩
      · rcases hcases with ⟨hd, -⟩ | ⟨c, hc, -⟩
        · rw [hm, hd]
          rfl
        · rw [hnil] at hc
          have := Option.some.inj hc
          simp at this
      · rcases hcases with ⟨-, hnil⟩ | ⟨c0, hc0, -, hmem0, -⟩
        · rw [hnil] at hc
          have := Option.some.inj hc
          simp at this
        · rw [hc0] at hc
          have hcc : c0 = c := by
            have := Option.some.inj hc
            simpa using this
          rw [hm, ← hcc, hmem0])
    inputs [] (CliqueFinder.init cfg) (init_wf cfg hB)
    (fun _ => ⟨rfl, rfl, Or.inl ⟨rfl, rfl⟩⟩)
  rw [List.nil_append] at hR
  obtain ⟨-, hdel, hcases⟩ := hR hov
  rcases hcases with ⟨hnil, -⟩ | ⟨c, hc, -, hmem, -⟩
  · exact absurd hnil hne
  · exact ⟨cf, c, hrun, hc, hmem, by rw [hmem, length_assignIds], hdel⟩

/-- Claim C8 on the run `exampleABC` with all records compatible and block
width 2, so that the third insertion compacts the array. -/
theorem clique_completeness_witness :
    ∃ cf c, addAll exampleAllEdges (CliqueFinder.init exampleAllEdges) exampleABC = some cf ∧
      cf.cliques = some [c] ∧
      memberRecords cf.alignments c.alignment_set = assignIds 0 exampleABC ∧
      (memberRecords cf.alignments c.alignment_set).length = exampleABC.length ∧
      delivered cf.trace = [] :=
  clique_completeness exampleAllEdges exampleABC (by decide) (fun _ _ => rfl)
    (fun _ h => Option.noConfusion h) (by decide) (by decide)

/-! ## Enumeration of the maximal cliques -/

/-- The member records of the clique staged from clique `c`. -/
theorem members_candidate {cfg : Config} {cf3 : CliqueFinder} {v : AlignmentRecord}
    {index : Nat} {adj : alignment_set_t} {cl : List Clique}
    (hok : CliquesOK cf3.capacity index cl)
    (hcnt : cf3.alignment_count = index + 1) (hidx : index < cf3.capacity)
    (hget : cf3.alignments.getD index none = some v)
    (hadj : ∀ i, adj.test i = true ↔ i < cf3.alignment_count ∧
      ∃ r, cf3.alignments.getD i none = some r ∧ setEdge cfg v r = true)
    {c : Clique} (hc : c ∈ cl) (r : AlignmentRecord) :
    r ∈ memberRecords cf3.alignments ((c.intersect adj).set index) ↔
      r = v ∨ (r ∈ memberRecords cf3.alignments c.alignment_set ∧ setEdge cfg v r = true) := by
  have hsz : (c.intersect adj).size = cf3.capacity := by
    rw [Clique.intersect, alignment_set_t.size_inter]; exact hok.size_eq c hc
  have ht : ∀ j, ((c.intersect adj).set index).test j = true ↔
      j = index ∨ (c.alignment_set.test j = true ∧ adj.test j = true) := by
    intro j
    rw [alignment_set_t.test_set_of_lt _ _ _ (by rw [hsz]; exact hidx), Clique.intersect,
      alignment_set_t.test_inter]
    simp
  constructor
  · intro hr
    obtain ⟨i, hi, hri⟩ := mem_memberRecords.mp hr
    rcases (ht i).mp hi with hii | ⟨hci, hai⟩
    · subst hii
      rw [hget] at hri
      exact Or.inl (Option.some.inj hri).symm
    · right
      obtain ⟨-, r', hr', he⟩ := (hadj i).mp hai
      rw [hri] at hr'
      rw [← Option.some.inj hr'] at he
      exact ⟨mem_memberRecords.mpr ⟨i, hci, hri⟩, he⟩
  · rintro (rfl | ⟨hr, he⟩)
    · exact mem_memberRecords.mpr ⟨index, (ht index).mpr (Or.inl rfl), hget⟩
    · obtain ⟨i, hi, hri⟩ := mem_memberRecords.mp hr
      have hilt := hok.bits_lt c hc i hi
      refine mem_memberRecords.mpr ⟨i, (ht i).mpr (Or.inr ⟨hi, ?_⟩), hri⟩
      exact (hadj i).mpr ⟨by omega, r, hri, he⟩

/-- Every staged clique is contained, as a set of member records, in a clique
that the subset pass keeps. -/
theorem staged_covered (alignments : Store) (no_sort : Bool) (l : List Clique) (n : Clique)
    (hn : n ∈ l) :
    ∃ z ∈ subsetPass (sortUnique no_sort l),
      ∀ r, r ∈ memberRecords alignments n.alignment_set →
        r ∈ memberRecords alignments z.alignment_set := by
  obtain ⟨y, hy, hyn⟩ := sortUnique_cover no_sort l n hn
  obtain ⟨z, hz, hzy⟩ := subsetPass_cover _ y hy
  refine ⟨z, hz, ?_⟩
  intro r hr
  rw [← hyn] at hr
  obtain ⟨i, hi, hri⟩ := mem_memberRecords.mp hr
  exact mem_memberRecords.mpr ⟨i, (contains_iff z y).mp hzy i hi, hri⟩

theorem isCliqueOf_of_subset {cfg : Config} {K K' : List AlignmentRecord}
    (h : IsCliqueOf cfg K) (hsub : K' ⊆ K) : IsCliqueOf cfg K' :=
  fun x hx y hy hlt => h x (hsub hx) y (hsub hy) hlt

theorem staged_eq_ofSet {alignments : Store} {v : AlignmentRecord} {index capacity : Nat}
    {adj : alignment_set_t} {cl : List Clique} {n : Clique}
    (hn : n ∈ stagedCliques alignments index capacity (stagedFrom alignments v index adj cl)) :
    n = Clique.ofSet alignments n.alignment_set := by
  unfold stagedCliques at hn
  split at hn
  · rw [List.mem_singleton.mp hn]
    rfl
  · obtain ⟨c, -, rfl⟩ := List.mem_map.mp hn
    rfl

theorem mem_stagedCliques_of_mem {alignments : Store} {index capacity : Nat}
    {l : List Clique} {n : Clique} (hn : n ∈ l) :
    n ∈ stagedCliques alignments index capacity l := by
  unfold stagedCliques
  split
  · rename_i h
    rw [List.length_eq_zero.mp h] at hn
    simp at hn
  · exact hn

/-- While no clique lies left of the new record, a call of `addAlignment`
keeps the invariant of the enumeration, for the records inserted so far plus
the new one. -/
theorem addAlignment_enumInv (cfg : Config) (hB : 0 < cfg.bits_per_block)
    (V : List AlignmentRecord) (cf : CliqueFinder) (a : AlignmentRecord) (cf' : CliqueFinder)
    (hwf : WF cfg cf) (hP : EnumInv cfg V cf) (hadd : addAlignment cfg cf a = some cf')
    (hov : ∀ r ∈ V, a.intervalStart ≤ r.intervalEnd) :
    EnumInv cfg (V ++ [a.setID cf.next_id]) cf' := by
  have hanti := addAlignment_antichain cfg hB cf a cf' hwf hP.incomparable hadd
  have hcompat := (addAlignment_isCliqueOf cfg hB cf a cf' hwf
    ⟨hP.compatible, by rw [hP.nothing_sunk]; simp⟩ hadd).1
  obtain ⟨cf'', cf3, index, cl, f, adj, hadd', hwf', hcl, hs3, hok3, hcnt, hidx, hget, hid, hrec,
    hadjsz, hadj, hcl', hal, -, -, hnid, hdel⟩ := addAlignment_step cfg cf a hB hwf
  have hcf : cf' = cf'' := Option.some.inj (hadd.symm.trans hadd')
  subst hcf
  obtain ⟨cl0, hcl0, hok, -⟩ := hwf.cliques
  have : cl0 = cl := by rw [hcl] at hcl0; exact (Option.some.inj hcl0).symm
  subst this
  have hvid : (a.setID cf.next_id).id = cf.next_id := rfl
  -- no clique lies left of the new record
  have hnf : ∀ c ∈ cl0.map f, isFinal (a.setID cf.next_id) c = false := by
    intro c hc
    obtain ⟨c0, hc0, rfl⟩ := List.mem_map.mp hc
    obtain ⟨i, hi⟩ := hok.nonempty c0 hc0
    obtain ⟨r, hr⟩ := hwf.store.present i (hok.bits_lt c0 hc0 i hi)
    have hmem : r ∈ memberRecords cf.alignments c0.alignment_set :=
      mem_memberRecords.mpr ⟨i, hi, hr⟩
    have h1 := hP.ends cl0 hcl c0 hc0 r hmem
    have h2 := hov r (hP.members_sub cl0 hcl c0 hc0 hmem)
    rw [isFinal_setID, (hrec c0 hc0).2.2]
    exact decide_eq_false (by omega)
  have hfinal : finalCliques (a.setID cf.next_id) (cl0.map f) = [] := by
    unfold finalCliques
    rw [List.filter_eq_nil_iff]
    intro c hc
    rw [hnf c hc]
    exact Bool.false_ne_true
  -- the cliques after the call
  have hactive : ∀ c' ∈ keptCliques (a.setID cf.next_id) adj (cl0.map f) ++
      subsetPass (sortUnique cfg.no_sort (stagedCliques cf3.alignments index cf3.capacity
        (stagedFrom cf3.alignments (a.setID cf.next_id) index adj (cl0.map f)))),
      (∃ c0 ∈ cl0, c' = f c0) ∨
      c' ∈ stagedCliques cf3.alignments index cf3.capacity
        (stagedFrom cf3.alignments (a.setID cf.next_id) index adj (cl0.map f)) := by
    intro c' hc'
    rcases List.mem_append.mp hc' with hk | hn
    · left
      obtain ⟨c0, hc0, rfl⟩ := List.mem_map.mp (List.mem_filter.mp hk).1
      exact ⟨c0, hc0, rfl⟩
    · right
      exact sortUnique_sub _ _ c' (subsetPass_sub _ c' hn)
  -- a candidate that covers given records
  have hcand : ∀ c ∈ cl0.map f, ((c.intersect adj).any = true) →
      ∀ K : List AlignmentRecord,
        (∀ r ∈ K, r = a.setID cf.next_id ∨
          (r ∈ memberRecords cf3.alignments c.alignment_set ∧
            setEdge cfg (a.setID cf.next_id) r = true)) →
        ∃ z ∈ subsetPass (sortUnique cfg.no_sort (stagedCliques cf3.alignments index cf3.capacity
            (stagedFrom cf3.alignments (a.setID cf.next_id) index adj (cl0.map f)))),
          K ⊆ memberRecords cf3.alignments z.alignment_set := by
    intro c hc hany K hK
    have hn : Clique.ofSet cf3.alignments ((c.intersect adj).set index) ∈
        stagedFrom cf3.alignments (a.setID cf.next_id) index adj (cl0.map f) := by
      unfold stagedFrom
      refine List.mem_map.mpr ⟨c, List.mem_filter.mpr ⟨hc, ?_⟩, rfl⟩
      rw [hnf c hc, hany]
      rfl
    obtain ⟨z, hz, hzn⟩ := staged_covered cf3.alignments cfg.no_sort _ _
      (@mem_stagedCliques_of_mem cf3.alignments index cf3.capacity _ _ hn)
    refine ⟨z, hz, ?_⟩
    intro r hr
    apply hzn r
    show r ∈ memberRecords cf3.alignments ((c.intersect adj).set index)
    exact (members_candidate hok3 hcnt hidx hget hadj hc r).mpr (hK r hr)
  refine ⟨?_, ?_, ?_, hcompat, ?_, hanti, ?_⟩
  · -- identifiers
    intro r hr
    rw [hnid, hid]
    rcases List.mem_append.mp hr with hr | hr
    · exact Nat.lt_succ_of_lt (hP.ids_lt r hr)
    · rw [List.mem_singleton.mp hr, hvid]
      exact Nat.lt_succ_self _
  · -- nothing handed over
    rw [hdel, hfinal, hP.nothing_sunk]
    rfl
  · -- members are inserted records
    intro cl'' hcl'' c' hc' r hr
    rw [hcl'] at hcl''
    rw [← Option.some.inj hcl''] at hc'
    rw [hal] at hr
    rcases hactive c' hc' with ⟨c0, hc0, rfl⟩ | hst
    · rw [(hrec c0 hc0).1] at hr
      exact List.mem_append_left _ (hP.members_sub cl0 hcl c0 hc0 hr)
    · obtain ⟨-, hmem⟩ := staged_members hok3 hcnt hidx hget hadj hst
      rcases hmem with hall | ⟨c, hc, -, hiff⟩
      · rw [hall r hr]
        exact List.mem_append_right _ (List.mem_singleton.mpr rfl)
      · rcases (hiff r).mp hr with hrv | ⟨hrc, -⟩
        · rw [hrv]
          exact List.mem_append_right _ (List.mem_singleton.mpr rfl)
        · obtain ⟨c0, hc0, rfl⟩ := List.mem_map.mp hc
          rw [(hrec c0 hc0).1] at hrc
          exact List.mem_append_left _ (hP.members_sub cl0 hcl c0 hc0 hrc)
  · -- every clique of records is covered
    intro cl'' hcl'' K hKV hKne hKc
    rw [hcl'] at hcl''
    rw [← Option.some.inj hcl'', hal]
    by_cases hv : a.setID cf.next_id ∈ K
    · -- the new record is in `K`
      have hK0V : K.filter (fun r => decide (r ≠ a.setID cf.next_id)) ⊆ V := by
        intro r hr
        obtain ⟨hrK, hne⟩ := List.mem_filter.mp hr
        rcases List.mem_append.mp (hKV hrK) with h | h
        · exact h
        · rw [List.mem_singleton.mp h] at hne
          simp at hne
      by_cases hK0 : K.filter (fun r => decide (r ≠ a.setID cf.next_id)) = []
      · -- `K` is the new record alone
        have hne_st := subsetPass_ne_nil _ (sortUnique_ne_nil cfg.no_sort _
          (stagedCliques_ne_nil cf3.alignments index cf3.capacity
            (stagedFrom cf3.alignments (a.setID cf.next_id) index adj (cl0.map f))))
        obtain ⟨z, t, hzt⟩ := List.exists_cons_of_ne_nil hne_st
        have hz : z ∈ subsetPass (sortUnique cfg.no_sort
            (stagedCliques cf3.alignments index cf3.capacity
              (stagedFrom cf3.alignments (a.setID cf.next_id) index adj (cl0.map f)))) := by
          rw [hzt]; exact List.mem_cons_self _ _
        refine ⟨z, List.mem_append_right _ hz, ?_⟩
        intro r hr
        have hrv : r = a.setID cf.next_id := by
          by_contra hne
          have : r ∈ K.filter (fun r => decide (r ≠ a.setID cf.next_id)) :=
            List.mem_filter.mpr ⟨hr, by simpa using hne⟩
          rw [hK0] at this
          simp at this
        rw [hrv]
        exact (staged_members hok3 hcnt hidx hget hadj
          (sortUnique_sub _ _ z (subsetPass_sub _ z hz))).1
      · -- the other records of `K` lie in an active clique
        obtain ⟨c0, hc0, hsub⟩ := hP.cover cl0 hcl _ hK0V hK0
          (isCliqueOf_of_subset hKc (List.filter_sublist K).subset)
        have hc3 : f c0 ∈ cl0.map f := List.mem_map_of_mem f hc0
        have hedge : ∀ r ∈ K.filter (fun r => decide (r ≠ a.setID cf.next_id)),
            setEdge cfg (a.setID cf.next_id) r = true := by
          intro r hr
          have hrK := (List.mem_filter.mp hr).1
          have hlt : r.id < (a.setID cf.next_id).id := by
            rw [hvid]; exact hP.ids_lt r (hK0V hr)
          exact (setEdge_iff cfg _ r).mpr (hKc _ hv r hrK hlt)
        have hany : ((f c0).intersect adj).any = true := by
          obtain ⟨r0, t, hr0t⟩ := List.exists_cons_of_ne_nil hK0
          have hr0 : r0 ∈ K.filter (fun r => decide (r ≠ a.setID cf.next_id)) := by
            rw [hr0t]; exact List.mem_cons_self _ _
          have hr0c := hsub hr0
          rw [← (hrec c0 hc0).1] at hr0c
          obtain ⟨i, hi, hri⟩ := mem_memberRecords.mp hr0c
          have hilt := hok3.bits_lt (f c0) hc3 i hi
          exact (alignment_set_t.any_inter_iff _ _).mpr
            ⟨i, hi, (hadj i).mpr ⟨by omega, r0, hri, hedge r0 hr0⟩⟩
        obtain ⟨z, hz, hKz⟩ := hcand (f c0) hc3 hany K (by
          intro r hr
          by_cases hrv : r = a.setID cf.next_id
          · exact Or.inl hrv
          · right
            have hr0 : r ∈ K.filter (fun r => decide (r ≠ a.setID cf.next_id)) :=
              List.mem_filter.mpr ⟨hr, by simpa using hrv⟩
            refine ⟨?_, hedge r hr0⟩
            rw [(hrec c0 hc0).1]
            exact hsub hr0)
        exact ⟨z, List.mem_append_right _ hz, hKz⟩
    · -- the new record is not in `K`
      have hKV' : K ⊆ V := by
        intro r hr
        rcases List.mem_append.mp (hKV hr) with h | h
        · exact h
        · rw [List.mem_singleton.mp h] at hr
          exact absurd hr hv
      obtain ⟨c0, hc0, hsub⟩ := hP.cover cl0 hcl K hKV' hKne hKc
      have hc3 : f c0 ∈ cl0.map f := List.mem_map_of_mem f hc0
      have hsub3 : K ⊆ memberRecords cf3.alignments (f c0).alignment_set := by
        rw [(hrec c0 hc0).1]; exact hsub
      by_cases hext : ((f c0).intersect adj).any = true ∧
          ((f c0).intersect adj).count = (f c0).size
      · -- the clique is extended
        have hsubadj := (alignment_set_t.count_inter_eq_iff _ _).mp hext.2
        obtain ⟨z, hz, hKz⟩ := hcand (f c0) hc3 hext.1 K (by
          intro r hr
          right
          refine ⟨hsub3 hr, ?_⟩
          obtain ⟨i, hi, hri⟩ := mem_memberRecords.mp (hsub3 hr)
          obtain ⟨-, r', hr', he⟩ := (hadj i).mp (hsubadj i hi)
          rw [hri] at hr'
          rw [← Option.some.inj hr'] at he
          exact he)
        exact ⟨z, List.mem_append_right _ hz, hKz⟩
      · -- the clique stays
        refine ⟨f c0, List.mem_append_left _ ?_, hsub3⟩
        unfold keptCliques
        refine List.mem_filter.mpr ⟨hc3, ?_⟩
        rw [hnf (f c0) hc3]
        simp only [Bool.not_false, Bool.true_and, Bool.not_eq_true', Bool.and_eq_false_iff,
          decide_eq_false_iff_not]
        by_cases hany : ((f c0).intersect adj).any = true
        · exact Or.inr (fun hcount => hext ⟨hany, hcount⟩)
        · exact Or.inl (by simpa using hany)
  · -- cached ends
    intro cl'' hcl'' c' hc' r hr
    rw [hcl'] at hcl''
    rw [← Option.some.inj hcl''] at hc'
    rw [hal] at hr
    rcases hactive c' hc' with ⟨c0, hc0, rfl⟩ | hst
    · rw [(hrec c0 hc0).1] at hr
      rw [(hrec c0 hc0).2.2]
      exact hP.ends cl0 hcl c0 hc0 r hr
    · rw [staged_eq_ofSet hst]
      exact rightmostOf_ge _ _ r hr

theorem init_enumInv (cfg : Config) : EnumInv cfg [] (CliqueFinder.init cfg) := by
  have hcl : ∀ cl, (CliqueFinder.init cfg).cliques = some cl → cl = [] :=
    fun cl h => (Option.some.inj h).symm
  refine ⟨?_, rfl, ?_, ?_, ?_, ?_, ?_⟩
  · intro r hr; simp at hr
  · intro cl h c hc; rw [hcl cl h] at hc; simp at hc
  · intro cl h c hc; rw [hcl cl h] at hc; simp at hc
  · intro cl _ K hK hne
    exact absurd (List.eq_nil_of_subset_nil hK) hne
  · intro cl h; rw [hcl cl h]; exact List.Pairwise.nil
  · intro cl h c hc; rw [hcl cl h] at hc; simp at hc

/-- Claim C1.  For every non-empty input list in which every earlier interval
ends at or after the start of every later one (so that no clique is ever
finalized), and with pure edge calculators, the run of `addAlignment` calls
from the constructor succeeds, hands nothing to the collector, and the member
sets of the active cliques are exactly the maximal cliques of the graph on
the inserted records whose edges are the pairs on which the edge calculator
(and the second one, when configured) is true for the later record tested
against the earlier one. -/
theorem maximal_clique_enumeration (cfg : Config) (inputs : List AlignmentRecord)
    (hB : 0 < cfg.bits_per_block) (hne : inputs ≠ [])
    (hov : inputs.Pairwise (fun x y => y.intervalStart ≤ x.intervalEnd)) :
    ∃ cf cl, addAll cfg (CliqueFinder.init cfg) inputs = some cf ∧ cf.cliques = some cl ∧
      delivered cf.trace = [] ∧
      (∀ c ∈ cl, IsMaximalClique cfg (assignIds 0 inputs)
        (memberRecords cf.alignments c.alignment_set)) ∧
      (∀ K, IsMaximalClique cfg (assignIds 0 inputs) K →
        ∃ c ∈ cl, ∀ r, r ∈ memberRecords cf.alignments c.alignment_set ↔ r ∈ K) := by
  obtain ⟨cf, hrun, hwf, hR⟩ := addAll_invariant_rel cfg hB
    (fun done s => done.Pairwise (fun x y => y.intervalStart ≤ x.intervalEnd) →
      s.next_id = done.length ∧ EnumInv cfg (assignIds 0 done) s)
    (by
      intro done s a s' hwf hR hadd hpw
      rw [List.pairwise_append] at hpw
      obtain ⟨hpw1, -, hpw3⟩ := hpw
      obtain ⟨hid, hinv⟩ := hR hpw1
      have hov' : ∀ r ∈ assignIds 0 done, a.intervalStart ≤ r.intervalEnd := by
        intro r hr
        obtain ⟨x, hx, k, rfl⟩ := mem_assignIds hr
        exact hpw3 x hx a (List.mem_singleton.mpr rfl)
      have hnew := addAlignment_enumInv cfg hB _ s a s' hwf hinv hadd hov'
      obtain ⟨s'', cf3, -, -, -, -, hadd', -, -, -, -, -, -, -, hid3, -, -, -, -, -, -, -, hnid, -⟩ :=
        addAlignment_step cfg s a hB hwf
      have hs : s' = s'' := Option.some.inj (hadd.symm.trans hadd')
      subst hs
      refine ⟨by rw [hnid, hid3, hid]; simp, ?_⟩
      rw [assignIds_append, Nat.zero_add, ← hid]
      exact hnew)
    inputs [] (CliqueFinder.init cfg) (init_wf cfg hB)
    (fun _ => ⟨rfl, init_enumInv cfg⟩)
  rw [List.nil_append] at hR
  obtain ⟨-, hP⟩ := hR hov
  obtain ⟨cl, hcl, hok, -⟩ := hwf.cliques
  have hmemne : ∀ c ∈ cl, memberRecords cf.alignments c.alignment_set ≠ [] := by
    intro c hc
    obtain ⟨i, hi⟩ := hok.nonempty c hc
    obtain ⟨r, hr⟩ := hwf.store.present i (hok.bits_lt c hc i hi)
    exact List.ne_nil_of_mem (mem_memberRecords.mpr ⟨i, hi, hr⟩)
  refine ⟨cf, cl, hrun, hcl, hP.nothing_sunk, ?_, ?_⟩
  · intro c hc
    refine ⟨hP.members_sub cl hcl c hc, hP.compatible cl hcl c hc, ?_⟩
    intro K' hK'V hK'c hsub
    have hK'ne : K' ≠ [] := by
      intro h
      rw [h] at hsub
      exact hmemne c hc (List.eq_nil_of_subset_nil hsub)
    obtain ⟨c', hc', hK'sub⟩ := hP.cover cl hcl K' hK'V hK'ne hK'c
    have hcc : c = c' := by
      by_contra hne'
      have hinc := (hP.incomparable cl hcl).forall (fun _ _ h => incomparable_symm h) hc hc' hne'
      have hcon : c'.contains c = true :=
        (contains_iff_records hwf.store (hok.bits_lt c hc) (hok.bits_lt c' hc')).mpr
          (fun r hr => hK'sub (hsub hr))
      rw [hinc.1] at hcon
      exact Bool.noConfusion hcon
    rw [hcc]
    exact hK'sub
  · rintro K ⟨hKV, hKc, hKmax⟩
    have hKne : K ≠ [] := by
      intro h
      obtain ⟨x, t, hxt⟩ := List.exists_cons_of_ne_nil hne
      have hr0 : x.setID 0 ∈ assignIds 0 inputs := by
        rw [hxt]; exact List.mem_cons_self _ _
      have hsingle : IsCliqueOf cfg [x.setID 0] := by
        intro a ha b hb hlt
        rw [List.mem_singleton.mp ha, List.mem_singleton.mp hb] at hlt
        exact absurd hlt (Nat.lt_irrefl _)
      have := hKmax [x.setID 0] (by intro r hr; rw [List.mem_singleton.mp hr]; exact hr0)
        hsingle (by rw [h]; exact List.nil_subset _)
      rw [h] at this
      exact absurd (List.eq_nil_of_subset_nil this) (List.cons_ne_nil _ _)
    obtain ⟨c, hc, hsub⟩ := hP.cover cl hcl K hKV hKne hKc
    refine ⟨c, hc, fun r => ⟨fun hr => ?_, fun hr => hsub hr⟩⟩
    exact hKmax _ (hP.members_sub cl hcl c hc) (hP.compatible cl hcl c hc) hsub hr

/-- Claim C1 on the run `exampleABC` with the edges A-B and B-C and no edge
A-C: the active cliques are the maximal cliques, namely {A, B} and {B, C}
(identifiers 0, 1 and 1, 2). -/
theorem maximal_clique_enumeration_witness :
    (∃ cf cl, addAll examplePath (CliqueFinder.init examplePath) exampleABC = some cf ∧
      cf.cliques = some cl ∧ delivered cf.trace = [] ∧
      (∀ c ∈ cl, IsMaximalClique examplePath (assignIds 0 exampleABC)
        (memberRecords cf.alignments c.alignment_set)) ∧
      (∀ K, IsMaximalClique examplePath (assignIds 0 exampleABC) K →
        ∃ c ∈ cl, ∀ r, r ∈ memberRecords cf.alignments c.alignment_set ↔ r ∈ K)) ∧
    (addAll examplePath (CliqueFinder.init examplePath) exampleABC).map
        (fun cf => cf.cliques.map (fun cl =>
          cl.map (fun c => idsOf (memberRecords cf.alignments c.alignment_set)))) =
      some (some [[0, 1], [1, 2]]) :=
  ⟨maximal_clique_enumeration examplePath exampleABC (by decide) (by decide) (by decide),
    by decide⟩

/-! ## Operating on a drained engine -/

theorem finish_fields (cfg : Config) (cf cf' : CliqueFinder) (h : finish cfg cf = some cf') :
    ∃ cl, cf.cliques = some cl ∧ cf'.cliques = none ∧ cf'.capacity = cf.capacity ∧
      cf'.alignments = cf.alignments ∧ cf'.next_id = cf.next_id ∧
      cf'.alignment_count = cf.alignment_count ∧
      cf'.alignments_by_length = cf.alignments_by_length ∧
      cf'.trace = cf.trace ++ (if cfg.edge_writer then [Event.writerFinish] else []) ++
        cl.map (deliver cf.alignments) := by
  unfold finish at h
  split at h
  · exact Option.noConfusion h
  · rename_i cl hcl
    have := Option.some.inj h
    subst this
    exact ⟨cl, hcl, rfl, rfl, rfl, rfl, rfl, rfl, rfl⟩

theorem addAlignment_drained (cfg : Config) (cf : CliqueFinder) (a : AlignmentRecord)
    (h : cf.cliques = none) : storeAlignment cfg cf a = none ∧ addAlignment cfg cf a = none := by
  have h1 : storeAlignment cfg cf a = none := by
    unfold storeAlignment
    rw [h]
  exact ⟨h1, by unfold addAlignment; rw [h1]⟩

/-- Claim C14.  After `finish`, in any state reached from the constructor,
`addAlignment` fails at its assertion: already the first half of the call
(identifier, coverage call, storing the record) returns nothing, so no
identifier is assigned, no record stored and no clique handed to the
collector.  `getAlignmentByIndex(i)` returns the record at slot `i` when
`i < alignment_count` and fails otherwise, before and after `finish`. -/
theorem drained_engine_fatal (cfg : Config) (inputs : List AlignmentRecord)
    (cf cf' : CliqueFinder) (a : AlignmentRecord) (hB : 0 < cfg.bits_per_block)
    (hreach : addAll cfg (CliqueFinder.init cfg) inputs = some cf)
    (hfin : finish cfg cf = some cf') :
    storeAlignment cfg cf' a = none ∧ addAlignment cfg cf' a = none ∧
    (∀ i, i < cf'.alignment_count →
      ∃ r, cf'.alignments.getD i none = some r ∧ getAlignmentByIndex cf' i = some r) ∧
    (∀ i, cf'.alignment_count ≤ i → getAlignmentByIndex cf' i = none) ∧
    (∀ i, i < cf.alignment_count →
      ∃ r, cf.alignments.getD i none = some r ∧ getAlignmentByIndex cf i = some r) ∧
    (∀ i, cf.alignment_count ≤ i → getAlignmentByIndex cf i = none) := by
  have hwf := reachable_wf cfg hB inputs cf hreach
  obtain ⟨cl, hcl, hnone, -, hal, -, hcnt, -, -⟩ := finish_fields cfg cf cf' hfin
  obtain ⟨h1, h2⟩ := addAlignment_drained cfg cf' a hnone
  refine ⟨h1, h2, ?_, ?_, ?_, ?_⟩
  · intro i hi
    obtain ⟨r, hr⟩ := hwf.store.present i (by rw [← hcnt]; exact hi)
    refine ⟨r, by rw [hal]; exact hr, ?_⟩
    unfold getAlignmentByIndex
    rw [if_pos hi, hal]
    exact hr
  · intro i hi
    unfold getAlignmentByIndex
    rw [if_neg (Nat.not_lt.mpr hi)]
  · intro i hi
    obtain ⟨r, hr⟩ := hwf.store.present i hi
    refine ⟨r, hr, ?_⟩
    unfold getAlignmentByIndex
    rw [if_pos hi]
    exact hr
  · intro i hi
    unfold getAlignmentByIndex
    rw [if_neg (Nat.not_lt.mpr hi)]

/-- Claim C14 on the run `exampleApart` followed by `finish`. -/
theorem drained_engine_fatal_witness :
    storeAlignment exampleNoEdges exampleDrained ⟨2, 40, 50, 0⟩ = none ∧
    addAlignment exampleNoEdges exampleDrained ⟨2, 40, 50, 0⟩ = none ∧
    (∀ i, i < exampleDrained.alignment_count →
      ∃ r, exampleDrained.alignments.getD i none = some r ∧
        getAlignmentByIndex exampleDrained i = some r) ∧
    (∀ i, exampleDrained.alignment_count ≤ i → getAlignmentByIndex exampleDrained i = none) ∧
    (∀ i, i < exampleFull.alignment_count →
      ∃ r, exampleFull.alignments.getD i none = some r ∧
        getAlignmentByIndex exampleFull i = some r) ∧
    (∀ i, exampleFull.alignment_count ≤ i → getAlignmentByIndex exampleFull i = none) :=
  drained_engine_fatal exampleNoEdges exampleApart exampleFull exampleDrained ⟨2, 40, 50, 0⟩
    (by decide) (by decide) (by decide)

/-! ## Capacity -/

/-- Claim C15.  After the constructor and after every run of `addAlignment`
calls, the capacity is a positive multiple of the block width and
`alignment_count <= capacity`; the next call stores its record at a slot
`index` strictly below the capacity it then has, compaction or not; and
whenever the array is full, so that the next call compacts, the active
collection is not empty and none of its cliques is empty. -/
theorem capacity_invariant (cfg : Config) (inputs : List AlignmentRecord) (a : AlignmentRecord)
    (hB : 0 < cfg.bits_per_block) :
    ∃ cf, addAll cfg (CliqueFinder.init cfg) inputs = some cf ∧
      0 < cf.capacity ∧ cfg.bits_per_block ∣ cf.capacity ∧
      cf.alignment_count ≤ cf.capacity ∧
      (∃ cf3 index, storeAlignment cfg cf a = some (cf3, a.setID cf.next_id, index) ∧
        index < cf3.capacity ∧ cf3.alignment_count = index + 1 ∧
        0 < cf3.capacity ∧ cfg.bits_per_block ∣ cf3.capacity) ∧
      (cf.alignment_count = cf.capacity →
        ∃ cl, cf.cliques = some cl ∧ cl ≠ [] ∧
          ∀ c ∈ cl, ∃ i, c.alignment_set.test i = true) := by
  obtain ⟨cf, hrun, hwf⟩ := addAll_wf cfg hB inputs _ (init_wf cfg hB)
  obtain ⟨cf3, index, cl, f, es, hst, hcl, -, hs3, -, -, hcnt, hidx, -⟩ :=
    storeAlignment_wf cfg cf a hB hwf
  refine ⟨cf, hrun, hwf.store.cap_pos, hwf.store.block, hwf.store.count_le,
    ⟨cf3, index, hst, hidx, hcnt, hs3.cap_pos, hs3.block⟩, ?_⟩
  intro hfull
  obtain ⟨cl0, hcl0, hok, hne⟩ := hwf.cliques
  refine ⟨cl0, hcl0, hne ?_, hok.nonempty⟩
  rw [hfull]
  exact hwf.store.cap_pos

/-- Claim C15 on the run `exampleApart`, which fills the array. -/
theorem capacity_invariant_witness :
    ∃ cf, addAll exampleNoEdges (CliqueFinder.init exampleNoEdges) exampleApart = some cf ∧
      0 < cf.capacity ∧ exampleNoEdges.bits_per_block ∣ cf.capacity ∧
      cf.alignment_count ≤ cf.capacity ∧
      (∃ cf3 index, storeAlignment exampleNoEdges cf ⟨2, 40, 50, 0⟩ =
          some (cf3, (⟨2, 40, 50, 0⟩ : AlignmentRecord).setID cf.next_id, index) ∧
        index < cf3.capacity ∧ cf3.alignment_count = index + 1 ∧
        0 < cf3.capacity ∧ exampleNoEdges.bits_per_block ∣ cf3.capacity) ∧
      (cf.alignment_count = cf.capacity →
        ∃ cl, cf.cliques = some cl ∧ cl ≠ [] ∧
          ∀ c ∈ cl, ∃ i, c.alignment_set.test i = true) :=
  capacity_invariant exampleNoEdges exampleApart ⟨2, 40, 50, 0⟩ (by decide)

/-! ## The subset pass -/

/-- Claim C16.  For every non-empty list of staged candidates, after the
subset pass no surviving candidate's membership set contains (or equals) that
of another survivor, every candidate, so every discarded one, is contained in
some survivor, the survivors are candidates, and at least one survives. -/
theorem subset_pass_maximal (new_cliques : List Clique) (hne : new_cliques ≠ []) :
    (subsetPass new_cliques).Pairwise Incomparable ∧
    (∀ x ∈ new_cliques, ∃ y ∈ subsetPass new_cliques, y.contains x = true) ∧
    (∀ y ∈ subsetPass new_cliques, y ∈ new_cliques) ∧
    subsetPass new_cliques ≠ [] :=
  ⟨subsetPass_pairwise new_cliques, subsetPass_cover new_cliques, subsetPass_sub new_cliques,
    subsetPass_ne_nil new_cliques hne⟩

/-- Claim C16 on three candidates {0,1}, {0} and {0,1}: only the last
survives. -/
theorem subset_pass_maximal_witness :
    ((subsetPass exampleCandidates).Pairwise Incomparable ∧
      (∀ x ∈ exampleCandidates, ∃ y ∈ subsetPass exampleCandidates, y.contains x = true) ∧
      (∀ y ∈ subsetPass exampleCandidates, y ∈ exampleCandidates) ∧
      subsetPass exampleCandidates ≠ []) ∧
    subsetPass exampleCandidates = [⟨⟨[true, true, false]⟩, 0, 12⟩] :=
  ⟨subset_pass_maximal exampleCandidates (by decide), by decide⟩

/-! ## Draining -/

theorem destroy_drained (cfg : Config) (cf : CliqueFinder) (h : cf.cliques = none) :
    destroy cfg cf = some cf.trace := by
  unfold destroy
  rw [h]

theorem destroy_active (cfg : Config) (cf cf' : CliqueFinder) (h : finish cfg cf = some cf') :
    destroy cfg cf = some cf'.trace := by
  obtain ⟨cl, hcl, -⟩ := finish_fields cfg cf cf' h
  unfold destroy
  rw [hcl]
  simp only [h, Option.map_some']

theorem finish_drained (cfg : Config) (cf : CliqueFinder) (h : cf.cliques = none) :
    finish cfg cf = none := by
  unfold finish
  rw [h]

/-- Claim C11, as the source has it.  In every state reached from the
constructor `finish` succeeds; a second direct call of `finish` does not
complete (the clique list is null) and so hands nothing to the collector; the
drain the destructor would do is skipped after a `finish`, so that destroying
the engine after `finish` adds no call at all, and destroying it without a
prior `finish` makes exactly the calls of one `finish`. -/
theorem finish_once (cfg : Config) (inputs : List AlignmentRecord) (cf : CliqueFinder)
    (hB : 0 < cfg.bits_per_block)
    (hreach : addAll cfg (CliqueFinder.init cfg) inputs = some cf) :
    ∃ cf', finish cfg cf = some cf' ∧ finish cfg cf' = none ∧
      destroy cfg cf' = some cf'.trace ∧ destroy cfg cf = some cf'.trace := by
  have hwf := reachable_wf cfg hB inputs cf hreach
  obtain ⟨cl, hcl, -⟩ := hwf.cliques
  obtain ⟨cf', hfin, hnone, -⟩ := finish_some cfg cf cl hcl
  exact ⟨cf', hfin, finish_drained cfg cf' hnone, destroy_drained cfg cf' hnone,
    destroy_active cfg cf cf' hfin⟩

/-- Claim C11 as amended, on the run `exampleApart`. -/
theorem finish_once_witness :
    ∃ cf', finish exampleNoEdges exampleFull = some cf' ∧ finish exampleNoEdges cf' = none ∧
      destroy exampleNoEdges cf' = some cf'.trace ∧
      destroy exampleNoEdges exampleFull = some cf'.trace :=
  finish_once exampleNoEdges exampleApart exampleFull (by decide) (by decide)

/-- Claim C11 as stated fails: after the run `exampleApart` the first `finish`
gives the state `exampleDrained`, and a second `finish` on it does not
complete. -/
theorem finish_twice_fails :
    finish exampleNoEdges exampleFull = some exampleDrained ∧
      ¬ ∃ cf2, finish exampleNoEdges exampleDrained = some cf2 := by
  refine ⟨by decide, ?_⟩
  rintro ⟨cf2, h⟩
  have hnone : finish exampleNoEdges exampleDrained = none := by decide
  rw [hnone] at h
  exact Option.noConfusion h

/-- Claim C12, as the source has it.  In every state reached from the
constructor `finish` succeeds: it first notifies the edge writer
(`finish()`), when one is attached, and then hands every clique of the active
collection to the collector, each once and in collection order; afterwards
the engine has no active collection. -/
theorem drain_order (cfg : Config) (inputs : List AlignmentRecord) (cf : CliqueFinder)
    (hB : 0 < cfg.bits_per_block)
    (hreach : addAll cfg (CliqueFinder.init cfg) inputs = some cf) :
    ∃ cl cf', cf.cliques = some cl ∧ finish cfg cf = some cf' ∧ cf'.cliques = none ∧
      cf'.trace = cf.trace ++ (if cfg.edge_writer then [Event.writerFinish] else []) ++
        cl.map (deliver cf.alignments) ∧
      delivered cf'.trace = delivered cf.trace ++
        cl.map (fun c => memberRecords cf.alignments c.alignment_set) := by
  have hwf := reachable_wf cfg hB inputs cf hreach
  obtain ⟨cl, hcl, -⟩ := hwf.cliques
  obtain ⟨cf', hfin, hnone, -, hdel⟩ := finish_some cfg cf cl hcl
  obtain ⟨cl0, hcl0, -, -, -, -, -, -, htr⟩ := finish_fields cfg cf cf' hfin
  have : cl0 = cl := by rw [hcl] at hcl0; exact (Option.some.inj hcl0).symm
  subst this
  exact ⟨cl0, cf', hcl, hfin, hnone, htr, hdel⟩

/-- Claim C12 as amended, on the run `exampleApart`. -/
theorem drain_order_witness :
    ∃ cl cf', exampleFull.cliques = some cl ∧ finish exampleNoEdges exampleFull = some cf' ∧
      cf'.cliques = none ∧
      cf'.trace = exampleFull.trace ++
        (if exampleNoEdges.edge_writer then [Event.writerFinish] else []) ++
        cl.map (deliver exampleFull.alignments) ∧
      delivered cf'.trace = delivered exampleFull.trace ++
        cl.map (fun c => memberRecords exampleFull.alignments c.alignment_set) :=
  drain_order exampleNoEdges exampleApart exampleFull (by decide) (by decide)

/-- Claim C12 as stated fails: after the run `exampleApart`, with an edge
writer attached, the calls of `finish` are not "the deliveries, then the
writer's `finish()`": the writer is notified before the clique is handed
over. -/
theorem drain_order_reversed :
    ¬ ∃ cl cf', exampleFull.cliques = some cl ∧
      finish exampleNoEdges exampleFull = some cf' ∧
      cf'.trace = exampleFull.trace ++ cl.map (deliver exampleFull.alignments) ++
        [Event.writerFinish] := by
  rintro ⟨cl, cf', hcl, hfin, htr⟩
  have h1 : finish exampleNoEdges exampleFull = some exampleDrained := by decide
  have h2 : exampleFull.cliques = some [⟨⟨[false, true]⟩, 20, 30⟩] := rfl
  rw [h1] at hfin
  rw [h2] at hcl
  rw [← Option.some.inj hfin, ← Option.some.inj hcl] at htr
  revert htr
  decide

/-! ## The calls of `setNodeCompleted` -/

theorem completedRecords_append (t1 t2 : List Event) :
    completedRecords (t1 ++ t2) = completedRecords t1 ++ completedRecords t2 := by
  simp [completedRecords, List.filterMap_append]

theorem completedRecords_eq_nil (es : List Event)
    (h : ∀ e ∈ es, ∀ r, e ≠ Event.setNodeCompleted r) : completedRecords es = [] := by
  unfold completedRecords
  rw [List.filterMap_eq_nil_iff]
  intro e he
  cases e with
  | setNodeCompleted r => exact absurd rfl (h _ he r)
  | _ => rfl

theorem completedRecords_map_deliver (alignments : Store) (l : List Clique) :
    completedRecords (l.map (deliver alignments)) = [] := by
  apply completedRecords_eq_nil
  intro e he r heq
  obtain ⟨c, -, rfl⟩ := List.mem_map.mp he
  exact Event.noConfusion heq

theorem completedRecords_map_completed (l : List AlignmentRecord) :
    completedRecords (l.map Event.setNodeCompleted) = l := by
  induction l with
  | nil => rfl
  | cons a l ih =>
    simp only [List.map_cons, completedRecords, List.filterMap_cons] at ih ⊢
    rw [ih]

/-- The slots no longer in use, as `setNodeCompleted` calls. -/
theorem completedEvents_eq (alignments : Store) (u : alignment_set_t) (l : List Nat)
    (h : ∀ i ∈ l, ∃ r, alignments.getD i none = some r) :
    completedEvents alignments u l = some
      (((l.filter (fun i => !u.test i)).filterMap (fun i => alignments.getD i none)).map
        Event.setNodeCompleted) := by
  induction l with
  | nil => rfl
  | cons i l ih =>
    have ih' := ih (fun j hj => h j (List.mem_cons_of_mem _ hj))
    obtain ⟨r, hr⟩ := h i (List.mem_cons_self _ _)
    unfold completedEvents
    by_cases hu : u.test i = true
    · simp only [hu, if_true, ih', List.filter_cons, Bool.not_true, Bool.false_eq_true, if_false]
    · have hu' : u.test i = false := by simpa using hu
      simp only [hu', Bool.false_eq_true, if_false, hr, ih', Option.map_some', List.filter_cons,
        Bool.not_false, if_true, List.filterMap_cons, List.map_cons]

/-- The calls a compaction makes: `setNodeCompleted` for the records of the
slots no longer in use, when an edge writer is attached, then the pruning of
the coverage monitor. -/
theorem reorganize_storage_trace (cfg : Config) (cf cf' : CliqueFinder) (cl : List Clique)
    (hcl : cf.cliques = some cl)
    (hpres : ∀ i, i < cf.alignment_count → ∃ r, cf.alignments.getD i none = some r)
    (hre : reorganize_storage cfg cf = some cf') :
    ∃ p, cf'.trace = cf.trace ++
      (if cfg.edge_writer then
        (((List.range cf.alignment_count).filter
            (fun i => !(setUnion cf.capacity cl).test i)).filterMap
          (fun i => cf.alignments.getD i none)).map Event.setNodeCompleted
       else []) ++ [Event.coveragePrune p] := by
  have hce := completedEvents_eq cf.alignments (setUnion cf.capacity cl)
    (List.range cf.alignment_count) (fun i hi => hpres i (List.mem_range.mp hi))
  cases cl with
  | nil =>
    simp only [reorganize_storage, hcl] at hre
    exact Option.noConfusion hre
  | cons c0 cs =>
    by_cases hw : cfg.edge_writer = true
    · simp only [reorganize_storage, hcl, hw, if_true, hce] at hre
      have := Option.some.inj hre
      subst this
      exact ⟨_, by rw [if_pos hw]⟩
    · have hw' : cfg.edge_writer = false := by simpa using hw
      simp only [reorganize_storage, hcl, hw', Bool.false_eq_true, if_false] at hre
      have := Option.some.inj hre
      subst this
      exact ⟨_, by rw [if_neg hw]⟩

/-- The definition of `storeAlignment`, step by step. -/
theorem storeAlignment_unfold (cfg : Config) (cf cf3 : CliqueFinder) (a v : AlignmentRecord)
    (index : Nat) (h : storeAlignment cfg cf a = some (cf3, v, index)) :
    ∃ cf2, (if cf.alignment_count = cf.capacity then reorganize_storage cfg (beforeStore cf a)
        else some (beforeStore cf a)) = some cf2 ∧
      cf2.alignment_count < cf2.capacity ∧ v = a.setID cf.next_id ∧
      index = cf2.alignment_count ∧
      cf3 = { cf2 with
        alignment_count := cf2.alignment_count + 1
        alignments := cf2.alignments.set cf2.alignment_count (some (a.setID cf.next_id))
        alignments_by_length := setInsert (0, cf2.alignment_count) cf2.alignments_by_length } := by
  unfold storeAlignment at h
  split at h
  · exact Option.noConfusion h
  · simp only at h
    have hbs : (beforeStore cf a).alignment_count = cf.alignment_count := rfl
    have hbc : (beforeStore cf a).capacity = cf.capacity := rfl
    rw [hbs, hbc] at h
    cases hst : (if cf.alignment_count = cf.capacity then reorganize_storage cfg (beforeStore cf a)
        else some (beforeStore cf a)) with
    | none =>
      rw [hst] at h
      exact Option.noConfusion h
    | some cf2 =>
      rw [hst] at h
      simp only at h
      split at h
      · rename_i hlt
        have := Option.some.inj h
        simp only [Prod.mk.injEq] at this
        exact ⟨cf2, rfl, hlt, this.2.1.symm, this.2.2.symm, this.1.symm⟩
      · exact Option.noConfusion h

theorem reorganize_storage_stored (cfg : Config) (cf cf' : CliqueFinder) (cl : List Clique)
    (hwf : WF cfg cf) (hpos : 0 < cf.alignment_count) (hcl : cf.cliques = some cl)
    (hre : reorganize_storage cfg cf = some cf') :
    storedRecords cf' =
      ((List.range cf.alignment_count).filter
        (fun i => (setUnion cf.capacity cl).test i)).filterMap
        (fun i => cf.alignments.getD i none) := by
  obtain ⟨-, -, h3, -, h5, -, -⟩ := reorganize_storage_slots cfg cf cf' cl hwf hpos hcl hre
  unfold storedRecords
  rw [h3]
  show _ = (translationTable cf.alignment_count (setUnion cf.capacity cl)).filterMap _
  conv_rhs => rw [list_eq_map_range
    (translationTable cf.alignment_count (setUnion cf.capacity cl)) 0, List.filterMap_map]
  apply List.filterMap_congr
  intro j hj
  exact h5 j (by rw [h3]; exact List.mem_range.mp hj)

theorem storedRecords_store (cf2 : CliqueFinder) (v : AlignmentRecord) (l : List (Nat × Nat))
    (hlen : cf2.alignment_count < cf2.alignments.length) :
    storedRecords { cf2 with
        alignment_count := cf2.alignment_count + 1
        alignments := cf2.alignments.set cf2.alignment_count (some v)
        alignments_by_length := l } =
      storedRecords cf2 ++ [v] := by
  unfold storedRecords
  simp only
  rw [List.range_succ, List.filterMap_append]
  congr 1
  · apply List.filterMap_congr
    intro i hi
    have := List.mem_range.mp hi
    exact getD_set_ne _ _ _ _ (by omega)
  · simp only [List.filterMap_cons, getD_set_eq _ _ _ hlen, List.filterMap_nil]

/-- With an edge writer attached, a call of `addAlignment` keeps every record
either stored or completed: the completed records and the stored records after
the call are those before the call plus the new record. -/
theorem addAlignment_completed (cfg : Config) (hB : 0 < cfg.bits_per_block)
    (hw : cfg.edge_writer = true)
    (cf : CliqueFinder) (a : AlignmentRecord) (cf' : CliqueFinder) (hwf : WF cfg cf)
    (hadd : addAlignment cfg cf a = some cf') :
    cf'.next_id = cf.next_id + 1 ∧
    (completedRecords cf'.trace ++ storedRecords cf').Perm
      ((completedRecords cf.trace ++ storedRecords cf) ++ [a.setID cf.next_id]) := by
  obtain ⟨cf3, index, cl, f, es, hst, hcl, hcl3, hs3, hok3, hne, hcnt, hidx, hget, hid, htr, hes,
    hrec⟩ := storeAlignment_wf cfg cf a hB hwf
  obtain ⟨adj, es2, hsc, -, -, hes2⟩ := scanEdges_store cfg cf3 (a.setID cf.next_id) hs3
  have heq := addAlignment_eq cfg cf cf3 a _ index _ adj es2 hst hcl3 hsc
  have hcf' := Option.some.inj (hadd.symm.trans heq)
  obtain ⟨cf2, hif, hlt, -, -, hcf3⟩ := storeAlignment_unfold cfg cf cf3 a _ index hst
  have hwf1 := beforeStore_wf cfg cf a hwf
  -- the state after the optional compaction
  have hcf2 : WF cfg cf2 ∧
      (completedRecords cf2.trace ++ storedRecords cf2).Perm
        (completedRecords cf.trace ++ storedRecords cf) := by
    by_cases hfull : cf.alignment_count = cf.capacity
    · rw [if_pos hfull] at hif
      have hpos : 0 < (beforeStore cf a).alignment_count := by
        show 0 < cf.alignment_count
        rw [hfull]; exact hwf.store.cap_pos
      obtain ⟨cf2', cl', -, -, hcl', hre', hwf2, -⟩ :=
        reorganize_storage_wf cfg _ hB hwf1 hpos
      have : cf2' = cf2 := Option.some.inj (hre'.symm.trans hif)
      subst this
      have hcl1 : (beforeStore cf a).cliques = some cl := hcl
      obtain ⟨p, htrace⟩ := reorganize_storage_trace cfg _ cf2' cl hcl1 hwf1.store.present hif
      have hstored := reorganize_storage_stored cfg _ cf2' cl hwf1 hpos hcl1 hif
      refine ⟨hwf2, ?_⟩
      rw [htrace, hstored, if_pos hw]
      simp only [completedRecords_append, completedRecords_map_completed]
      have h1 : completedRecords (beforeStore cf a).trace = completedRecords cf.trace := by
        show completedRecords (cf.trace ++ [Event.coverageAdd (a.setID cf.next_id)]) = _
        rw [completedRecords_append]
        simp [completedRecords]
      have h2 : completedRecords [Event.coveragePrune p] = [] := rfl
      rw [h1, h2, List.append_nil, List.append_assoc]
      apply List.Perm.append_left
      have hperm := (List.filter_append_perm
        (fun i => (setUnion cf.capacity cl).test i) (List.range cf.alignment_count)).filterMap
        (fun i => cf.alignments.getD i none)
      rw [List.filterMap_append] at hperm
      exact List.perm_append_comm.trans hperm
    · rw [if_neg hfull] at hif
      have : beforeStore cf a = cf2 := Option.some.inj hif
      subst this
      refine ⟨hwf1, ?_⟩
      have h1 : completedRecords (beforeStore cf a).trace = completedRecords cf.trace := by
        show completedRecords (cf.trace ++ [Event.coverageAdd (a.setID cf.next_id)]) = _
        rw [completedRecords_append]
        simp [completedRecords]
      rw [h1]
      exact List.Perm.refl _
  obtain ⟨hwf2, hperm2⟩ := hcf2
  have hlen : cf2.alignment_count < cf2.alignments.length := by
    rw [hwf2.store.length_eq]; exact hlt
  have hstored3 : storedRecords cf3 = storedRecords cf2 ++ [a.setID cf.next_id] := by
    rw [hcf3]
    exact storedRecords_store cf2 _ _ hlen
  have htr3 : cf3.trace = cf2.trace := by rw [hcf3]
  have hstored' : storedRecords cf' = storedRecords cf3 := by rw [hcf']; rfl
  have htr' : completedRecords cf'.trace = completedRecords cf3.trace := by
    rw [hcf']
    simp only [completedRecords_append, completedRecords_map_deliver, List.append_nil]
    rw [completedRecords_eq_nil es2 (by
      intro e he r heq'
      obtain ⟨x, y, hxy⟩ := hes2 e he
      rw [hxy] at heq'
      exact Event.noConfusion heq'), List.append_nil]
  refine ⟨by rw [hcf']; exact hid, ?_⟩
  rw [hstored', htr', hstored3, htr3, ← List.append_assoc]
  exact hperm2.append_right _

theorem idsOf_assignIds (n : Nat) (l : List AlignmentRecord) :
    idsOf (assignIds n l) = List.range' n l.length := by
  induction l generalizing n with
  | nil => rfl
  | cons a l ih =>
    simp only [assignIds, idsOf, List.map_cons, List.length_cons, List.range'_succ] at ih ⊢
    rw [ih]
    rfl

theorem nodup_assignIds (n : Nat) (l : List AlignmentRecord) : (assignIds n l).Nodup := by
  apply List.Nodup.of_map AlignmentRecord.id
  have := idsOf_assignIds n l
  unfold idsOf at this
  rw [this]
  exact List.nodup_range' n l.length

/-- Claim C13, as the source has it.  With an edge writer attached, for every
run of `addAlignment` calls from the constructor followed by `finish` and the
destructor, `setNodeCompleted` is called exactly once for every inserted
record whose slot a compaction has reclaimed and never for a record still
stored at shutdown: the records it was called for, together with the records
still stored, are exactly the inserted records, each once; `finish` and the
destructor make no such call. -/
theorem completion_calls (cfg : Config) (inputs : List AlignmentRecord)
    (hB : 0 < cfg.bits_per_block) (hw : cfg.edge_writer = true) :
    ∃ cf cf' tr, addAll cfg (CliqueFinder.init cfg) inputs = some cf ∧
      finish cfg cf = some cf' ∧ destroy cfg cf' = some tr ∧
      completedRecords tr = completedRecords cf.trace ∧
      (completedRecords tr ++ storedRecords cf).Perm (assignIds 0 inputs) ∧
      ∀ r ∈ assignIds 0 inputs,
        (completedRecords tr).count r + (storedRecords cf).count r = 1 := by
  obtain ⟨cf, hrun, hwf, hR⟩ := addAll_invariant_rel cfg hB
    (fun done s => s.next_id = done.length ∧
      (completedRecords s.trace ++ storedRecords s).Perm (assignIds 0 done))
    (by
      intro done s a s' hwf hR hadd
      obtain ⟨hid, hperm⟩ := hR
      obtain ⟨hid', hperm'⟩ := addAlignment_completed cfg hB hw s a s' hwf hadd
      refine ⟨by rw [hid', hid]; simp, ?_⟩
      rw [assignIds_append, Nat.zero_add, ← hid]
      exact hperm'.trans (hperm.append_right _))
    inputs [] (CliqueFinder.init cfg) (init_wf cfg hB)
    ⟨rfl, by simp [CliqueFinder.init, completedRecords, storedRecords, assignIds]⟩
  rw [List.nil_append] at hR
  obtain ⟨-, hperm⟩ := hR
  obtain ⟨cl, hcl, -⟩ := hwf.cliques
  obtain ⟨cf', hfin, hnone, -, -⟩ := finish_some cfg cf cl hcl
  obtain ⟨cl0, -, -, -, -, -, -, -, htr⟩ := finish_fields cfg cf cf' hfin
  have hcompl : completedRecords cf'.trace = completedRecords cf.trace := by
    rw [htr]
    simp only [completedRecords_append, completedRecords_map_deliver, List.append_nil]
    have : completedRecords (if cfg.edge_writer then [Event.writerFinish] else []) = [] := by
      split <;> rfl
    rw [this, List.append_nil]
  refine ⟨cf, cf', cf'.trace, hrun, hfin, destroy_drained cfg cf' hnone, hcompl, ?_, ?_⟩
  · rw [hcompl]; exact hperm
  · intro r hr
    rw [hcompl, ← List.count_append, hperm.count_eq]
    exact List.count_eq_one_of_mem (nodup_assignIds 0 inputs) hr

/-- Claim C13 as amended, on the run `exampleApart3`, in which the third
insertion compacts the array and reclaims the slot of the first record. -/
theorem completion_calls_witness :
    (∃ cf cf' tr,
      addAll exampleNoEdges (CliqueFinder.init exampleNoEdges) exampleApart3 = some cf ∧
      finish exampleNoEdges cf = some cf' ∧ destroy exampleNoEdges cf' = some tr ∧
      completedRecords tr = completedRecords cf.trace ∧
      (completedRecords tr ++ storedRecords cf).Perm (assignIds 0 exampleApart3) ∧
      ∀ r ∈ assignIds 0 exampleApart3,
        (completedRecords tr).count r + (storedRecords cf).count r = 1) ∧
    ((addAll exampleNoEdges (CliqueFinder.init exampleNoEdges) exampleApart3).bind
        (fun cf => (finish exampleNoEdges cf).bind (destroy exampleNoEdges))).map
      completedRecords = some [⟨0, 0, 10, 0⟩] :=
  ⟨completion_calls exampleNoEdges exampleApart3 (by decide) (by decide), by decide⟩

/-- Claim C13 as stated fails: after the run `exampleApart`, `finish` and the
destructor, with an edge writer attached, `setNodeCompleted` has not been
called for the inserted records (no compaction has taken place). -/
theorem completion_missing :
    ∃ tr, (addAll exampleNoEdges (CliqueFinder.init exampleNoEdges) exampleApart).bind
        (fun cf => (finish exampleNoEdges cf).bind (destroy exampleNoEdges)) = some tr ∧
      ¬ ∀ r ∈ assignIds 0 exampleApart, (completedRecords tr).count r = 1 :=
  ⟨_, rfl, by decide⟩

/-! ## Every record is reported -/

/-- A call of `addAlignment` keeps every record of `V` in an active clique or
in a clique handed to the collector, and puts the new record in an active
clique. -/
theorem addAlignment_reported (cfg : Config) (hB : 0 < cfg.bits_per_block)
    (V : List AlignmentRecord) (cf : CliqueFinder) (a : AlignmentRecord) (cf' : CliqueFinder)
    (hwf : WF cfg cf) (hadd : addAlignment cfg cf a = some cf')
    (hP : ∀ r ∈ V, (∃ cl c, cf.cliques = some cl ∧ c ∈ cl ∧
        r ∈ memberRecords cf.alignments c.alignment_set) ∨
      ∃ m ∈ delivered cf.trace, r ∈ m) :
    cf'.next_id = cf.next_id + 1 ∧
    (∃ cl c, cf'.cliques = some cl ∧ c ∈ cl ∧
      a.setID cf.next_id ∈ memberRecords cf'.alignments c.alignment_set) ∧
    ∀ r ∈ V, (∃ cl c, cf'.cliques = some cl ∧ c ∈ cl ∧
        r ∈ memberRecords cf'.alignments c.alignment_set) ∨
      ∃ m ∈ delivered cf'.trace, r ∈ m := by
  obtain ⟨cf'', cf3, index, cl, f, adj, hadd', hwf', hcl, hs3, hok3, hcnt, hidx, hget, hid, hrec,
    hadjsz, hadj, hcl', hal, -, -, hnid, hdel⟩ := addAlignment_step cfg cf a hB hwf
  have hcf : cf' = cf'' := Option.some.inj (hadd.symm.trans hadd')
  subst hcf
  have hne_st := subsetPass_ne_nil _ (sortUnique_ne_nil cfg.no_sort _
    (stagedCliques_ne_nil cf3.alignments index cf3.capacity
      (stagedFrom cf3.alignments (a.setID cf.next_id) index adj (cl.map f))))
  refine ⟨by rw [hnid, hid], ?_, ?_⟩
  · obtain ⟨z, t, hzt⟩ := List.exists_cons_of_ne_nil hne_st
    have hz : z ∈ subsetPass (sortUnique cfg.no_sort
        (stagedCliques cf3.alignments index cf3.capacity
          (stagedFrom cf3.alignments (a.setID cf.next_id) index adj (cl.map f)))) := by
      rw [hzt]; exact List.mem_cons_self _ _
    refine ⟨_, z, hcl', List.mem_append_right _ hz, ?_⟩
    rw [hal]
    exact (staged_members hok3 hcnt hidx hget hadj
      (sortUnique_sub _ _ z (subsetPass_sub _ z hz))).1
  · intro r hr
    rcases hP r hr with ⟨cl0, c0, hcl0, hc0, hmem⟩ | ⟨m, hm, hrm⟩
    · have : cl0 = cl := by rw [hcl] at hcl0; exact (Option.some.inj hcl0).symm
      subst this
      have hc3 : f c0 ∈ cl0.map f := List.mem_map_of_mem f hc0
      have hmem3 : r ∈ memberRecords cf3.alignments (f c0).alignment_set := by
        rw [(hrec c0 hc0).1]; exact hmem
      by_cases hfin : isFinal (a.setID cf.next_id) (f c0) = true
      · -- the clique is handed to the collector
        right
        refine ⟨memberRecords cf3.alignments (f c0).alignment_set, ?_, hmem3⟩
        rw [hdel]
        apply List.mem_append_right
        exact List.mem_map.mpr ⟨f c0, List.mem_filter.mpr ⟨hc3, hfin⟩, rfl⟩
      · left
        have hfin' : isFinal (a.setID cf.next_id) (f c0) = false := by simpa using hfin
        by_cases hext : ((f c0).intersect adj).any = true ∧
            ((f c0).intersect adj).count = (f c0).size
        · -- the clique is extended
          have hsubadj := (alignment_set_t.count_inter_eq_iff _ _).mp hext.2
          have hn : Clique.ofSet cf3.alignments (((f c0).intersect adj).set index) ∈
              stagedFrom cf3.alignments (a.setID cf.next_id) index adj (cl0.map f) := by
            unfold stagedFrom
            refine List.mem_map.mpr ⟨f c0, List.mem_filter.mpr ⟨hc3, ?_⟩, rfl⟩
            rw [hfin', hext.1]
            rfl
          obtain ⟨z, hz, hzn⟩ := staged_covered cf3.alignments cfg.no_sort _ _
            (@mem_stagedCliques_of_mem cf3.alignments index cf3.capacity _ _ hn)
          refine ⟨_, z, hcl', List.mem_append_right _ hz, ?_⟩
          rw [hal]
          apply hzn r
          show r ∈ memberRecords cf3.alignments (((f c0).intersect adj).set index)
          refine (members_candidate hok3 hcnt hidx hget hadj hc3 r).mpr (Or.inr ⟨hmem3, ?_⟩)
          obtain ⟨i, hi, hri⟩ := mem_memberRecords.mp hmem3
          obtain ⟨-, r', hr', he⟩ := (hadj i).mp (hsubadj i hi)
          rw [hri] at hr'
          rw [← Option.some.inj hr'] at he
          exact he
        · -- the clique stays
          refine ⟨_, f c0, hcl', List.mem_append_left _ ?_, by rw [hal]; exact hmem3⟩
          unfold keptCliques
          refine List.mem_filter.mpr ⟨hc3, ?_⟩
          rw [hfin']
          simp only [Bool.not_false, Bool.true_and, Bool.not_eq_true', Bool.and_eq_false_iff,
            decide_eq_false_iff_not]
          by_cases hany : ((f c0).intersect adj).any = true
          · exact Or.inr (fun hcount => hext ⟨hany, hcount⟩)
          · exact Or.inl (by simpa using hany)
    · right
      exact ⟨m, by rw [hdel]; exact List.mem_append_left _ hm, hrm⟩

/-- Claim C19.  After every run of `addAlignment` calls from the constructor,
every inserted record is a member of an active clique or of a clique already
handed to the collector, and the record inserted last is a member of an
active clique; after `finish` every inserted record is a member of a clique
handed to the collector; and when the array is full, the compaction of the
next call keeps in the array every record that is a member of an active
clique. -/
theorem every_alignment_reported (cfg : Config) (inputs : List AlignmentRecord)
    (a : AlignmentRecord) (hB : 0 < cfg.bits_per_block) :
    ∃ cf cl cf', addAll cfg (CliqueFinder.init cfg) inputs = some cf ∧ cf.cliques = some cl ∧
      (∀ r ∈ assignIds 0 inputs,
        (∃ c ∈ cl, r ∈ memberRecords cf.alignments c.alignment_set) ∨
        ∃ m ∈ delivered cf.trace, r ∈ m) ∧
      (∀ d x, inputs = d ++ [x] →
        ∃ c ∈ cl, x.setID d.length ∈ memberRecords cf.alignments c.alignment_set) ∧
      finish cfg cf = some cf' ∧
      (∀ r ∈ assignIds 0 inputs, ∃ m ∈ delivered cf'.trace, r ∈ m) ∧
      (cf.alignment_count = cf.capacity →
        ∃ cf2, reorganize_storage cfg (beforeStore cf a) = some cf2 ∧
          ∀ c ∈ cl, ∀ r ∈ memberRecords cf.alignments c.alignment_set,
            r ∈ storedRecords cf2) := by
  obtain ⟨cf, hrun, hwf, hR⟩ := addAll_invariant_rel cfg hB
    (fun done s => s.next_id = done.length ∧
      (∀ r ∈ assignIds 0 done, (∃ cl c, s.cliques = some cl ∧ c ∈ cl ∧
          r ∈ memberRecords s.alignments c.alignment_set) ∨
        ∃ m ∈ delivered s.trace, r ∈ m) ∧
      ∀ d x, done = d ++ [x] → ∃ cl c, s.cliques = some cl ∧ c ∈ cl ∧
        x.setID d.length ∈ memberRecords s.alignments c.alignment_set)
    (by
      intro done s x s' hwf hR hadd
      obtain ⟨hid, hrep, -⟩ := hR
      obtain ⟨hid', hnew, hrep'⟩ :=
        addAlignment_reported cfg hB (assignIds 0 done) s x s' hwf hadd hrep
      refine ⟨by rw [hid', hid]; simp, ?_, ?_⟩
      · intro r hr
        rw [assignIds_append, Nat.zero_add] at hr
        rcases List.mem_append.mp hr with hr | hr
        · exact hrep' r hr
        · rw [List.mem_singleton.mp hr, ← hid]
          exact Or.inl hnew
      · intro d y hdy
        obtain ⟨hd, hy⟩ := List.append_inj' hdy rfl
        have hy' : x = y := by simpa using hy
        rw [← hd, ← hy', ← hid]
        exact hnew)
    inputs [] (CliqueFinder.init cfg) (init_wf cfg hB)
    ⟨rfl, by intro r hr; simp [assignIds] at hr, by
      intro d x h
      have := congrArg List.length h
      simp at this⟩
  rw [List.nil_append] at hR
  obtain ⟨-, hrep, hlast⟩ := hR
  obtain ⟨cl, hcl, hok, -⟩ := hwf.cliques
  obtain ⟨cf', hfin, -, -, hdel⟩ := finish_some cfg cf cl hcl
  have hrep' : ∀ r ∈ assignIds 0 inputs,
      (∃ c ∈ cl, r ∈ memberRecords cf.alignments c.alignment_set) ∨
      ∃ m ∈ delivered cf.trace, r ∈ m := by
    intro r hr
    rcases hrep r hr with ⟨cl0, c, hcl0, hc, hmem⟩ | h
    · have : cl0 = cl := by rw [hcl] at hcl0; exact (Option.some.inj hcl0).symm
      subst this
      exact Or.inl ⟨c, hc, hmem⟩
    · exact Or.inr h
  refine ⟨cf, cl, cf', hrun, hcl, hrep', ?_, hfin, ?_, ?_⟩
  · intro d x hdx
    obtain ⟨cl0, c, hcl0, hc, hmem⟩ := hlast d x hdx
    have : cl0 = cl := by rw [hcl] at hcl0; exact (Option.some.inj hcl0).symm
    subst this
    exact ⟨c, hc, hmem⟩
  · intro r hr
    rw [hdel]
    rcases hrep' r hr with ⟨c, hc, hmem⟩ | ⟨m, hm, hrm⟩
    · exact ⟨_, List.mem_append_right _ (List.mem_map_of_mem _ hc), hmem⟩
    · exact ⟨m, List.mem_append_left _ hm, hrm⟩
  · intro hfull
    have hwf1 := beforeStore_wf cfg cf a hwf
    have hpos : 0 < (beforeStore cf a).alignment_count := by
      show 0 < cf.alignment_count
      rw [hfull]; exact hwf.store.cap_pos
    obtain ⟨cf2, cl', es, T, hcl', hre, hwf2, -, -, -, -, hcl2, hrec2, -⟩ :=
      reorganize_storage_wf cfg _ hB hwf1 hpos
    have : cl' = cl := by
      have h1 : (beforeStore cf a).cliques = some cl := hcl
      rw [h1] at hcl'; exact (Option.some.inj hcl').symm
    subst this
    refine ⟨cf2, hre, ?_⟩
    intro c hc r hr
    have hr2 : r ∈ memberRecords cf2.alignments
        (c.translate T T.length cf2.capacity).alignment_set := by
      rw [hrec2 c hc]; exact hr
    obtain ⟨j, hj, hrj⟩ := mem_memberRecords.mp hr2
    obtain ⟨cl2, hcl2', hok2, -⟩ := hwf2.cliques
    have hcl2eq : cl2 = cl'.map (fun c => c.translate T T.length cf2.capacity) := by
      rw [hcl2] at hcl2'; exact (Option.some.inj hcl2').symm
    have hjlt := hok2.bits_lt _ (by rw [hcl2eq]; exact List.mem_map_of_mem _ hc) j hj
    exact mem_storedRecords.mpr ⟨j, hjlt, hrj⟩

/-- Claim C19 on the run `exampleApart`. -/
theorem every_alignment_reported_witness :
    ∃ cf cl cf', addAll exampleNoEdges (CliqueFinder.init exampleNoEdges) exampleApart = some cf ∧
      cf.cliques = some cl ∧
      (∀ r ∈ assignIds 0 exampleApart,
        (∃ c ∈ cl, r ∈ memberRecords cf.alignments c.alignment_set) ∨
        ∃ m ∈ delivered cf.trace, r ∈ m) ∧
      (∀ d x, exampleApart = d ++ [x] →
        ∃ c ∈ cl, x.setID d.length ∈ memberRecords cf.alignments c.alignment_set) ∧
      finish exampleNoEdges cf = some cf' ∧
      (∀ r ∈ assignIds 0 exampleApart, ∃ m ∈ delivered cf'.trace, r ∈ m) ∧
      (cf.alignment_count = cf.capacity →
        ∃ cf2, reorganize_storage exampleNoEdges (beforeStore cf ⟨2, 40, 50, 0⟩) = some cf2 ∧
          ∀ c ∈ cl, ∀ r ∈ memberRecords cf.alignments c.alignment_set,
            r ∈ storedRecords cf2) :=
  every_alignment_reported exampleNoEdges exampleApart ⟨2, 40, 50, 0⟩ (by decide)

/-! ## Duplicates -/

/-- After every run from the constructor the active cliques are pairwise
incomparable. -/
theorem reachable_incomparable (cfg : Config) (hB : 0 < cfg.bits_per_block)
    (inputs : List AlignmentRecord) (cf : CliqueFinder) (cl : List Clique)
    (hreach : addAll cfg (CliqueFinder.init cfg) inputs = some cf)
    (hcl : cf.cliques = some cl) : cl.Pairwise Incomparable := by
  obtain ⟨cf', hrun, -, hP⟩ := addAll_invariant cfg hB
    (fun s => ∀ cl, s.cliques = some cl → cl.Pairwise Incomparable)
    (fun s a s' hwf hP hadd => addAlignment_antichain cfg hB s a s' hwf hP hadd)
    inputs (CliqueFinder.init cfg) (init_wf cfg hB)
    (by
      intro cl hcl
      have : cl = [] := (Option.some.inj hcl).symm
      rw [this]
      exact List.Pairwise.nil)
  have : cf' = cf := Option.some.inj (hrun.symm.trans hreach)
  subst this
  exact hP cl hcl

theorem ne_of_incomparable {c d : Clique} (h : Incomparable c d) :
    c.alignment_set ≠ d.alignment_set ∧
      ¬ ∀ i, c.alignment_set.test i = d.alignment_set.test i := by
  constructor
  · intro heq
    have : d.contains c = true := by
      rw [contains_iff]
      intro i hi
      rw [← heq]; exact hi
    rw [h.1] at this
    exact Bool.noConfusion this
  · intro heq
    have : d.contains c = true := by
      rw [contains_iff]
      intro i hi
      rw [← heq i]; exact hi
    rw [h.1] at this
    exact Bool.noConfusion this

/-- Claim C17, as the source has it.  Duplicates do not persist in the active
collection, with `no_sort` set or not: the subset pass keeps no two candidates
with the same membership set, whatever the candidates, and after every run of
`addAlignment` calls from the constructor no two cliques of the active
collection have the same membership set. -/
theorem no_duplicates_active (cfg : Config) (inputs : List AlignmentRecord)
    (new_cliques : List Clique) (hB : 0 < cfg.bits_per_block) :
    (subsetPass (sortUnique cfg.no_sort new_cliques)).Pairwise
      (fun c d => c.alignment_set ≠ d.alignment_set ∧
        ¬ ∀ i, c.alignment_set.test i = d.alignment_set.test i) ∧
    ∃ cf cl, addAll cfg (CliqueFinder.init cfg) inputs = some cf ∧ cf.cliques = some cl ∧
      cl.Pairwise (fun c d => c.alignment_set ≠ d.alignment_set ∧
        ¬ ∀ i, c.alignment_set.test i = d.alignment_set.test i) := by
  refine ⟨(subsetPass_pairwise _).imp (fun h => ne_of_incomparable h), ?_⟩
  obtain ⟨cf, hrun, hwf⟩ := addAll_wf cfg hB inputs _ (init_wf cfg hB)
  obtain ⟨cl, hcl, -⟩ := hwf.cliques
  exact ⟨cf, cl, hrun, hcl,
    (reachable_incomparable cfg hB inputs cf cl hrun hcl).imp (fun h => ne_of_incomparable h)⟩

/-- Claim C17 as amended, on the run `exampleStarInputs` with `no_sort` set:
the fourth record is adjacent to the first one only, so both active cliques
{0,1} and {0,2} stage the candidate {0,3}; one copy is left. -/
theorem no_duplicates_active_witness :
    ((subsetPass (sortUnique exampleStar.no_sort exampleCandidates)).Pairwise
        (fun c d => c.alignment_set ≠ d.alignment_set ∧
          ¬ ∀ i, c.alignment_set.test i = d.alignment_set.test i) ∧
      ∃ cf cl, addAll exampleStar (CliqueFinder.init exampleStar) exampleStarInputs = some cf ∧
        cf.cliques = some cl ∧
        cl.Pairwise (fun c d => c.alignment_set ≠ d.alignment_set ∧
          ¬ ∀ i, c.alignment_set.test i = d.alignment_set.test i)) ∧
    (addAll exampleStar (CliqueFinder.init exampleStar) exampleStarInputs).map
        (fun cf => cf.cliques.map (fun cl =>
          cl.map (fun c => idsOf (memberRecords cf.alignments c.alignment_set)))) =
      some (some [[0, 1], [0, 2], [0, 3]]) :=
  ⟨no_duplicates_active exampleStar exampleStarInputs exampleCandidates (by decide), by decide⟩

/-- Claim C17 as stated fails: with `no_sort` set there is no run of
`addAlignment` calls from the constructor after which two entries of the
active collection have the same membership set. -/
theorem duplicates_never_persist :
    ¬ ∃ (cfg : Config) (inputs : List AlignmentRecord) (cf : CliqueFinder)
        (cl : List Clique) (c d : Clique) (i j : Nat),
      cfg.no_sort = true ∧ 0 < cfg.bits_per_block ∧
      addAll cfg (CliqueFinder.init cfg) inputs = some cf ∧ cf.cliques = some cl ∧
      i < j ∧ cl[i]? = some c ∧ cl[j]? = some d ∧ c.alignment_set = d.alignment_set := by
  rintro ⟨cfg, inputs, cf, cl, c, d, i, j, -, hB, hrun, hcl, hij, hi, hj, heq⟩
  have hpw := reachable_incomparable cfg hB inputs cf cl hrun hcl
  obtain ⟨hi', hci⟩ := List.getElem?_eq_some_iff.mp hi
  obtain ⟨hj', hdj⟩ := List.getElem?_eq_some_iff.mp hj
  have := List.pairwise_iff_getElem.mp hpw i j hi' hj' hij
  rw [hci, hdj] at this
  exact (ne_of_incomparable this).1 heq

/-! ## Two runs side by side -/

theorem setUnion_perm (capacity : Nat) {cl1 cl2 : List Clique} (h : cl1.Perm cl2) :
    setUnion capacity cl1 = setUnion capacity cl2 := by
  apply alignment_set_t.ext_test
  · rw [setUnion_size, setUnion_size]
  · intro i
    rw [Bool.eq_iff_iff, setUnion_test, setUnion_test]
    constructor
    · rintro ⟨hi, c, hc, ht⟩
      exact ⟨hi, c, h.subset hc, ht⟩
    · rintro ⟨hi, c, hc, ht⟩
      exact ⟨hi, c, h.symm.subset hc, ht⟩

theorem intersect_congr (c : Clique) (adj1 adj2 : alignment_set_t)
    (h : ∀ i, c.alignment_set.test i = true → adj1.test i = adj2.test i) :
    c.intersect adj1 = c.intersect adj2 := by
  unfold Clique.intersect
  apply alignment_set_t.ext_test
  · rw [alignment_set_t.size_inter, alignment_set_t.size_inter]
  · intro i
    rw [alignment_set_t.test_inter, alignment_set_t.test_inter]
    cases hc : c.alignment_set.test i
    · rfl
    · rw [h i hc]

theorem keptCliques_congr (v : AlignmentRecord) (adj1 adj2 : alignment_set_t) (cl : List Clique)
    (h : ∀ c ∈ cl, ∀ i, c.alignment_set.test i = true → adj1.test i = adj2.test i) :
    keptCliques v adj1 cl = keptCliques v adj2 cl := by
  unfold keptCliques
  apply List.filter_congr
  intro c hc
  rw [intersect_congr c adj1 adj2 (h c hc)]

theorem stagedFrom_congr (alignments : Store) (v : AlignmentRecord) (index : Nat)
    (adj1 adj2 : alignment_set_t) (cl : List Clique)
    (h : ∀ c ∈ cl, ∀ i, c.alignment_set.test i = true → adj1.test i = adj2.test i) :
    stagedFrom alignments v index adj1 cl = stagedFrom alignments v index adj2 cl := by
  unfold stagedFrom
  have hf : cl.filter (fun c => !isFinal v c && (c.intersect adj1).any) =
      cl.filter (fun c => !isFinal v c && (c.intersect adj2).any) := by
    apply List.filter_congr
    intro c hc
    rw [intersect_congr c adj1 adj2 (h c hc)]
  rw [hf]
  apply List.map_congr_left
  intro c hc
  rw [intersect_congr c adj1 adj2 (h c (List.mem_of_mem_filter hc))]

/-- The state in which the new record is written, for two engines that hold
the same records and the same cliques up to their order: the two states hold
the same records, and their cliques are those of before under one and the
same renumbering. -/
theorem stored_pair (cfg1 cfg2 : Config) (hbits : cfg1.bits_per_block = cfg2.bits_per_block)
    (s1 s2 : CliqueFinder) (a : AlignmentRecord) (cl1 cl2 : List Clique)
    (hwf1 : WF cfg1 s1) (hwf2 : WF cfg2 s2)
    (hcap : s1.capacity = s2.capacity) (hal : s1.alignments = s2.alignments)
    (hid : s1.next_id = s2.next_id) (hcnt : s1.alignment_count = s2.alignment_count)
    (hcl1 : s1.cliques = some cl1) (hcl2 : s2.cliques = some cl2) (hperm : cl1.Perm cl2)
    (u1 u2 : CliqueFinder)
    (h1 : (if s1.alignment_count = s1.capacity then reorganize_storage cfg1 (beforeStore s1 a)
      else some (beforeStore s1 a)) = some u1)
    (h2 : (if s2.alignment_count = s2.capacity then reorganize_storage cfg2 (beforeStore s2 a)
      else some (beforeStore s2 a)) = some u2) :
    ∃ g : Clique → Clique, u1.cliques = some (cl1.map g) ∧ u2.cliques = some (cl2.map g) ∧
      u1.capacity = u2.capacity ∧ u1.alignments = u2.alignments ∧
      u1.next_id = u2.next_id ∧ u1.alignment_count = u2.alignment_count ∧
      u1.alignments_by_length = u2.alignments_by_length := by
  obtain ⟨cl1', hcl1', hok1, hne1⟩ := hwf1.cliques
  obtain ⟨cl2', hcl2', hok2, hne2⟩ := hwf2.cliques
  have e1 : cl1' = cl1 := Option.some.inj (hcl1'.symm.trans hcl1)
  have e2 : cl2' = cl2 := Option.some.inj (hcl2'.symm.trans hcl2)
  subst e1 e2
  by_cases hfull : s1.alignment_count = s1.capacity
  · have hfull2 : s2.alignment_count = s2.capacity := by rw [← hcnt, ← hcap]; exact hfull
    rw [if_pos hfull] at h1
    rw [if_pos hfull2] at h2
    have hpos1 : 0 < s1.alignment_count := by rw [hfull]; exact hwf1.store.cap_pos
    have hpos2 : 0 < s2.alignment_count := by rw [hfull2]; exact hwf2.store.cap_pos
    obtain ⟨r1, es1, hr1, a1, a2, a3, a4, a5, a6, -, -⟩ :=
      reorganize_storage_some cfg1 (beforeStore s1 a) cl1' hcl1 (hne1 hpos1) hwf1.store.present
    obtain ⟨r2, es2, hr2, b1, b2, b3, b4, b5, b6, -, -⟩ :=
      reorganize_storage_some cfg2 (beforeStore s2 a) cl2' hcl2 (hne2 hpos2) hwf2.store.present
    have e1 : r1 = u1 := Option.some.inj (hr1.symm.trans h1)
    have e2 : r2 = u2 := Option.some.inj (hr2.symm.trans h2)
    subst e1 e2
    have hU : setUnion (beforeStore s2 a).capacity cl2' =
        setUnion (beforeStore s1 a).capacity cl1' := by
      show setUnion s2.capacity cl2' = setUnion s1.capacity cl1'
      rw [hcap]
      exact (setUnion_perm _ hperm).symm
    have hc : (beforeStore s2 a).alignment_count = (beforeStore s1 a).alignment_count := hcnt.symm
    have ha : (beforeStore s2 a).alignments = (beforeStore s1 a).alignments := hal.symm
    have hi : (beforeStore s2 a).next_id = (beforeStore s1 a).next_id := by
      show s2.next_id + 1 = s1.next_id + 1
      rw [hid]
    simp only [hU, hc, ha, ← hbits] at b1 b2 b3 b5 b6
    exact ⟨_, a1, b1, a2.trans b2.symm, a3.trans b3.symm, a4.trans (hi.symm.trans b4.symm),
      a5.trans b5.symm, a6.trans b6.symm⟩
  · have hfull2 : ¬ s2.alignment_count = s2.capacity := by rw [← hcnt, ← hcap]; exact hfull
    rw [if_neg hfull] at h1
    rw [if_neg hfull2] at h2
    have e1 := Option.some.inj h1
    have e2 := Option.some.inj h2
    subst e1 e2
    refine ⟨id, ?_, ?_, hcap, hal, ?_, hcnt, ?_⟩
    · rw [List.map_id]; exact hcl1
    · rw [List.map_id]; exact hcl2
    · show s1.next_id + 1 = s2.next_id + 1
      rw [hid]
    · show s1.alignments_by_length = s2.alignments_by_length
      rw [hwf1.store.index_eq, hwf2.store.index_eq, hcnt]

/-- One call of `addAlignment` on two engines that hold the same records and
the same cliques up to their order, under two configurations with the same
block width whose edge tests agree on every pair of distinct records: both
calls succeed, the two states hold the same records again, and the cliques
and deliveries of both are given by the same adjacency set and the same
renumbering. -/
theorem addAlignment_pair (cfg1 cfg2 : Config) (hB : 0 < cfg1.bits_per_block)
    (hbits : cfg1.bits_per_block = cfg2.bits_per_block)
    (hedge : ∀ x y, x ≠ y → setEdge cfg1 x y = setEdge cfg2 x y)
    (s1 s2 : CliqueFinder) (a : AlignmentRecord) (cl1 cl2 : List Clique)
    (hwf1 : WF cfg1 s1) (hwf2 : WF cfg2 s2)
    (hcap : s1.capacity = s2.capacity) (hal : s1.alignments = s2.alignments)
    (hid : s1.next_id = s2.next_id) (hcnt : s1.alignment_count = s2.alignment_count)
    (hcl1 : s1.cliques = some cl1) (hcl2 : s2.cliques = some cl2) (hperm : cl1.Perm cl2) :
    ∃ (t1 t2 : CliqueFinder) (A : Store) (v : AlignmentRecord) (index capacity : Nat)
        (adj : alignment_set_t) (g : Clique → Clique),
      addAlignment cfg1 s1 a = some t1 ∧ addAlignment cfg2 s2 a = some t2 ∧
      WF cfg1 t1 ∧ WF cfg2 t2 ∧
      t1.capacity = t2.capacity ∧ t1.alignments = t2.alignments ∧
      t1.next_id = t2.next_id ∧ t1.alignment_count = t2.alignment_count ∧
      index < capacity ∧
      CliquesOK capacity index (cl1.map g) ∧ CliquesOK capacity index (cl2.map g) ∧
      t1.cliques = some (keptCliques v adj (cl1.map g) ++
        subsetPass (sortUnique cfg1.no_sort (stagedCliques A index capacity
          (stagedFrom A v index adj (cl1.map g))))) ∧
      t2.cliques = some (keptCliques v adj (cl2.map g) ++
        subsetPass (sortUnique cfg2.no_sort (stagedCliques A index capacity
          (stagedFrom A v index adj (cl2.map g))))) ∧
      delivered t1.trace = delivered s1.trace ++
        (finalCliques v (cl1.map g)).map (fun c => memberRecords A c.alignment_set) ∧
      delivered t2.trace = delivered s2.trace ++
        (finalCliques v (cl2.map g)).map (fun c => memberRecords A c.alignment_set) := by
  have hB2 : 0 < cfg2.bits_per_block := by rw [← hbits]; exact hB
  obtain ⟨c1, i1, cl1', f1, es1, hst1, hcl1', hcl31, hs31, hok31, -, hcnt31, hidx1, hget1, -,
    htr1, hes1, -⟩ := storeAlignment_wf cfg1 s1 a hB hwf1
  obtain ⟨c2, i2, cl2', f2, es2, hst2, hcl2', hcl32, hs32, hok32, -, hcnt32, hidx2, hget2, -,
    htr2, hes2, -⟩ := storeAlignment_wf cfg2 s2 a hB2 hwf2
  have e1 : cl1' = cl1 := Option.some.inj (hcl1'.symm.trans hcl1)
  have e2 : cl2' = cl2 := Option.some.inj (hcl2'.symm.trans hcl2)
  subst e1 e2
  obtain ⟨u1, hu1, -, -, hi1, hc1⟩ := storeAlignment_unfold cfg1 s1 c1 a _ i1 hst1
  obtain ⟨u2, hu2, -, -, hi2, hc2⟩ := storeAlignment_unfold cfg2 s2 c2 a _ i2 hst2
  obtain ⟨g, hg1, hg2, hucap, hual, hunid, hucnt, huidx⟩ := stored_pair cfg1 cfg2 hbits s1 s2 a
    cl1' cl2' hwf1 hwf2 hcap hal hid hcnt hcl1 hcl2 hperm u1 u2 hu1 hu2
  -- the two states in which the record has been written
  have hi : i2 = i1 := by rw [hi1, hi2, hucnt]
  have hccap : c2.capacity = c1.capacity := by rw [hc1, hc2]; exact hucap.symm
  have hcal : c2.alignments = c1.alignments := by
    rw [hc1, hc2]
    show u2.alignments.set u2.alignment_count (some (a.setID s2.next_id)) =
      u1.alignments.set u1.alignment_count (some (a.setID s1.next_id))
    rw [hual, hucnt, hid]
  have hccnt : c2.alignment_count = c1.alignment_count := by rw [hcnt31, hcnt32, hi]
  have hcidx : c2.alignments_by_length = c1.alignments_by_length := by
    rw [hs31.index_eq, hs32.index_eq, hccnt]
  have hccl1 : c1.cliques = some (cl1'.map g) := by rw [hc1]; exact hg1
  have hccl2 : c2.cliques = some (cl2'.map g) := by rw [hc2]; exact hg2
  have hm1 : cl1'.map f1 = cl1'.map g := Option.some.inj (hcl31.symm.trans hccl1)
  have hm2 : cl2'.map f2 = cl2'.map g := Option.some.inj (hcl32.symm.trans hccl2)
  rw [hm1] at hok31
  rw [hm2, hi, hccap] at hok32
  rw [← hid] at hst2 hget2
  -- the two adjacency sets
  obtain ⟨adj1, ed1, hsc1, hsz1, hadj1, hed1⟩ := scanEdges_store cfg1 c1 (a.setID s1.next_id) hs31
  obtain ⟨adj2, ed2, hsc2, hsz2, hadj2, hed2⟩ := scanEdges_store cfg2 c2 (a.setID s1.next_id) hs32
  have hagree : ∀ i, i < i1 → adj2.test i = adj1.test i := by
    intro i hlt
    rw [Bool.eq_iff_iff, hadj1, hadj2, hccnt, hcal]
    have hlt' : i1 < c1.alignment_count := by rw [hcnt31]; exact Nat.lt_succ_self _
    constructor
    · rintro ⟨h, r, hr, he⟩
      have hne : a.setID s1.next_id ≠ r := by
        intro heq
        have := hs31.ids_mono i i1 r _ hlt hlt' hr hget1
        rw [heq] at this
        exact Nat.lt_irrefl _ this
      exact ⟨h, r, hr, by rw [hedge _ _ hne]; exact he⟩
    · rintro ⟨h, r, hr, he⟩
      have hne : a.setID s1.next_id ≠ r := by
        intro heq
        have := hs31.ids_mono i i1 r _ hlt hlt' hr hget1
        rw [heq] at this
        exact Nat.lt_irrefl _ this
      exact ⟨h, r, hr, by rw [← hedge _ _ hne]; exact he⟩
  have hcongr : ∀ c ∈ cl2'.map g, ∀ i, c.alignment_set.test i = true →
      adj2.test i = adj1.test i := fun c hc i hci => hagree i (hok32.bits_lt c hc i hci)
  -- the two results
  have heq1 := addAlignment_eq cfg1 s1 c1 a _ i1 _ adj1 ed1 hst1 hccl1 hsc1
  have heq2 := addAlignment_eq cfg2 s2 c2 a _ i2 _ adj2 ed2 hst2 hccl2 hsc2
  obtain ⟨t1, ht1, hwft1⟩ := addAlignment_wf cfg1 s1 a hB hwf1
  obtain ⟨t2, ht2, hwft2⟩ := addAlignment_wf cfg2 s2 a hB2 hwf2
  have ht1' := Option.some.inj (ht1.symm.trans heq1)
  have ht2' := Option.some.inj (ht2.symm.trans heq2)
  refine ⟨t1, t2, c1.alignments, a.setID s1.next_id, i1, c1.capacity, adj1, g, ht1, ht2,
    hwft1, hwft2, ?_, ?_, ?_, ?_, hidx1, hok31, hok32, ?_, ?_, ?_, ?_⟩
  · rw [ht1', ht2']; exact hccap.symm
  · rw [ht1', ht2']; exact hcal.symm
  · rw [ht1', ht2', hc1, hc2]
    exact hunid
  · rw [ht1', ht2']; exact hccnt.symm
  · rw [ht1']
  · rw [ht2']
    show some (keptCliques _ adj2 _ ++ subsetPass (sortUnique cfg2.no_sort
      (stagedCliques c2.alignments i2 c2.capacity (stagedFrom c2.alignments _ i2 adj2 _)))) = _
    rw [keptCliques_congr _ adj2 adj1 _ hcongr, hcal, hi, hccap,
      stagedFrom_congr _ _ _ adj2 adj1 _ hcongr]
  · rw [ht1']
    simp only [delivered_append, htr1, delivered_eq_nil es1 hes1, delivered_addEdges ed1 hed1,
      delivered_map_deliver, List.append_nil]
  · rw [ht2']
    simp only [delivered_append, htr2, delivered_eq_nil es2 hes2, delivered_addEdges ed2 hed2,
      delivered_map_deliver, List.append_nil, hcal]

/-- Two runs of the same calls under two configurations, with a relation
between the two states that every pair of calls preserves. -/
theorem addAll_pair (cfg1 cfg2 : Config) (S : CliqueFinder → CliqueFinder → Prop)
    (hstep : ∀ s1 s2 a, WF cfg1 s1 → WF cfg2 s2 → S s1 s2 →
      ∃ t1 t2, addAlignment cfg1 s1 a = some t1 ∧ addAlignment cfg2 s2 a = some t2 ∧
        WF cfg1 t1 ∧ WF cfg2 t2 ∧ S t1 t2)
    (l : List AlignmentRecord) (s1 s2 : CliqueFinder)
    (hwf1 : WF cfg1 s1) (hwf2 : WF cfg2 s2) (hS : S s1 s2) :
    ∃ t1 t2, addAll cfg1 s1 l = some t1 ∧ addAll cfg2 s2 l = some t2 ∧
      WF cfg1 t1 ∧ WF cfg2 t2 ∧ S t1 t2 := by
  induction l generalizing s1 s2 with
  | nil => exact ⟨s1, s2, rfl, rfl, hwf1, hwf2, hS⟩
  | cons a l ih =>
    obtain ⟨m1, m2, h1, h2, w1, w2, hS'⟩ := hstep s1 s2 a hwf1 hwf2 hS
    obtain ⟨t1, t2, r1, r2, hw1, hw2, hT⟩ := ih m1 m2 w1 w2 hS'
    exact ⟨t1, t2, by simp only [addAll, h1, r1], by simp only [addAll, h2, r2], hw1, hw2, hT⟩

/-- Claim C20.  The self-comparison does not matter.  For two configurations
with the same block width and the same `no_sort` switch whose edge tests
agree on every pair of distinct records, the same calls of `addAlignment`
from the constructor succeed under both and leave the same active collection,
the same delivered cliques and the same stored records.  In the next call the
slot of the new record is in the windowing index when the adjacency scan
runs, the bit of the adjacency set at that slot is the edge test of the new
record against itself, and no clique of the active collection has that slot
as a member. -/
theorem self_comparison_irrelevant (cfg1 cfg2 : Config) (inputs : List AlignmentRecord)
    (a : AlignmentRecord) (hB : 0 < cfg1.bits_per_block)
    (hbits : cfg1.bits_per_block = cfg2.bits_per_block)
    (hsort : cfg1.no_sort = cfg2.no_sort)
    (hedge : ∀ x y, x ≠ y → setEdge cfg1 x y = setEdge cfg2 x y) :
    ∃ cf1 cf2, addAll cfg1 (CliqueFinder.init cfg1) inputs = some cf1 ∧
      addAll cfg2 (CliqueFinder.init cfg2) inputs = some cf2 ∧
      cf1.cliques = cf2.cliques ∧ delivered cf1.trace = delivered cf2.trace ∧
      cf1.alignments = cf2.alignments ∧ cf1.alignment_count = cf2.alignment_count ∧
      cf1.capacity = cf2.capacity ∧ cf1.next_id = cf2.next_id ∧
      ∃ cf3 index cl3 adj es,
        storeAlignment cfg1 cf1 a = some (cf3, a.setID cf1.next_id, index) ∧
        cf3.cliques = some cl3 ∧
        scanEdges cfg1 cf3.alignments (a.setID cf1.next_id) cf3.alignments_by_length
          (alignment_set_t.zeros cf3.capacity) = some (adj, es) ∧
        (0, index) ∈ cf3.alignments_by_length ∧
        cf3.alignments.getD index none = some (a.setID cf1.next_id) ∧
        adj.test index = setEdge cfg1 (a.setID cf1.next_id) (a.setID cf1.next_id) ∧
        ∀ c ∈ cl3, c.alignment_set.test index = false := by
  obtain ⟨cf1, cf2, h1, h2, hwf1, -, hcl, hdel, hal, hcnt, hcap, hid⟩ := addAll_pair cfg1 cfg2
    (fun s1 s2 => s1.cliques = s2.cliques ∧ delivered s1.trace = delivered s2.trace ∧
      s1.alignments = s2.alignments ∧ s1.alignment_count = s2.alignment_count ∧
      s1.capacity = s2.capacity ∧ s1.next_id = s2.next_id)
    (by
      rintro s1 s2 x hwf1 hwf2 ⟨hcl, hdel, hal, hcnt, hcap, hid⟩
      obtain ⟨cl, hcl1, -, -⟩ := hwf1.cliques
      have hcl2 : s2.cliques = some cl := by rw [← hcl]; exact hcl1
      obtain ⟨t1, t2, A, v, index, capacity, adj, g, ht1, ht2, w1, w2, e1, e2, e3, e4, -, -, -,
        k1, k2, d1, d2⟩ := addAlignment_pair cfg1 cfg2 hB hbits hedge s1 s2 x cl cl hwf1 hwf2
          hcap hal hid hcnt hcl1 hcl2 (List.Perm.refl _)
      refine ⟨t1, t2, ht1, ht2, w1, w2, ?_, ?_, e2, e4, e1, e3⟩
      · rw [k1, k2, hsort]
      · rw [d1, d2, hdel])
    inputs (CliqueFinder.init cfg1) (CliqueFinder.init cfg2) (init_wf cfg1 hB)
    (init_wf cfg2 (by rw [← hbits]; exact hB))
    ⟨rfl, rfl, by simp only [CliqueFinder.init, hbits], rfl,
      by simp only [CliqueFinder.init, hbits], rfl⟩
  refine ⟨cf1, cf2, h1, h2, hcl, hdel, hal, hcnt, hcap, hid, ?_⟩
  obtain ⟨cf3, index, cl, f, es, hst, -, hcl3, hs3, hok3, -, hcnt3, -, hget, -, -, -, -⟩ :=
    storeAlignment_wf cfg1 cf1 a hB hwf1
  obtain ⟨adj, ed, hsc, -, hadj, -⟩ := scanEdges_store cfg1 cf3 (a.setID cf1.next_id) hs3
  have hlt : index < cf3.alignment_count := by rw [hcnt3]; exact Nat.lt_succ_self _
  refine ⟨cf3, index, cl.map f, adj, ed, hst, hcl3, hsc, ?_, hget, ?_, ?_⟩
  · rw [hs3.index_eq]
    exact List.mem_map.mpr ⟨index, List.mem_range.mpr hlt, rfl⟩
  · rw [Bool.eq_iff_iff, hadj]
    constructor
    · rintro ⟨-, r, hr, he⟩
      rw [hget] at hr
      rw [← Option.some.inj hr] at he
      exact he
    · intro he
      exact ⟨hlt, _, hget, he⟩
  · intro c hc
    cases ht : c.alignment_set.test index
    · rfl
    · exact absurd (hok3.bits_lt c hc index ht) (Nat.lt_irrefl _)

/-- Claim C20 on the run `exampleABC` under `examplePath`, whose edge
calculator accepts a record paired with itself, and `examplePathNoSelf`,
whose edge calculator rejects it: the active cliques are {0,1} and {1,2}
under both. -/
theorem self_comparison_irrelevant_witness :
    (∀ x y, x ≠ y → setEdge examplePath x y = setEdge examplePathNoSelf x y) ∧
    setEdge examplePath ⟨0, 0, 10, 0⟩ ⟨0, 0, 10, 0⟩ ≠
      setEdge examplePathNoSelf ⟨0, 0, 10, 0⟩ ⟨0, 0, 10, 0⟩ ∧
    (addAll examplePath (CliqueFinder.init examplePath) exampleABC).map
        (fun cf => cf.cliques.map (fun cl =>
          cl.map (fun c => idsOf (memberRecords cf.alignments c.alignment_set)))) =
      some (some [[0, 1], [1, 2]]) ∧
    ∃ cf1 cf2, addAll examplePath (CliqueFinder.init examplePath) exampleABC = some cf1 ∧
      addAll examplePathNoSelf (CliqueFinder.init examplePathNoSelf) exampleABC = some cf2 ∧
      cf1.cliques = cf2.cliques ∧ delivered cf1.trace = delivered cf2.trace ∧
      cf1.alignments = cf2.alignments ∧ cf1.alignment_count = cf2.alignment_count ∧
      cf1.capacity = cf2.capacity ∧ cf1.next_id = cf2.next_id ∧
      ∃ cf3 index cl3 adj es,
        storeAlignment examplePath cf1 ⟨3, 6, 16, 0⟩ =
          some (cf3, AlignmentRecord.setID ⟨3, 6, 16, 0⟩ cf1.next_id, index) ∧
        cf3.cliques = some cl3 ∧
        scanEdges examplePath cf3.alignments (AlignmentRecord.setID ⟨3, 6, 16, 0⟩ cf1.next_id)
          cf3.alignments_by_length (alignment_set_t.zeros cf3.capacity) = some (adj, es) ∧
        (0, index) ∈ cf3.alignments_by_length ∧
        cf3.alignments.getD index none =
          some (AlignmentRecord.setID ⟨3, 6, 16, 0⟩ cf1.next_id) ∧
        adj.test index = setEdge examplePath (AlignmentRecord.setID ⟨3, 6, 16, 0⟩ cf1.next_id)
          (AlignmentRecord.setID ⟨3, 6, 16, 0⟩ cf1.next_id) ∧
        ∀ c ∈ cl3, c.alignment_set.test index = false :=
  ⟨fun x y hne => by simp [setEdge, examplePath, examplePathNoSelf, hne], by decide, by decide,
    self_comparison_irrelevant examplePath examplePathNoSelf exampleABC ⟨3, 6, 16, 0⟩
      (by decide) rfl rfl
      (fun x y hne => by simp [setEdge, examplePath, examplePathNoSelf, hne])⟩

/-! ## The subset pass on two candidate lists with the same maximal sets -/

theorem subsetPass_nodup (l : List Clique) : (subsetPass l).Nodup := by
  refine (subsetPass_pairwise l).imp ?_
  intro a b h heq
  rw [heq, contains_refl] at h
  exact Bool.noConfusion h.1

/-- A clique kept by the subset pass on `l1` is kept by the subset pass on
`l2` when every entry of either list is contained in an entry of the other
and the entries are determined by their membership sets. -/
theorem subsetPass_mem_of_cover (A : Store) (capacity : Nat) (l1 l2 : List Clique)
    (hdet1 : ∀ n ∈ l1, n = Clique.ofSet A n.alignment_set ∧ n.alignment_set.size = capacity)
    (hdet2 : ∀ n ∈ l2, n = Clique.ofSet A n.alignment_set ∧ n.alignment_set.size = capacity)
    (h12 : ∀ x ∈ l1, ∃ y ∈ l2, y.contains x = true)
    (h21 : ∀ x ∈ l2, ∃ y ∈ l1, y.contains x = true)
    (x : Clique) (hx : x ∈ subsetPass l1) : x ∈ subsetPass l2 := by
  obtain ⟨y, hy, hyx⟩ := h12 x (subsetPass_sub l1 x hx)
  obtain ⟨z, hz, hzy⟩ := subsetPass_cover l2 y hy
  obtain ⟨w, hw, hwz⟩ := h21 z (subsetPass_sub l2 z hz)
  obtain ⟨u, hu, huw⟩ := subsetPass_cover l1 w hw
  have hzx : z.contains x = true := contains_trans hzy hyx
  have hux : u.contains x = true := contains_trans huw (contains_trans hwz hzx)
  have hueq : u = x := by
    by_contra hne
    have := (subsetPass_pairwise l1).forall (fun _ _ h => ⟨h.2, h.1⟩) hu hx hne
    rw [hux] at this
    exact Bool.noConfusion this.2
  have hxz : x.contains z = true := by
    rw [← hueq]
    exact contains_trans huw hwz
  have hset : z.alignment_set = x.alignment_set := by
    apply alignment_set_t.ext_test
    · rw [(hdet2 z (subsetPass_sub l2 z hz)).2, (hdet1 x (subsetPass_sub l1 x hx)).2]
    · intro i
      rw [Bool.eq_iff_iff]
      exact ⟨(contains_iff x z).mp hxz i, (contains_iff z x).mp hzx i⟩
  have : z = x := by
    rw [(hdet2 z (subsetPass_sub l2 z hz)).1, (hdet1 x (subsetPass_sub l1 x hx)).1, hset]
  rw [← this]
  exact hz

theorem subsetPass_perm_of_cover (A : Store) (capacity : Nat) (l1 l2 : List Clique)
    (hdet1 : ∀ n ∈ l1, n = Clique.ofSet A n.alignment_set ∧ n.alignment_set.size = capacity)
    (hdet2 : ∀ n ∈ l2, n = Clique.ofSet A n.alignment_set ∧ n.alignment_set.size = capacity)
    (h12 : ∀ x ∈ l1, ∃ y ∈ l2, y.contains x = true)
    (h21 : ∀ x ∈ l2, ∃ y ∈ l1, y.contains x = true) :
    (subsetPass l1).Perm (subsetPass l2) := by
  rw [List.perm_ext_iff_of_nodup (subsetPass_nodup l1) (subsetPass_nodup l2)]
  intro x
  exact ⟨subsetPass_mem_of_cover A capacity l1 l2 hdet1 hdet2 h12 h21 x,
    subsetPass_mem_of_cover A capacity l2 l1 hdet2 hdet1 h21 h12 x⟩

theorem stagedCliques_perm (A : Store) (index capacity : Nat) {l1 l2 : List Clique}
    (h : l1.Perm l2) : (stagedCliques A index capacity l1).Perm (stagedCliques A index capacity l2) := by
  unfold stagedCliques
  rw [h.length_eq]
  split
  · exact List.Perm.refl _
  · exact h

/-- The cliques a call adds to the collection, for the same candidates in
another order and with the other setting of `no_sort`: the same cliques up to
their order. -/
theorem newCliques_perm (A : Store) (v : AlignmentRecord) (index capacity : Nat)
    (adj : alignment_set_t) (ns1 ns2 : Bool) (cl1 cl2 : List Clique)
    (hidx : index < capacity)
    (hsize1 : ∀ c ∈ cl1, c.alignment_set.size = capacity)
    (hperm : cl1.Perm cl2) :
    (subsetPass (sortUnique ns1 (stagedCliques A index capacity
        (stagedFrom A v index adj cl1)))).Perm
      (subsetPass (sortUnique ns2 (stagedCliques A index capacity
        (stagedFrom A v index adj cl2)))) := by
  have hsize2 : ∀ c ∈ cl2, c.alignment_set.size = capacity :=
    fun c hc => hsize1 c (hperm.symm.subset hc)
  have hL : (stagedCliques A index capacity (stagedFrom A v index adj cl1)).Perm
      (stagedCliques A index capacity (stagedFrom A v index adj cl2)) := by
    apply stagedCliques_perm
    unfold stagedFrom
    exact (hperm.filter _).map _
  have hdet : ∀ (ns : Bool) (cl : List Clique), (∀ c ∈ cl, c.alignment_set.size = capacity) →
      ∀ n ∈ sortUnique ns (stagedCliques A index capacity (stagedFrom A v index adj cl)),
        n = Clique.ofSet A n.alignment_set ∧ n.alignment_set.size = capacity := by
    intro ns cl hsize n hn
    have hn' := sortUnique_sub ns _ n hn
    exact ⟨staged_eq_ofSet hn', (test_staged hsize hidx hn').1⟩
  have hcov : ∀ (ns ns' : Bool) (L L' : List Clique), (∀ x ∈ L, x ∈ L') →
      ∀ x ∈ sortUnique ns L, ∃ y ∈ sortUnique ns' L', y.contains x = true := by
    intro ns ns' L L' hsub x hx
    obtain ⟨y, hy, hyx⟩ := sortUnique_cover ns' L' x (hsub x (sortUnique_sub ns L x hx))
    refine ⟨y, hy, ?_⟩
    rw [contains_iff, hyx]
    exact fun _ h => h
  exact subsetPass_perm_of_cover A capacity _ _ (hdet ns1 cl1 hsize1) (hdet ns2 cl2 hsize2)
    (hcov ns1 ns2 _ _ (fun x hx => hL.subset hx))
    (hcov ns2 ns1 _ _ (fun x hx => hL.symm.subset hx))

/-- Claim C18.  The `no_sort` switch does not change the result.  For every
configuration (block width, edge calculators, edge writer) and every sequence
of `addAlignment` calls from the constructor, the run with `no_sort` set and
the run with `no_sort` unset both succeed and end with the same stored
records, with the same cliques in the active collection up to their order,
hence the same set of membership sets, and with the same cliques delivered to
the collector up to their order.  The sort is by `clique_comp_t` and the
duplicate collapse by `clique_equal_t`, both over membership content. -/
theorem no_sort_same_result (cfg : Config) (inputs : List AlignmentRecord)
    (hB : 0 < cfg.bits_per_block) :
    ∃ cf1 cf2 cl1 cl2,
      addAll { cfg with no_sort := true } (CliqueFinder.init { cfg with no_sort := true })
        inputs = some cf1 ∧
      addAll { cfg with no_sort := false } (CliqueFinder.init { cfg with no_sort := false })
        inputs = some cf2 ∧
      cf1.cliques = some cl1 ∧ cf2.cliques = some cl2 ∧ cl1.Perm cl2 ∧
      (∀ s, (∃ c ∈ cl1, c.alignment_set = s) ↔ ∃ c ∈ cl2, c.alignment_set = s) ∧
      (delivered cf1.trace).Perm (delivered cf2.trace) ∧
      (∀ m, m ∈ delivered cf1.trace ↔ m ∈ delivered cf2.trace) ∧
      cf1.alignments = cf2.alignments ∧ cf1.alignment_count = cf2.alignment_count ∧
      cf1.capacity = cf2.capacity ∧ cf1.next_id = cf2.next_id := by
  obtain ⟨cf1, cf2, h1, h2, -, -, hcap, hal, hid, hcnt, cl1, cl2, hcl1, hcl2, hperm, hdel⟩ :=
    addAll_pair { cfg with no_sort := true } { cfg with no_sort := false }
    (fun s1 s2 => s1.capacity = s2.capacity ∧ s1.alignments = s2.alignments ∧
      s1.next_id = s2.next_id ∧ s1.alignment_count = s2.alignment_count ∧
      ∃ cl1 cl2, s1.cliques = some cl1 ∧ s2.cliques = some cl2 ∧ cl1.Perm cl2 ∧
        (delivered s1.trace).Perm (delivered s2.trace))
    (by
      rintro s1 s2 x hwf1 hwf2 ⟨hcap, hal, hid, hcnt, cl1, cl2, hcl1, hcl2, hperm, hdel⟩
      obtain ⟨t1, t2, A, v, index, capacity, adj, g, ht1, ht2, w1, w2, e1, e2, e3, e4, hidx,
        hok1, -, k1, k2, d1, d2⟩ := addAlignment_pair { cfg with no_sort := true }
          { cfg with no_sort := false } hB rfl (fun _ _ _ => rfl) s1 s2 x cl1 cl2 hwf1 hwf2
          hcap hal hid hcnt hcl1 hcl2 hperm
      refine ⟨t1, t2, ht1, ht2, w1, w2, e1, e2, e3, e4, _, _, k1, k2, ?_, ?_⟩
      · apply List.Perm.append
        · unfold keptCliques
          exact (hperm.map g).filter _
        · exact newCliques_perm A v index capacity adj true false _ _ hidx hok1.size_eq
            (hperm.map g)
      · rw [d1, d2]
        apply List.Perm.append hdel
        unfold finalCliques
        exact ((hperm.map g).filter _).map _)
    inputs (CliqueFinder.init { cfg with no_sort := true })
    (CliqueFinder.init { cfg with no_sort := false }) (init_wf _ hB) (init_wf _ hB)
    ⟨rfl, rfl, rfl, rfl, [], [], rfl, rfl, List.Perm.refl _, List.Perm.refl _⟩
  refine ⟨cf1, cf2, cl1, cl2, h1, h2, hcl1, hcl2, hperm, ?_, hdel, fun m => hdel.mem_iff,
    hal, hcnt, hcap, hid⟩
  intro s
  constructor
  · rintro ⟨c, hc, hs⟩
    exact ⟨c, hperm.subset hc, hs⟩
  · rintro ⟨c, hc, hs⟩
    exact ⟨c, hperm.symm.subset hc, hs⟩

/-- Claim C18 on the run `exampleStarInputs` under `exampleStar`: with
`no_sort` set the fourth call stages the candidate {0,3} twice, with `no_sort`
unset the duplicate is collapsed before the subset pass; the active cliques
are {0,1}, {0,2}, {0,3} either way. -/
theorem no_sort_same_result_witness :
    ((addAll { exampleStar with no_sort := false }
        (CliqueFinder.init { exampleStar with no_sort := false }) exampleStarInputs).map
        (fun cf => cf.cliques.map (fun cl =>
          cl.map (fun c => idsOf (memberRecords cf.alignments c.alignment_set)))) =
      some (some [[0, 1], [0, 2], [0, 3]])) ∧
    ∃ cf1 cf2 cl1 cl2,
      addAll { exampleStar with no_sort := true }
        (CliqueFinder.init { exampleStar with no_sort := true }) exampleStarInputs = some cf1 ∧
      addAll { exampleStar with no_sort := false }
        (CliqueFinder.init { exampleStar with no_sort := false }) exampleStarInputs = some cf2 ∧
      cf1.cliques = some cl1 ∧ cf2.cliques = some cl2 ∧ cl1.Perm cl2 ∧
      (∀ s, (∃ c ∈ cl1, c.alignment_set = s) ↔ ∃ c ∈ cl2, c.alignment_set = s) ∧
      (delivered cf1.trace).Perm (delivered cf2.trace) ∧
      (∀ m, m ∈ delivered cf1.trace ↔ m ∈ delivered cf2.trace) ∧
      cf1.alignments = cf2.alignments ∧ cf1.alignment_count = cf2.alignment_count ∧
      cf1.capacity = cf2.capacity ∧ cf1.next_id = cf2.next_id :=
  ⟨by decide, no_sort_same_result exampleStar exampleStarInputs (by decide)⟩

end HaploClique
